import Mathlib

set_option linter.unreachableTactic false
set_option linter.unnecessarySeqFocus false
set_option linter.unusedTactic false
set_option linter.unusedVariables false

/-!
Verification development for the standalone multi-portal scraper
(`scrape.py`).  The Python source is shallowly embedded: strings are
`List Char`, every loop of the source is a structural Lean recursion
(page loops carry an explicit fuel that is at least the number of
iterations the source can perform), and the outside world (HTTP
responses, parsed HTML, Playwright query results) is an explicit
environment record.  Each scraper is modelled as a function from its
environment to a trace of events: page requests, detail requests,
extracted raw items, and emitted records.
-/

/-- Strings of the embedded program: Python `str` values as lists of
characters. -/
abbrev Str := List Char

/-- Shorthand turning a Lean string literal into an embedded string. -/
def lit (s : String) : Str := s.toList

/-- ASCII upper-casing of one character, the model of what Python
`str.upper` does on the ASCII range. -/
def upperChar (c : Char) : Char :=
  if 97 ≤ c.toNat ∧ c.toNat ≤ 122 then Char.ofNat (c.toNat - 32) else c

/-- ASCII lower-casing of one character, the model of Python
`str.lower` on the ASCII range. -/
def lowerChar (c : Char) : Char :=
  if 65 ≤ c.toNat ∧ c.toNat ≤ 90 then Char.ofNat (c.toNat + 32) else c

/-- Model of Python `str.upper`. -/
def pyUpper (s : Str) : Str := s.map upperChar

/-- Model of Python `str.lower`. -/
def pyLower (s : Str) : Str := s.map lowerChar

/-- Characters removed by Python `str.strip()` (ASCII whitespace). -/
def isSpaceChar (c : Char) : Bool :=
  c = ' ' ∨ c = '\t' ∨ c = '\n' ∨ c = '\r' ∨ c = '\x0b' ∨ c = '\x0c'

/-- Model of Python `str.strip()`. -/
def pyStrip (s : Str) : Str :=
  ((s.dropWhile isSpaceChar).reverse.dropWhile isSpaceChar).reverse

/-- Helper for `pyTitle`: the Boolean argument records whether the
previous character was alphabetic. -/
def pyTitleGo : Bool → Str → Str
  | _, [] => []
  | prevAlpha, c :: cs =>
    (if c.isAlpha then (if prevAlpha then lowerChar c else upperChar c) else c)
      :: pyTitleGo c.isAlpha cs

/-- Model of Python `str.title()` on the ASCII range: the first letter
of every alphabetic run is upper-cased, the rest lower-cased. -/
def pyTitle (s : Str) : Str := pyTitleGo false s

/-- Helper for `replaceAll`: fuel-indexed scan; the fuel starts at the
length of the subject string, which suffices because every step
consumes at least one character. -/
def replaceAllGo (pat rep : Str) : Nat → Str → Str
  | 0, s => s
  | _ + 1, [] => []
  | fuel + 1, c :: rest =>
    if pat.isPrefixOf (c :: rest) then
      rep ++ replaceAllGo pat rep fuel (rest.drop (pat.length - 1))
    else
      c :: replaceAllGo pat rep fuel rest

/-- Model of Python `str.replace(pat, rep)` for a non-empty pattern:
every occurrence of `pat` is replaced by `rep`, scanning left to
right. -/
def replaceAll (pat rep s : Str) : Str :=
  if pat = [] then s else replaceAllGo pat rep s.length s

/-- First suffix of `s` that follows an occurrence of `pat`, if any;
used to model `re.search` against a literal prefix pattern. -/
def subAfter (pat : Str) : Str → Option Str
  | [] => if pat = [] then some [] else none
  | c :: rest =>
    if pat.isPrefixOf (c :: rest) then some ((c :: rest).drop pat.length)
    else subAfter pat rest

/-- Model of `re.sub(r"/products/.*", "", link)`: everything from the
first occurrence of `/products/` onwards is removed. -/
def cutProducts : Str → Str
  | [] => []
  | c :: rest =>
    if (lit "/products/").isPrefixOf (c :: rest) then []
    else c :: cutProducts rest

/-- Model of `urllib.parse.urlparse(url).netloc` for the
`scheme://host/path` URLs the scraper feeds it: the text between
`://` and the next `/`. -/
def netlocOf (url : Str) : Str :=
  match subAfter (lit "://") url with
  | some r => r.takeWhile (fun c => ¬ c = '/')
  | none => []

/-- Model of `urlparse(href).netloc.replace("www.", "")` as used to
derive the `domain` field. -/
def domainOf (url : Str) : Str := replaceAll (lit "www.") [] (netlocOf url)

/-- Model of `urllib.parse.urljoin(base, href)` for the site-relative
hrefs the portals produce (href starting with `/`): the base is
prepended. -/
def urljoin (base rel : Str) : Str := base ++ rel

/-- Bot-defense fingerprints of `has_challenge` (`scrape.py` lines
57-63), verbatim from the source. -/
def challengeIndicators : List Str :=
  [lit "challenge-platform", lit "just a moment", lit "cf-challenge",
   lit "cf_chl_opt", lit "incapsula", lit "_incapsula_resource",
   lit "incident_id", lit "human verification", lit "awswaf",
   lit "g-recaptcha-response", lit "class=\x22g-recaptcha\x22",
   lit "captcha-delivery", lit "hcaptcha-box", lit "capado_robots",
   lit "control robots"]

/-- Substring test on embedded strings, the model of the Python `in`
operator on `str`. -/
def hasSub (pat : Str) : Str → Bool
  | [] => pat.isEmpty
  | c :: rest => pat.isPrefixOf (c :: rest) || hasSub pat rest

/-- Model of `has_challenge` (`scrape.py` lines 55-64): lower-case the
content and test whether any fingerprint occurs as a substring. -/
def hasChallenge (content : Str) : Bool :=
  challengeIndicators.any (fun i => hasSub i (pyLower content))

/-- Facts about `Char.ofNat` on small codes, needed for the
upper-casing lemmas. -/
theorem toNat_ofNat_small (n : Nat) (h : n < 55296) : (Char.ofNat n).toNat = n := by
  have hv : n.isValidChar := Or.inl h
  simp [Char.ofNat, hv, Char.ofNatAux, Char.toNat, UInt32.toNat, BitVec.toNat_ofNatLt]

/-- Upper-casing a character twice is the same as doing it once. -/
theorem upperChar_idem (c : Char) : upperChar (upperChar c) = upperChar c := by
  unfold upperChar
  split
  · rename_i h
    rw [if_neg]
    rw [toNat_ofNat_small _ (by omega)]
    omega
  · rfl

/-- Upper-casing a string twice is the same as doing it once: the model
of the fact that Python `s.upper().upper() == s.upper()`. -/
theorem pyUpper_idem (s : Str) : pyUpper (pyUpper s) = pyUpper s := by
  unfold pyUpper
  rw [List.map_map]
  exact List.map_congr_left (fun c _ => upperChar_idem c)

/-- Upper-casing preserves non-emptiness. -/
theorem pyUpper_ne_nil {s : Str} (h : s ≠ []) : pyUpper s ≠ [] := by
  simpa [pyUpper] using h

/-!
Records, events and traces.  A record models one Python company dict:
an insertion-ordered association list from field names to string
values.  A run of a scraper is modelled as a trace of events.
-/

/-- Model of one company dict: field name to value, in insertion
order. -/
abbrev Rec := List (String × Str)

/-- Model of Python dict assignment `d[k] = v`: replace in place when
the key exists, append otherwise. -/
def dictSet (r : Rec) (k : String) (v : Str) : Rec :=
  match r with
  | [] => [(k, v)]
  | (k0, v0) :: rest => if k0 = k then (k, v) :: rest else (k0, v0) :: dictSet rest k v

/-- Model of the output filter of `main` (`scrape.py` line 922):
`{k: v for k, v in company.items() if v}` — all values are strings, so
falsy means the empty string. -/
def cleanRec (r : Rec) : Rec := r.filter (fun kv => ¬ kv.2 = [])

/-- Events observable in a run of a scraper. -/
inductive Ev where
  /-- A navigation that is not part of a page sequence (home pages,
  city-list fetch). -/
  | nav (tag : String)
  /-- A request for one page of the pagination sequence of a scope. -/
  | pageReq (scope : Str) (page : Nat)
  /-- A detail-page (or per-item) request. -/
  | detailReq (key : Str)
  /-- A raw item extracted from a page, tagged with its canonical
  dedup key. -/
  | raw (key : Str)
  /-- A record appended to the company list. -/
  | emit (r : Rec)
deriving DecidableEq

/-- Request events: everything that issues a network fetch. -/
def isReqEv : Ev → Bool
  | .nav _ => true
  | .pageReq _ _ => true
  | .detailReq _ => true
  | _ => false

/-- Emission events. -/
def isEmitEv : Ev → Bool
  | .emit _ => true
  | _ => false

/-- Number of records emitted in a trace. -/
def emitCount (evs : List Ev) : Nat := evs.countP isEmitEv

/-- Records emitted in a trace, in order: the `companies` list of the
source. -/
def emittedRecords (evs : List Ev) : List Rec :=
  evs.filterMap (fun e => match e with | .emit r => some r | _ => none)

/-- Model of the output sink of `main` (`scrape.py` lines 920-923):
each collected record is emptiness-filtered and then written as one
JSON line. -/
def outputRecords (companies : List Rec) : List Rec := companies.map cleanRec

/-- Dedup key stored in a record: the value of its `legal_name`
field. -/
def recKey (r : Rec) : Option Str := r.lookup "legal_name"

/-- Source URL stored in a record. -/
def recUrl (r : Rec) : Option Str := r.lookup "source_url"

/-- Number of emitted records in a trace whose `legal_name` equals a
given key. -/
def emitKeyCount (k : Str) (evs : List Ev) : Nat :=
  evs.countP (fun e => match e with | .emit r => recKey r == some k | _ => false)

/-- Number of emitted records in a trace whose `source_url` equals a
given URL. -/
def emitUrlCount (u : Str) (evs : List Ev) : Nat :=
  evs.countP (fun e => match e with | .emit r => recUrl r == some u | _ => false)

/-- Number of raw extracted items in a trace carrying a given
canonical key. -/
def rawCount (k : Str) (evs : List Ev) : Nat :=
  evs.countP (fun e => match e with | .raw k0 => k0 == k | _ => false)

/-- Running item-limit invariant: scanning the trace with an emit
counter that starts at `t`, every request event happens while the
counter is still below `L`. -/
def BoundedFrom (L : Nat) : Nat → List Ev → Prop
  | _, [] => True
  | t, e :: rest =>
      (isReqEv e = true → t < L) ∧
      BoundedFrom L (if isEmitEv e then t + 1 else t) rest

theorem boundedFrom_nil (L t : Nat) : BoundedFrom L t [] := trivial

theorem boundedFrom_append {L t : Nat} {a b : List Ev} :
    BoundedFrom L t (a ++ b) ↔
      BoundedFrom L t a ∧ BoundedFrom L (t + emitCount a) b := by
  induction a generalizing t with
  | nil => simp [BoundedFrom, emitCount]
  | cons e rest ih =>
    by_cases he : isEmitEv e = true
    · simp [BoundedFrom, he, ih, emitCount, List.countP_cons, and_assoc,
        Nat.add_comm, Nat.add_assoc, Nat.add_left_comm]
    · simp [BoundedFrom, he, ih, emitCount, List.countP_cons, and_assoc]

theorem emitCount_append (a b : List Ev) :
    emitCount (a ++ b) = emitCount a + emitCount b := by
  simp [emitCount, List.countP_append]

/-- In a trace satisfying the running invariant, every request event
is preceded by fewer than `L` emissions. -/
theorem boundedFrom_split {L t : Nat} {evs : List Ev}
    (h : BoundedFrom L t evs) :
    ∀ pre e post, evs = pre ++ e :: post → isReqEv e = true → t + emitCount pre < L := by
  intro pre e post hsplit hreq
  subst hsplit
  rw [boundedFrom_append] at h
  exact Nat.lt_of_le_of_lt (Nat.le_refl _) (h.2.1 hreq)

/-!
Challenge Waiter (`wait_for_challenge`, `scrape.py` lines 67-87).  The
page content read at each poll tick is abstracted as a function from
the read index (0 = the initial read, k = after the k-th 5 second
sleep) to the content.  The result carries the Boolean outcome and the
number of poll ticks performed; elapsed polling time is 5 seconds per
tick.  The loop `while elapsed < timeout` is structural on a fuel that
starts at `timeout`, which is at least the number of iterations since
`elapsed` grows by 5 each time.
-/

/-- Polling loop of `wait_for_challenge`: `elapsed` and `tick` mirror
the source variables, `fuel` makes the recursion structural. -/
def challengeLoop (contents : Nat → Str) (timeout : Nat) :
    Nat → Nat → Nat → Bool × Nat
  | 0, _, tick => (false, tick)
  | fuel + 1, elapsed, tick =>
    if elapsed < timeout then
      if hasChallenge (contents (tick + 1)) then
        challengeLoop contents timeout fuel (elapsed + 5) (tick + 1)
      else (true, tick + 1)
    else (false, tick)

/-- Model of `wait_for_challenge` (`scrape.py` lines 67-87): returns
whether the challenge cleared, together with the number of poll ticks
performed. -/
def waitForChallenge (contents : Nat → Str) (timeout : Nat) : Bool × Nat :=
  if hasChallenge (contents 0) then challengeLoop contents timeout timeout 0 0
  else (true, 0)

/-!
Rate-Limit Retrier (`_cffi_fetch`, `scrape.py` lines 117-133).  The
server is abstracted as a function from the attempt index to the HTTP
status code of that attempt.  The trace records how many attempts were
issued, which attempt produced the returned response, and the backoff
sleeps performed.
-/

/-- Outcome of a `_cffi_fetch` call. -/
structure FetchTrace where
  /-- Number of requests actually issued. -/
  attempts : Nat
  /-- Index of the attempt whose response was returned to the
  caller. -/
  returned : Nat
  /-- Backoff sleeps performed, in seconds, in order. -/
  waits : List Nat
deriving DecidableEq

/-- Retry loop of `_cffi_fetch`: `attempt` mirrors the loop variable of
`for attempt in range(max_retries)`, the fuel is the number of loop
iterations left. -/
def cffiGo (status : Nat → Nat) (maxRetries : Nat) :
    Nat → Nat → List Nat → FetchTrace
  | 0, attempt, waits => ⟨attempt, attempt - 1, waits⟩
  | fuel + 1, attempt, waits =>
    if status attempt = 429 ∧ attempt < maxRetries - 1 then
      cffiGo status maxRetries fuel (attempt + 1) (waits ++ [30 * 2 ^ attempt])
    else ⟨attempt + 1, attempt, waits⟩

/-- Model of `_cffi_fetch` (`scrape.py` lines 117-133) for
`max_retries ≥ 1`: retries on HTTP 429 with backoff `30 * 2 ^ attempt`
while attempts remain, otherwise returns the current response. -/
def cffiFetch (status : Nat → Nat) (maxRetries : Nat) : FetchTrace :=
  cffiGo status maxRetries maxRetries 0 []

/-!
Delay Scheduler.  `human_delay` (`scrape.py` lines 51-52) declares
`min_s: float = MIN_DELAY, max_s: float = MAX_DELAY`; Python evaluates
default argument values once, when the `def` statement executes, so
they capture the module-initial values 4.0 and 7.0.  `main`
(lines 902-904) later rebinds the module globals `MIN_DELAY` and
`MAX_DELAY` from `--delay-min` / `--delay-max`; a direct read such as
`random.uniform(MIN_DELAY, MAX_DELAY)` inside `scrape_empresite`
(lines 174, 227) sees the rebinding, while a call `human_delay()` with
no arguments keeps using the captured defaults.  Delay values are
modelled as rationals.
-/

/-- Module-level initial value of `MIN_DELAY` (`scrape.py` line 43). -/
def minDelayInit : ℚ := 4

/-- Module-level initial value of `MAX_DELAY` (`scrape.py` line 44). -/
def maxDelayInit : ℚ := 7

/-- Module globals that `main` rebinds. -/
structure DelayGlobals where
  /-- Current value of the module global `MIN_DELAY`. -/
  minDelay : ℚ
  /-- Current value of the module global `MAX_DELAY`. -/
  maxDelay : ℚ
deriving DecidableEq

/-- Globals as they stand when the module has just loaded. -/
def delayGlobalsInit : DelayGlobals := ⟨minDelayInit, maxDelayInit⟩

/-- Default argument values of `human_delay`, captured when the `def`
executes, before `main` runs. -/
def humanDelayDefaults : ℚ × ℚ := (delayGlobalsInit.minDelay, delayGlobalsInit.maxDelay)

/-- Bounds used by a call `human_delay()` with no arguments, in any
later global state: the captured defaults. -/
def humanDelayBounds (_g : DelayGlobals) : ℚ × ℚ := humanDelayDefaults

/-- Bounds used by `random.uniform(MIN_DELAY, MAX_DELAY)` inside
`scrape_empresite`: the globals read at call time. -/
def empresiteSleepBounds (g : DelayGlobals) : ℚ × ℚ := (g.minDelay, g.maxDelay)

/-- Model of `main` lines 902-904: the globals are rebound from the
parsed `--delay-min` / `--delay-max` values. -/
def mainSetDelays (delayMin delayMax : ℚ) (_g : DelayGlobals) : DelayGlobals :=
  ⟨delayMin, delayMax⟩

/-!
Empresite (`scrape_empresite`, `scrape.py` lines 136-260).  The parsed
HTML of a listing page is abstracted as a list of cards; the parsed
detail page of a card as an `EmpDetail`.  Requests can fail
(`Option`): `none` models a non-200 status or a raised transport
exception.
-/

/-- Extraction results from one empresite detail page with status 200
(`scrape.py` lines 231-247); each field is `none` when the regex or
selector does not match. -/
structure EmpDetail where
  /-- Groups of the `'CNAE': 'ddd' ... 'GRUPO_SECTOR': '...'` regex. -/
  cnae : Option (Str × Str)
  /-- Phone candidate: `ph.get("content") or ph.get_text(strip=True)`
  of the telephone element. -/
  phoneCand : Option Str
  /-- Href of the first `a[href^="mailto:"]`. -/
  emailHref : Option Str
  /-- Href of the first `a[itemprop="url"][href*="http"]`. -/
  webHref : Option Str
deriving DecidableEq

/-- One `div.cardCompanyBox` of an empresite listing page
(`scrape.py` lines 197-223), as the card loop reads it. -/
structure EmpCard where
  /-- Content attribute of `meta[itemprop="name"]`; `none` when the
  element is missing. -/
  nameMeta : Option Str
  /-- Href of `h3 a`; `none` when the element is missing. -/
  linkHref : Option Str
  /-- Stripped text of `span[itemprop="address"]`. -/
  addrText : Option Str
  /-- Stripped text of `span.line-clamp-2`. -/
  descText : Option Str
  /-- Parsed detail page; `none` models a failed or non-200 detail
  fetch. -/
  detail : Option EmpDetail
deriving DecidableEq

/-- Outside world of one empresite run. -/
structure EmpEnv where
  /-- City list parsed from the province page; `none` models a non-200
  response to the city-list fetch. -/
  cityList : Option (List (Str × Str))
  /-- Cards of a listing page, per city slug and page number; `none`
  models a failed or non-200 page fetch. -/
  page : Str → Nat → Option (List EmpCard)

/-- Base URL of the empresite portal. -/
def empresiteBASE : Str := lit "https://empresite.eleconomista.es"

/-- Model of `re.sub(r"[^\d+]", "", cand)` (`scrape.py` lines 238,
378, 469): every character that is neither a digit nor a plus sign is
removed. -/
def phoneSub (cand : Str) : Str := cand.filter (fun c => c.isDigit || c = '+')

/-- Phone normalization used by europages and paginasamarillas
(`scrape.py` lines 378, 469): drop `tel:` then keep digits and plus
signs. -/
def telPhoneNorm (cand : Str) : Str := phoneSub (replaceAll (lit "tel:") [] cand)

/-- Phone normalization and length gate of the empresite detail scrape
(`scrape.py` lines 238-240): the field is set only when the normalized
string has at least 9 characters. -/
def empresitePhoneField (cand : Str) : Option Str :=
  let phone := phoneSub cand
  if 9 ≤ phone.length then some phone else none

/-- Record built for one card (`scrape.py` lines 214-223). -/
def empresiteRecBase (region citySlug legal detailUrl addr desc : Str) : Rec :=
  [("legal_name", pyUpper legal),
   ("city", pyTitle (replaceAll (lit "-") (lit " ")
      (citySlug.takeWhile (fun c => ¬ c = '-')))),
   ("province", pyTitle region),
   ("region", pyTitle region),
   ("address", addr),
   ("summary", desc),
   ("source_portal", lit "empresite"),
   ("source_url", detailUrl)]

/-- Detail-page field updates (`scrape.py` lines 231-247). -/
def empresiteDetailUpdate (c : Rec) (d : EmpDetail) : Rec :=
  let c1 := match d.cnae with
    | some g => dictSet (dictSet c "cnae_code" g.1) "industry" g.2
    | none => c
  let c2 := match d.phoneCand with
    | some cand =>
      match empresitePhoneField cand with
      | some p => dictSet c1 "phone" p
      | none => c1
    | none => c1
  let c3 := match d.emailHref with
    | some h => dictSet c2 "email" (replaceAll (lit "mailto:") [] h)
    | none => c2
  match d.webHref with
  | some h =>
    if hasSub (lit "empresite") h then c3
    else dictSet (dictSet c3 "website_url" h) "domain" (domainOf h)
  | none => c3

/-- Card loop of one listing page (`scrape.py` lines 193-252).
Returns the produced events and the updated `total` counter. -/
def empCardLoop (details : Bool) (region citySlug : Str) (limit : Nat) :
    List EmpCard → Nat → List Ev × Nat
  | [], total => ([], total)
  | card :: rest, total =>
    if 0 < limit ∧ limit ≤ total then ([], total)
    else
      match card.nameMeta with
      | none => empCardLoop details region citySlug limit rest total
      | some nm =>
        let legal := pyStrip nm
        if legal = [] then empCardLoop details region citySlug limit rest total
        else
          let detailUrl : Str := match card.linkHref with
            | none => []
            | some h => if (lit "http").isPrefixOf h then h else urljoin empresiteBASE h
          let addr : Str := match card.addrText with | some a => a | none => []
          let desc : Str := match card.descText with | some t => t.take 500 | none => []
          let base := empresiteRecBase region citySlug legal detailUrl addr desc
          let dre : List Ev × Rec :=
            if details ∧ ¬ detailUrl = [] then
              ([Ev.detailReq detailUrl],
               match card.detail with
               | some d => empresiteDetailUpdate base d
               | none => base)
            else ([], base)
          let tail := empCardLoop details region citySlug limit rest (total + 1)
          (Ev.raw (pyUpper legal) :: dre.1 ++ Ev.emit dre.2 :: tail.1, tail.2)

/-- Pagination loop over one city (`scrape.py` lines 164-258); the
fuel starts at 40, which is at least the number of iterations because
`page` starts at 1 and the loop breaks at `page >= 40`. -/
def empPageLoop (env : EmpEnv) (details : Bool) (region citySlug : Str) (limit : Nat) :
    Nat → Nat → Nat → List Ev × Nat
  | 0, _, total => ([], total)
  | fuel + 1, page, total =>
    if 0 < limit ∧ limit ≤ total then ([], total)
    else
      match env.page citySlug page with
      | none => ([Ev.pageReq citySlug page], total)
      | some cards =>
        if cards = [] then ([Ev.pageReq citySlug page], total)
        else
          let cl := empCardLoop details region citySlug limit cards total
          if cards.length < 30 ∨ 40 ≤ page then
            (Ev.pageReq citySlug page :: cl.1, cl.2)
          else
            let nxt := empPageLoop env details region citySlug limit fuel (page + 1) cl.2
            (Ev.pageReq citySlug page :: cl.1 ++ nxt.1, nxt.2)

/-- Outer city loop (`scrape.py` lines 160-258). -/
def empCityLoop (env : EmpEnv) (details : Bool) (region : Str) (limit : Nat) :
    List (Str × Str) → Nat → List Ev × Nat
  | [], total => ([], total)
  | city :: rest, total =>
    if 0 < limit ∧ limit ≤ total then ([], total)
    else
      let pl := empPageLoop env details region city.2 limit 40 1 total
      let tail := empCityLoop env details region limit rest pl.2
      (pl.1 ++ tail.1, tail.2)

/-- Model of one `scrape_empresite` run (`scrape.py` lines 136-260):
with an explicit `--city` the city list is `[(city, city)]`, otherwise
it is fetched from the province page. -/
def empresiteRun (env : EmpEnv) (region : Str) (city : Option Str)
    (details : Bool) (limit : Nat) : List Ev :=
  match city with
  | some c => (empCityLoop env details region limit [(c, c)] 0).1
  | none =>
    Ev.nav "empresite-cities" ::
      match env.cityList with
      | none => []
      | some cities => (empCityLoop env details region limit cities 0).1

/-!
Europages (`scrape_europages`, `scrape.py` lines 267-393).  A listing
page yields company links via regex; slugs unseen so far are visited
one by one.  The `founded` regex of line 365 is computed by the source
but never used, so it has no counterpart here.
-/

/-- Search terms iterated by europages (`scrape.py` lines 267-271). -/
def europagesTerms : List Str :=
  [lit "servicios", lit "fabricante", lit "industrial", lit "construccion",
   lit "tecnologia", lit "alimentacion", lit "transporte", lit "consultoria",
   lit "energia", lit "textil", lit "quimico", lit "metalurgia",
   lit "farmaceutico", lit "ingenieria", lit "maquinaria"]

/-- Base URL of the europages portal. -/
def europagesBASE : Str := lit "https://www.europages.es"

/-- One europages company page as the slug loop reads it
(`scrape.py` lines 322-380). -/
structure EuroCompanyPage where
  /-- Whether `page.goto` on the company page succeeded. -/
  navOk : Bool
  /-- Whether `wait_for_challenge(page, timeout=120)` returned True. -/
  chalOk : Bool
  /-- Stripped inner text of `h1`; `none` if the element is missing. -/
  h1 : Option Str
  /-- Stripped inner text of `h2`; `none` if the element is missing. -/
  h2 : Option Str
  /-- Group 1 of the `Empleados:` regex over the body text. -/
  empM : Option Str
  /-- Href of the `Visitar` website link; `none` when the element or
  its attribute is missing. -/
  visitHref : Option Str
  /-- Group 1 of the address regex over the body text. -/
  addrM : Option Str
  /-- Stripped inner text of the description element. -/
  descText : Option Str
  /-- Href of `a[href^='tel:']`; `none` when the element is missing. -/
  telHref : Option Str
deriving DecidableEq

/-- One europages listing page (`scrape.py` lines 296-316). -/
structure EuroListPage where
  /-- Whether `page.goto` on the listing page succeeded. -/
  navOk : Bool
  /-- Whether `wait_for_challenge(page)` returned True. -/
  chalOk : Bool
  /-- Results of `re.findall(r'href="(/es/company/[^"]+)"', content)`. -/
  rawLinks : List Str
deriving DecidableEq

/-- Outside world of one europages run. -/
structure EuroEnv where
  /-- Listing page per search term and page number. -/
  list : Str → Nat → EuroListPage
  /-- Company page per slug. -/
  company : Str → EuroCompanyPage
  /-- Whether `a[rel='next'], [aria-label='Next']` matches after the
  slug loop of the given term and page number. -/
  hasNext : Str → Nat → Bool

/-- Slug collection of one listing page (`scrape.py` lines 308-313):
the running seen set grows by each unseen base link; the new slugs are
kept in page order.  Returns the updated seen set and the new
slugs. -/
def euroCollect (seen : List Str) : List Str → List Str × List Str
  | [] => (seen, [])
  | link :: rest =>
    let base := cutProducts link
    if seen.contains base then euroCollect seen rest
    else
      let r := euroCollect (base :: seen) rest
      (r.1, base :: r.2)

/-- Company-name extraction from one selector text (`scrape.py` lines
332-341): strip, drop a leading `SOBRE ` (case-insensitive via
upper-casing), and reject the empty result. -/
def euroNameFrom : Option Str → Option Str
  | none => none
  | some t =>
    let raw := pyStrip t
    let raw := if (lit "SOBRE ").isPrefixOf (pyUpper raw) then pyStrip (raw.drop 6) else raw
    if raw = [] then none else some raw

/-- Name of a company page: `h1` first, then `h2`. -/
def euroName (p : EuroCompanyPage) : Option Str :=
  match euroNameFrom p.h1 with
  | some n => some n
  | none => euroNameFrom p.h2

/-- Record built for one europages company page (`scrape.py` lines
345-380). -/
def euroRecord (region slug : Str) (p : EuroCompanyPage) (name : Str) : Rec :=
  let c : Rec :=
    [("legal_name", pyUpper name),
     ("source_portal", lit "europages"),
     ("source_url", europagesBASE ++ slug),
     ("region", pyTitle region),
     ("province", pyTitle region),
     ("city", pyTitle region)]
  let c := match p.empM with
    | some e => dictSet c "employee_count" (pyStrip e)
    | none => c
  let c := match p.visitHref with
    | some h =>
      if hasSub (lit "europages") h then c
      else dictSet (dictSet c "website_url" h) "domain" (domainOf h)
    | none => c
  let c := match p.addrM with
    | some a => dictSet c "address" (pyStrip a)
    | none => c
  let c := match p.descText with
    | some d => if d = [] then c else dictSet c "summary" (d.take 500)
    | none => c
  match p.telHref with
  | some h =>
    let ph := telPhoneNorm h
    if 9 ≤ ph.length then dictSet c "phone" ph else c
  | none => c

/-- Slug loop of one listing page (`scrape.py` lines 318-383). -/
def euroSlugLoop (env : EuroEnv) (region term : Str) (limit : Nat) :
    List Str → Nat → List Ev × Nat
  | [], n => ([], n)
  | slug :: rest, n =>
    if 0 < limit ∧ limit ≤ n then ([], n)
    else
      let p := env.company slug
      let tail (n1 : Nat) := euroSlugLoop env region term limit rest n1
      if ¬ p.navOk then
        let t := tail n
        (Ev.detailReq slug :: t.1, t.2)
      else if ¬ p.chalOk then
        let t := tail n
        (Ev.detailReq slug :: t.1, t.2)
      else
        match euroName p with
        | none =>
          let t := tail n
          (Ev.detailReq slug :: t.1, t.2)
        | some name =>
          let t := tail (n + 1)
          (Ev.detailReq slug :: Ev.emit (euroRecord region slug p name) :: t.1, t.2)

/-- Pagination loop over one search term (`scrape.py` lines 285-388);
the fuel starts at 10, at least the number of iterations because
`page_num` starts at 1 and the loop breaks at `page_num >= 10`.
Returns the events, the company count and the updated seen set. -/
def euroPageLoop (env : EuroEnv) (region term : Str) (limit : Nat) :
    Nat → Nat → Nat → List Str → List Ev × Nat × List Str
  | 0, _, n, seen => ([], n, seen)
  | fuel + 1, pageNum, n, seen =>
    if 0 < limit ∧ limit ≤ n then ([], n, seen)
    else
      let lp := env.list term pageNum
      if ¬ lp.navOk then ([Ev.pageReq term pageNum], n, seen)
      else if ¬ lp.chalOk then ([Ev.pageReq term pageNum], n, seen)
      else
        let col := euroCollect seen lp.rawLinks
        let rawEvs := lp.rawLinks.map (fun l => Ev.raw (cutProducts l))
        if col.2 = [] then (Ev.pageReq term pageNum :: rawEvs, n, col.1)
        else
          let sl := euroSlugLoop env region term limit col.2 n
          if ¬ env.hasNext term pageNum ∨ 10 ≤ pageNum then
            (Ev.pageReq term pageNum :: rawEvs ++ sl.1, sl.2, col.1)
          else
            let nxt := euroPageLoop env region term limit fuel (pageNum + 1) sl.2 col.1
            (Ev.pageReq term pageNum :: rawEvs ++ sl.1 ++ nxt.1, nxt.2)

/-- Outer search-term loop (`scrape.py` lines 281-388). -/
def euroTermLoop (env : EuroEnv) (region : Str) (limit : Nat) :
    List Str → Nat → List Str → List Ev × Nat × List Str
  | [], n, seen => ([], n, seen)
  | term :: rest, n, seen =>
    if 0 < limit ∧ limit ≤ n then ([], n, seen)
    else
      let pl := euroPageLoop env region term limit 10 1 n seen
      let tail := euroTermLoop env region limit rest pl.2.1 pl.2.2
      (pl.1 ++ tail.1, tail.2)

/-- Model of one `scrape_europages` run. -/
def europagesRun (env : EuroEnv) (region : Str) (limit : Nat) : List Ev :=
  (euroTermLoop env region limit europagesTerms 0 []).1

/-!
PaginasAmarillas (`scrape_paginasamarillas`, `scrape.py` lines
400-500).  Listings are deduplicated by upper-cased name through the
run-wide `seen` set.  The homepage navigation of line 421 is not
wrapped in `try`, so a navigation failure there raises out of the
coroutine; its trace is just the navigation event and nothing is
emitted.
-/

/-- Categories iterated by paginasamarillas (`scrape.py` lines
400-404). -/
def paCategories : List Str :=
  [lit "empresas", lit "construccion", lit "consultoria", lit "informatica",
   lit "transporte", lit "alimentacion", lit "industria", lit "servicios",
   lit "ingenieria", lit "comercio", lit "inmobiliaria", lit "abogados"]

/-- One paginasamarillas listing element (`scrape.py` lines 453-487). -/
structure PAListing where
  /-- Inner text of the name element; `none` when no selector
  matches. -/
  nameText : Option Str
  /-- Phone candidate `(href or inner_text)` of the telephone element,
  before the `tel:` removal; `none` when the element is missing. -/
  telCand : Option Str
  /-- Stripped inner text of the address element. -/
  addrText : Option Str
  /-- Stripped inner text of `[itemprop='addressLocality']` inside the
  address element. -/
  addrCity : Option Str
  /-- Href of the website link; `none` when the element or attribute
  is missing. -/
  webHref : Option Str
deriving DecidableEq

/-- One paginasamarillas search page (`scrape.py` lines 438-450). -/
structure PAPage where
  /-- Whether `page.goto` succeeded. -/
  navOk : Bool
  /-- Whether `wait_for_challenge(page, timeout=120)` returned True. -/
  chalOk : Bool
  /-- Elements matched by the listing selectors. -/
  listings : List PAListing
deriving DecidableEq

/-- Outside world of one paginasamarillas run. -/
structure PAEnv where
  /-- Whether the homepage navigation of line 421 succeeded. -/
  homeNavOk : Bool
  /-- Whether the homepage `wait_for_challenge(page)` returned True. -/
  homeChalOk : Bool
  /-- Search page per category and page number. -/
  page : Str → Nat → PAPage
  /-- Whether `a.next, a[rel='next']` matches for the given category
  and page number. -/
  hasNext : Str → Nat → Bool

/-- Record built for one listing (`scrape.py` lines 464-485). -/
def paRecord (region : Str) (li : PAListing) (key : Str) : Rec :=
  let c : Rec :=
    [("legal_name", key),
     ("source_portal", lit "paginasamarillas"),
     ("region", pyTitle region),
     ("province", pyTitle region),
     ("city", pyTitle region)]
  let c := match li.telCand with
    | some cand =>
      let ph := telPhoneNorm cand
      if 9 ≤ ph.length then dictSet c "phone" ph else c
    | none => c
  let c := match li.addrText with
    | some a =>
      let c := dictSet c "address" a
      match li.addrCity with
      | some ct => dictSet c "city" (pyTitle ct)
      | none => c
    | none => c
  match li.webHref with
  | some h =>
    if ¬ hasSub (lit "paginasamarillas") h ∧ (lit "http").isPrefixOf h then
      dictSet (dictSet c "website_url" h) "domain" (domainOf h)
    else c
  | none => c

/-- Listing loop of one search page (`scrape.py` lines 453-488).
Returns the events, the company count, the seen set and the `new`
counter. -/
def paListingLoop (region cat : Str) (limit : Nat) :
    List PAListing → Nat → List Str → Nat → List Ev × Nat × List Str × Nat
  | [], n, seen, nw => ([], n, seen, nw)
  | li :: rest, n, seen, nw =>
    if 0 < limit ∧ limit ≤ n then ([], n, seen, nw)
    else
      match li.nameText with
      | none => paListingLoop region cat limit rest n seen nw
      | some t =>
        let name := pyStrip t
        if name = [] then paListingLoop region cat limit rest n seen nw
        else
          let key := pyUpper name
          if seen.contains key then
            let tail := paListingLoop region cat limit rest n seen nw
            (Ev.raw key :: tail.1, tail.2)
          else
            let tail := paListingLoop region cat limit rest (n + 1) (key :: seen) (nw + 1)
            (Ev.raw key :: Ev.emit (paRecord region li key) :: tail.1, tail.2)

/-- Pagination loop over one category (`scrape.py` lines 431-495); the
fuel starts at 20, at least the number of iterations because `pnum`
starts at 1 and the loop breaks at `pnum >= 20`. -/
def paPageLoop (env : PAEnv) (region cat : Str) (limit : Nat) :
    Nat → Nat → Nat → List Str → List Ev × Nat × List Str
  | 0, _, n, seen => ([], n, seen)
  | fuel + 1, pnum, n, seen =>
    if 0 < limit ∧ limit ≤ n then ([], n, seen)
    else
      let pg := env.page cat pnum
      if ¬ pg.navOk then ([Ev.pageReq cat pnum], n, seen)
      else if ¬ pg.chalOk then ([Ev.pageReq cat pnum], n, seen)
      else if pg.listings = [] then ([Ev.pageReq cat pnum], n, seen)
      else
        let ll := paListingLoop region cat limit pg.listings n seen 0
        if ll.2.2.2 = 0 then (Ev.pageReq cat pnum :: ll.1, ll.2.1, ll.2.2.1)
        else if ¬ env.hasNext cat pnum ∨ 20 ≤ pnum then
          (Ev.pageReq cat pnum :: ll.1, ll.2.1, ll.2.2.1)
        else
          let nxt := paPageLoop env region cat limit fuel (pnum + 1) ll.2.1 ll.2.2.1
          (Ev.pageReq cat pnum :: ll.1 ++ nxt.1, nxt.2)

/-- Outer category loop (`scrape.py` lines 428-495). -/
def paCatLoop (env : PAEnv) (region : Str) (limit : Nat) :
    List Str → Nat → List Str → List Ev × Nat × List Str
  | [], n, seen => ([], n, seen)
  | cat :: rest, n, seen =>
    if 0 < limit ∧ limit ≤ n then ([], n, seen)
    else
      let pl := paPageLoop env region cat limit 20 1 n seen
      let tail := paCatLoop env region limit rest pl.2.1 pl.2.2
      (pl.1 ++ tail.1, tail.2)

/-- Model of one `scrape_paginasamarillas` run. -/
def paRun (env : PAEnv) (region : Str) (limit : Nat) : List Ev :=
  Ev.nav "paginasamarillas-home" ::
    (if ¬ env.homeNavOk then []
     else if ¬ env.homeChalOk then []
     else (paCatLoop env region limit paCategories 0 []).1)

/-!
Einforma (`scrape_einforma`, `scrape.py` lines 507-610).  Its
pagination `while True` has no page-number ceiling: it stops only on
the item limit, a failed fetch or challenge, an empty page (no rows
and no links), or a missing next affordance.  The model therefore
takes an explicit fuel that merely truncates the (potentially
unbounded) trace.  The homepage and first listing navigations (lines
521 and 534) are not wrapped in `try`; failures there raise before
anything is emitted.
-/

/-- One einforma result row (`scrape.py` lines 563-583). -/
structure EinfRow where
  /-- Stripped inner text of the name link; `none` when no selector
  matches. -/
  nameText : Option Str
  /-- Href attribute of the name link. -/
  href : Option Str
  /-- Result of the `[A-Z]\d{7,8}` regex over the CIF cell; `none`
  when the cell is missing or the regex does not match. -/
  cifM : Option Str
deriving DecidableEq

/-- One einforma listing page (`scrape.py` lines 558-600). -/
structure EinfPage where
  /-- Whether `page.goto` succeeded (only read for `pnum > 1`). -/
  navOk : Bool
  /-- Whether `wait_for_challenge(page, timeout=120)` returned True
  (only read for `pnum > 1`). -/
  chalOk : Bool
  /-- Results of `re.findall(r'href="(/informes-empresa/[^"]+)"')`. -/
  links : List Str
  /-- Rows matched by `table tbody tr, .empresa-item, .result-row`. -/
  rows : List EinfRow
deriving DecidableEq

/-- Outside world of one einforma run. -/
structure EinfEnv where
  /-- Whether `wait_for_challenge(page)` after the first listing load
  returned True. -/
  chalOk1 : Bool
  /-- Listing page per page number. -/
  page : Nat → EinfPage
  /-- Whether `a[rel='next'], a:has-text('Siguiente')` matches on the
  given page number. -/
  hasNext : Nat → Bool

/-- Base URL of the einforma portal. -/
def einformaBASE : Str := lit "https://www.einforma.com"

/-- Record built from one einforma row (`scrape.py` lines 572-583). -/
def einfRowRecord (region : Str) (row : EinfRow) (name : Str) : Rec :=
  let c : Rec :=
    [("legal_name", pyUpper name),
     ("source_portal", lit "einforma"),
     ("region", pyTitle region),
     ("province", pyTitle region),
     ("city", pyTitle region)]
  let c := match row.href with
    | some h =>
      dictSet c "source_url"
        (if (lit "http").isPrefixOf h then h else urljoin einformaBASE h)
    | none => c
  match row.cifM with
  | some cif => dictSet c "cif" cif
  | none => c

/-- Row loop of one einforma page (`scrape.py` lines 563-583). -/
def einfRowLoop (region : Str) (limit : Nat) :
    List EinfRow → Nat → List Ev × Nat
  | [], n => ([], n)
  | row :: rest, n =>
    if 0 < limit ∧ limit ≤ n then ([], n)
    else
      match row.nameText with
      | none => einfRowLoop region limit rest n
      | some t =>
        let name := pyStrip t
        if name = [] then einfRowLoop region limit rest n
        else
          let tail := einfRowLoop region limit rest (n + 1)
          (Ev.raw (pyUpper name) :: Ev.emit (einfRowRecord region row name) :: tail.1,
           tail.2)

/-- Name extraction of the link fallback (`scrape.py` lines 588-591):
the path segment after `/informes-empresa/`, dashes replaced by
spaces, stripped. -/
def einfLinkName (link : Str) : Option Str :=
  match subAfter (lit "/informes-empresa/") link with
  | some r =>
    let raw := pyStrip (replaceAll (lit "-") (lit " ") (r.takeWhile (fun c => ¬ c = '/')))
    if raw = [] then none else some raw
  | none => none

/-- Link-fallback loop of one einforma page (`scrape.py` lines
584-598). -/
def einfLinkLoop (region : Str) (limit : Nat) :
    List Str → Nat → List Ev × Nat
  | [], n => ([], n)
  | link :: rest, n =>
    if 0 < limit ∧ limit ≤ n then ([], n)
    else
      match einfLinkName link with
      | none => einfLinkLoop region limit rest n
      | some raw =>
        let r : Rec :=
          [("legal_name", pyUpper raw),
           ("source_portal", lit "einforma"),
           ("source_url", urljoin einformaBASE link),
           ("region", pyTitle region),
           ("province", pyTitle region),
           ("city", pyTitle region)]
        let tail := einfLinkLoop region limit rest (n + 1)
        (Ev.raw (pyUpper raw) :: Ev.emit r :: tail.1, tail.2)

/-- Pagination loop of einforma (`scrape.py` lines 541-605).  The
source loop is `while True` with no page ceiling; the fuel only
truncates the trace and decreases by one per iteration. -/
def einfPageLoop (env : EinfEnv) (region province : Str) (limit : Nat) :
    Nat → Nat → Nat → List Ev × Nat
  | 0, _, n => ([], n)
  | fuel + 1, pnum, n =>
    if 0 < limit ∧ limit ≤ n then ([], n)
    else
      let step : List Ev → List Ev × Nat := fun pre =>
        let pg := env.page pnum
        if pg.rows ≠ [] then
          let rl := einfRowLoop region limit pg.rows n
          if ¬ env.hasNext pnum then (pre ++ rl.1, rl.2)
          else
            let nxt := einfPageLoop env region province limit fuel (pnum + 1) rl.2
            (pre ++ rl.1 ++ nxt.1, nxt.2)
        else if pg.links ≠ [] then
          let ll := einfLinkLoop region limit pg.links n
          if ¬ env.hasNext pnum then (pre ++ ll.1, ll.2)
          else
            let nxt := einfPageLoop env region province limit fuel (pnum + 1) ll.2
            (pre ++ ll.1 ++ nxt.1, nxt.2)
        else (pre, n)
      if pnum = 1 then step []
      else
        let pg := env.page pnum
        if ¬ pg.navOk then ([Ev.pageReq province pnum], n)
        else if ¬ pg.chalOk then ([Ev.pageReq province pnum], n)
        else step [Ev.pageReq province pnum]

/-- Model of one `scrape_einforma` run: homepage navigation, first
listing load, challenge gate, then the unbounded page loop truncated
at `fuel` iterations. -/
def einformaRun (env : EinfEnv) (region province : Str) (limit fuel : Nat) : List Ev :=
  Ev.nav "einforma-home" :: Ev.pageReq province 1 ::
    (if ¬ env.chalOk1 then []
     else (einfPageLoop env region province limit fuel 1 0).1)

/-!
LibreBOR (`scrape_librebor`, `scrape.py` lines 767-870).  The API page
either parses as JSON (results plus a `next` field) or falls back to
scraping HTML company links; the fallback advances the page number
without any next-affordance check, so the loop is unbounded and the
model takes a truncating fuel like einforma.
-/

/-- One item of the JSON `results` array (`scrape.py` lines 847-861);
the empty string models a missing or falsy field. -/
structure LbItem where
  /-- Value of `item.get("name", "")`. -/
  name : Str
  /-- Value of `item.get("url")`, `[]` when missing. -/
  url : Str
  /-- Value of `item.get("cif")`, `[]` when missing. -/
  cif : Str
  /-- Value of `str(item["cnae"])`, `[]` when missing or falsy. -/
  cnae : Str
deriving DecidableEq

/-- One company detail page of the HTML fallback (`scrape.py` lines
814-840). -/
structure LbDetailPage where
  /-- Whether `page.goto` succeeded. -/
  navOk : Bool
  /-- Whether `wait_for_challenge(page, timeout=60)` returned True. -/
  chalOk : Bool
  /-- Stripped inner text of `h1`; `none` when the element is
  missing. -/
  h1 : Option Str
  /-- Group 1 of the `CIF:` regex over the body text. -/
  cifM : Option Str
  /-- Group 1 of the `CNAE:` regex over the body text. -/
  cnaeM : Option Str
deriving DecidableEq

/-- One API page of librebor (`scrape.py` lines 794-865). -/
structure LbPage where
  /-- Whether `page.goto` on the API URL succeeded. -/
  navOk : Bool
  /-- Whether `wait_for_challenge(page, timeout=120)` returned True. -/
  chalOk : Bool
  /-- Parsed JSON: the `results` list and the truthiness of `next`;
  `none` models a `json.loads` failure, which selects the HTML
  fallback. -/
  json : Option (List LbItem × Bool)
  /-- Fallback `href="(/borme/empresa/[^"]+)"` links. -/
  links : List Str
deriving DecidableEq

/-- Outside world of one librebor run. -/
structure LbEnv where
  /-- Whether the homepage `wait_for_challenge(page)` returned True. -/
  homeChalOk : Bool
  /-- API page per page number. -/
  page : Nat → LbPage
  /-- Detail page per fallback link. -/
  detail : Str → LbDetailPage

/-- Base URL of the librebor portal. -/
def libreborBASE : Str := lit "https://librebor.me"

/-- Record built from one JSON item (`scrape.py` lines 853-861). -/
def lbItemRecord (region : Str) (item : LbItem) (name : Str) : Rec :=
  let c : Rec :=
    [("legal_name", pyUpper name),
     ("source_portal", lit "librebor"),
     ("city", pyTitle region),
     ("province", pyTitle region),
     ("region", pyTitle region)]
  let c := if ¬ item.url = [] then dictSet c "source_url" item.url else c
  let c := if ¬ item.cif = [] then dictSet c "cif" item.cif else c
  if ¬ item.cnae = [] ∧ item.cnae.length ≤ 20 then dictSet c "cnae_code" item.cnae else c

/-- JSON item loop (`scrape.py` lines 847-861). -/
def lbItemLoop (region : Str) (limit : Nat) :
    List LbItem → Nat → List Ev × Nat
  | [], n => ([], n)
  | item :: rest, n =>
    if 0 < limit ∧ limit ≤ n then ([], n)
    else
      let name := pyStrip item.name
      if name = [] then lbItemLoop region limit rest n
      else
        let tail := lbItemLoop region limit rest (n + 1)
        (Ev.raw (pyUpper name) :: Ev.emit (lbItemRecord region item name) :: tail.1,
         tail.2)

/-- Record built from one HTML-fallback detail page (`scrape.py`
lines 831-839). -/
def lbDetailRecord (region link : Str) (d : LbDetailPage) (name : Str) : Rec :=
  let c : Rec :=
    [("legal_name", pyUpper name),
     ("source_portal", lit "librebor"),
     ("source_url", libreborBASE ++ link),
     ("city", pyTitle region),
     ("province", pyTitle region),
     ("region", pyTitle region)]
  let c := match d.cifM with
    | some cif => dictSet c "cif" cif
    | none => c
  match d.cnaeM with
  | some cnae => dictSet c "cnae_code" cnae
  | none => c

/-- HTML-fallback link loop (`scrape.py` lines 814-840). -/
def lbLinkLoop (env : LbEnv) (region : Str) (limit : Nat) :
    List Str → Nat → List Ev × Nat
  | [], n => ([], n)
  | link :: rest, n =>
    if 0 < limit ∧ limit ≤ n then ([], n)
    else
      let d := env.detail link
      let tail (n1 : Nat) := lbLinkLoop env region limit rest n1
      if ¬ d.navOk then
        let t := tail n
        (Ev.detailReq link :: t.1, t.2)
      else if ¬ d.chalOk then
        let t := tail n
        (Ev.detailReq link :: t.1, t.2)
      else
        match d.h1 with
        | none =>
          let t := tail n
          (Ev.detailReq link :: t.1, t.2)
        | some t0 =>
          let name := pyStrip t0
          if name = [] then
            let t := tail n
            (Ev.detailReq link :: t.1, t.2)
          else
            let t := tail (n + 1)
            (Ev.detailReq link :: Ev.raw (pyUpper name) ::
               Ev.emit (lbDetailRecord region link d name) :: t.1, t.2)

/-- Pagination loop of librebor (`scrape.py` lines 788-865): on a JSON
page the `next` field gates continuation, while the HTML fallback
continues unconditionally; the source loop has no page ceiling, so the
fuel only truncates the trace. -/
def lbPageLoop (env : LbEnv) (region province : Str) (limit : Nat) :
    Nat → Nat → Nat → List Ev × Nat
  | 0, _, n => ([], n)
  | fuel + 1, pnum, n =>
    if 0 < limit ∧ limit ≤ n then ([], n)
    else
      let pg := env.page pnum
      if ¬ pg.navOk then ([Ev.pageReq province pnum], n)
      else if ¬ pg.chalOk then ([Ev.pageReq province pnum], n)
      else
        match pg.json with
        | none =>
          if pg.links = [] then ([Ev.pageReq province pnum], n)
          else
            let ll := lbLinkLoop env region limit pg.links n
            let nxt := lbPageLoop env region province limit fuel (pnum + 1) ll.2
            (Ev.pageReq province pnum :: ll.1 ++ nxt.1, nxt.2)
        | some js =>
          if js.1 = [] then ([Ev.pageReq province pnum], n)
          else
            let il := lbItemLoop region limit js.1 n
            if ¬ js.2 then (Ev.pageReq province pnum :: il.1, il.2)
            else
              let nxt := lbPageLoop env region province limit fuel (pnum + 1) il.2
              (Ev.pageReq province pnum :: il.1 ++ nxt.1, nxt.2)

/-- Model of one `scrape_librebor` run, with the trace truncated at
`fuel` page iterations. -/
def libreborRun (env : LbEnv) (region province : Str) (limit fuel : Nat) : List Ev :=
  Ev.nav "librebor-home" ::
    (if ¬ env.homeChalOk then []
     else (lbPageLoop env region province limit fuel 1 0).1)

/-!
Empresia (`scrape_empresia`, `scrape.py` lines 617-760).  There is no
inner pagination: each search term produces a list of autocomplete
suggestion texts, and clicking a suggestion navigates to one company
page.  The navigations to the portal home (lines 632, 643, 672) are
not wrapped in `try`, so a failure there raises out of the coroutine:
the run crashes and `main` never reaches the output loop.  The model
tracks that with an explicit crash flag.
-/

/-- Search terms iterated by empresia (`scrape.py` lines 617-622). -/
def empresiaTerms : List Str :=
  [lit "SL", lit "SA", lit "SLU", lit "SOCIEDAD LIMITADA",
   lit "CONSULTING", lit "SERVICIOS", lit "TECNOLOGIA", lit "CONSTRUCCION",
   lit "INGENIERIA", lit "ALIMENTACION", lit "TRANSPORTE", lit "INDUSTRIAL",
   lit "GESTION", lit "COMERCIAL", lit "SOLUCIONES", lit "GRUPO"]

/-- Domains excluded from the website chooser (`scrape.py` line
743). -/
def emsExcluded : List Str :=
  [lit "empresia", lit "axesor", lit "einforma", lit "infocif",
   lit "google", lit "facebook"]

/-- State of the page after typing one suggestion text and clicking
the first autocomplete item (`scrape.py` lines 675-752). -/
structure EmsClickResult where
  /-- Whether the search input was found (line 675). -/
  searchBox : Bool
  /-- Whether an autocomplete item was found (line 683). -/
  item : Bool
  /-- Whether `/empresa/` occurs in `page.url` after the click. -/
  urlCompany : Bool
  /-- Value of `page.url.rstrip("/").split("/")[-1]`. -/
  slug : Str
  /-- Value of `page.url`. -/
  url : Str
  /-- Group 1 of the `Datos de (.+?)` regex over the body text. -/
  nameM : Option Str
  /-- Stripped inner text of `h1`; `none` when the element is
  missing. -/
  h1 : Option Str
  /-- Group 1 of the CIF regex. -/
  cifM : Option Str
  /-- Groups of the CNAE regex (code, industry text). -/
  cnaeM : Option (Str × Str)
  /-- Group 1 of the phone regex `(\d{9})\s+\d{9}`. -/
  phoneM : Option Str
  /-- Group 1 of the employee-count regex. -/
  empM : Option Str
  /-- Group 1 of the address regex, with the inner trailing
  parenthesis match when present. -/
  addrM : Option (Str × Option Str)
  /-- Group 1 of the `Objeto social` regex. -/
  objM : Option Str
  /-- Pairs `(href, inner_text)` of the `a[href^='http']` elements, in
  document order; `[]` as href models a missing attribute. -/
  webEls : List (Str × Str)
deriving DecidableEq

/-- Outside world of one empresia run. -/
structure EmsEnv where
  /-- Whether the initial navigation of line 632 succeeded. -/
  nav0Ok : Bool
  /-- Whether the per-term navigation of line 643 succeeded. -/
  termNavOk : Str → Bool
  /-- Whether the per-term search input was found (line 646). -/
  termSearchBox : Str → Bool
  /-- Inner texts of the autocomplete suggestions for one term (lines
  655-663), before stripping. -/
  suggTexts : Str → List Str
  /-- Whether the per-text navigation of line 672 succeeded. -/
  textNavOk : Str → Bool
  /-- Click-through result per suggestion text. -/
  click : Str → EmsClickResult

/-- Website chooser of empresia (`scrape.py` lines 742-752): first
`a[href^='http']` whose href is non-empty, mentions no excluded
domain, and either contains `www` or whose text mentions `http`. -/
def emsChooseWeb : List (Str × Str) → Option Str
  | [] => none
  | el :: rest =>
    if ¬ el.1 = [] ∧ ¬ emsExcluded.any (fun d => hasSub d (pyLower el.1)) ∧
        (hasSub (lit "www") el.1 ∨ hasSub (lit "http") (pyLower el.2)) then
      some el.1
    else emsChooseWeb rest

/-- Name extraction (`scrape.py` lines 698-705): the `Datos de` match
first, the `h1` text as fallback, empty results rejected. -/
def emsName (r : EmsClickResult) : Option Str :=
  let fromOpt : Option Str → Option Str := fun o =>
    match o with
    | some t => let s := pyStrip t; if s = [] then none else some s
    | none => none
  match fromOpt r.nameM with
  | some n => some n
  | none => fromOpt r.h1

/-- Record built for one empresia company page (`scrape.py` lines
707-752). -/
def emsRecord (region : Str) (r : EmsClickResult) (name : Str) : Rec :=
  let c : Rec :=
    [("legal_name", pyUpper name),
     ("source_portal", lit "empresia"),
     ("source_url", r.url),
     ("region", pyTitle region),
     ("province", pyTitle region),
     ("city", pyTitle region)]
  let c := match r.cifM with
    | some cif => dictSet c "cif" cif
    | none => c
  let c := match r.cnaeM with
    | some g => dictSet (dictSet c "cnae_code" g.1) "industry" ((pyStrip g.2).take 256)
    | none => c
  let c := match r.phoneM with
    | some p => dictSet c "phone" p
    | none => c
  let c := match r.empM with
    | some e => dictSet c "employee_count" (replaceAll (lit ".") [] e)
    | none => c
  let c := match r.addrM with
    | some a =>
      let c := dictSet c "address" (pyStrip a.1)
      match a.2 with
      | some ct => dictSet c "city" (pyTitle (pyStrip ct))
      | none => c
    | none => c
  let c := match r.objM with
    | some o => dictSet c "summary" ((pyStrip o).take 500)
    | none => c
  match emsChooseWeb r.webEls with
  | some h => dictSet (dictSet c "website_url" h) "domain" (domainOf h)
  | none => c

/-- Suggestion-text loop of one term (`scrape.py` lines 667-755).
Returns the events, the count, the seen set, and whether the run
crashed on an unguarded navigation. -/
def emsTextLoop (env : EmsEnv) (region : Str) (limit : Nat) :
    List Str → Nat → List Str → List Ev × Nat × List Str × Bool
  | [], n, seen => ([], n, seen, false)
  | text :: rest, n, seen =>
    if 0 < limit ∧ limit ≤ n then ([], n, seen, false)
    else if ¬ env.textNavOk text then ([Ev.nav "empresia"], n, seen, true)
    else
      let r := env.click text
      let tail (n1 : Nat) (s1 : List Str) := emsTextLoop env region limit rest n1 s1
      if ¬ r.searchBox then
        let t := tail n seen
        (Ev.nav "empresia" :: t.1, t.2)
      else if ¬ r.item then
        let t := tail n seen
        (Ev.nav "empresia" :: t.1, t.2)
      else if ¬ r.urlCompany then
        let t := tail n seen
        (Ev.nav "empresia" :: Ev.detailReq (text.take 30) :: t.1, t.2)
      else if seen.contains r.slug then
        let t := tail n seen
        (Ev.nav "empresia" :: Ev.detailReq (text.take 30) :: Ev.raw r.slug :: t.1, t.2)
      else
        match emsName r with
        | none =>
          let t := tail n (r.slug :: seen)
          (Ev.nav "empresia" :: Ev.detailReq (text.take 30) :: Ev.raw r.slug :: t.1, t.2)
        | some name =>
          let t := tail (n + 1) (r.slug :: seen)
          (Ev.nav "empresia" :: Ev.detailReq (text.take 30) :: Ev.raw r.slug ::
             Ev.emit (emsRecord region r name) :: t.1, t.2)

/-- Outer term loop of empresia (`scrape.py` lines 635-755). -/
def emsTermLoop (env : EmsEnv) (region : Str) (limit : Nat) :
    List Str → Nat → List Str → List Ev × Nat × List Str × Bool
  | [], n, seen => ([], n, seen, false)
  | term :: rest, n, seen =>
    if 0 < limit ∧ limit ≤ n then ([], n, seen, false)
    else if ¬ env.termNavOk term then ([Ev.nav "empresia"], n, seen, true)
    else if ¬ env.termSearchBox term then
      let t := emsTermLoop env region limit rest n seen
      (Ev.nav "empresia" :: t.1, t.2)
    else
      let texts := ((env.suggTexts term).map pyStrip).filter (fun t => ¬ t = [])
      let tl := emsTextLoop env region limit texts n seen
      if tl.2.2.2 then (Ev.nav "empresia" :: tl.1, tl.2)
      else
        let t := emsTermLoop env region limit rest tl.2.1 tl.2.2.1
        (Ev.nav "empresia" :: tl.1 ++ t.1, t.2)

/-- Model of one `scrape_empresia` run: the trace and whether the run
crashed before returning. -/
def empresiaRun (env : EmsEnv) (region : Str) (limit : Nat) : List Ev × Bool :=
  if ¬ env.nav0Ok then ([Ev.nav "empresia"], true)
  else
    let tl := emsTermLoop env region limit empresiaTerms 0 []
    (Ev.nav "empresia" :: tl.1, tl.2.2.2)

/-- Records that an empresia run hands to the output loop of `main`: a
crashed run never reaches it. -/
def empresiaCompanies (env : EmsEnv) (region : Str) (limit : Nat) : List Rec :=
  let r := empresiaRun env region limit
  if r.2 then [] else emittedRecords r.1

/-!
Record-shape lemmas.  Every record a scraper emits starts with the
`legal_name` field, whose value is the upper-casing of a non-empty
extracted name; later dict assignments never touch that key.
-/

theorem dictSet_headKey {k0 : String} {v : Str} {r : Rec} (k : String) (w : Str)
    (hk : ¬ k = k0) (h : ∃ t, r = (k0, v) :: t) :
    ∃ t, dictSet r k w = (k0, v) :: t := by
  obtain ⟨t, rfl⟩ := h
  refine ⟨dictSet t k w, ?_⟩
  have hne : ¬ (k0 = k) := fun hh => hk hh.symm
  simp [dictSet, hne]

theorem lookup_dictSet_ne (r : Rec) (k : String) (w : Str) (k0 : String)
    (hk : ¬ k = k0) : (dictSet r k w).lookup k0 = r.lookup k0 := by
  have hb : (k0 == k) = false := by
    exact beq_eq_false_iff_ne.mpr (fun hh => hk hh.symm)
  induction r with
  | nil => simp [dictSet, List.lookup, hb]
  | cons kv rest ih =>
    obtain ⟨k1, v1⟩ := kv
    by_cases h1 : k1 = k
    · subst h1
      simp [dictSet, List.lookup, hb]
    · simp [dictSet, h1, List.lookup, ih]

theorem empresiteRecBase_head (region citySlug legal detailUrl addr desc : Str) :
    ∃ t, empresiteRecBase region citySlug legal detailUrl addr desc =
      ("legal_name", pyUpper legal) :: t :=
  ⟨_, rfl⟩

theorem empresiteDetailUpdate_head {v : Str} {c : Rec} (d : EmpDetail)
    (h : ∃ t, c = ("legal_name", v) :: t) :
    ∃ t, empresiteDetailUpdate c d = ("legal_name", v) :: t := by
  unfold empresiteDetailUpdate
  dsimp only
  repeat
    first
    | exact h
    | (apply dictSet_headKey
       case hk => decide)
    | split

set_option maxRecDepth 4000 in
theorem euroRecord_head (region slug : Str) (p : EuroCompanyPage) (name : Str) :
    ∃ t, euroRecord region slug p name = ("legal_name", pyUpper name) :: t := by
  unfold euroRecord
  dsimp only
  repeat
    first
    | exact ⟨_, rfl⟩
    | (apply dictSet_headKey
       case hk => decide)
    | split

theorem paRecord_head (region : Str) (li : PAListing) (key : Str) :
    ∃ t, paRecord region li key = ("legal_name", key) :: t := by
  unfold paRecord
  dsimp only
  repeat
    first
    | exact ⟨_, rfl⟩
    | (apply dictSet_headKey
       case hk => decide)
    | split

theorem einfRowRecord_head (region : Str) (row : EinfRow) (name : Str) :
    ∃ t, einfRowRecord region row name = ("legal_name", pyUpper name) :: t := by
  unfold einfRowRecord
  dsimp only
  repeat
    first
    | exact ⟨_, rfl⟩
    | (apply dictSet_headKey
       case hk => decide)
    | split

theorem lbItemRecord_head (region : Str) (item : LbItem) (name : Str) :
    ∃ t, lbItemRecord region item name = ("legal_name", pyUpper name) :: t := by
  unfold lbItemRecord
  dsimp only
  repeat
    first
    | exact ⟨_, rfl⟩
    | (apply dictSet_headKey
       case hk => decide)
    | split

theorem lbDetailRecord_head (region link : Str) (d : LbDetailPage) (name : Str) :
    ∃ t, lbDetailRecord region link d name = ("legal_name", pyUpper name) :: t := by
  unfold lbDetailRecord
  dsimp only
  repeat
    first
    | exact ⟨_, rfl⟩
    | (apply dictSet_headKey
       case hk => decide)
    | split

set_option maxRecDepth 4000 in
theorem emsRecord_head (region : Str) (r : EmsClickResult) (name : Str) :
    ∃ t, emsRecord region r name = ("legal_name", pyUpper name) :: t := by
  unfold emsRecord
  dsimp only
  repeat
    first
    | exact ⟨_, rfl⟩
    | (apply dictSet_headKey
       case hk => decide)
    | split

/-- Emptiness-filtering a record that starts with a non-empty
`legal_name` keeps that field in head position. -/
theorem cleanRec_head {v : Str} {t : Rec} (k0 : String) (hv : ¬ v = []) :
    cleanRec ((k0, v) :: t) = (k0, v) :: cleanRec t := by
  simp [cleanRec, hv]

theorem lookup_head (k0 : String) (v : Str) (t : Rec) :
    ((k0, v) :: t).lookup k0 = some v := by
  simp [List.lookup]

/-- Membership in the emitted-record list is the same as an emit event
in the trace. -/
theorem mem_emittedRecords {r : Rec} {evs : List Ev} :
    r ∈ emittedRecords evs ↔ Ev.emit r ∈ evs := by
  simp only [emittedRecords, List.mem_filterMap]
  constructor
  · rintro ⟨e, he, hf⟩
    cases e <;> simp_all
  · intro h
    exact ⟨Ev.emit r, h, rfl⟩

/-- Well-formedness of an emitted record: it starts with a
`legal_name` field holding the upper-casing of a non-empty name. -/
abbrev GoodRec (r : Rec) : Prop :=
  ∃ n, ¬ n = [] ∧ ∃ t, r = ("legal_name", pyUpper n) :: t

/-- All emit events of a trace carry well-formed records. -/
def EmitsGood (evs : List Ev) : Prop := ∀ r, Ev.emit r ∈ evs → GoodRec r

theorem emitsGood_nil : EmitsGood [] := by
  intro r hr
  simp at hr

theorem emitsGood_append {a b : List Ev} (ha : EmitsGood a) (hb : EmitsGood b) :
    EmitsGood (a ++ b) := by
  intro r hr
  rcases List.mem_append.mp hr with h | h
  · exact ha r h
  · exact hb r h

theorem emitsGood_cons_nonemit {e : Ev} {evs : List Ev}
    (he : ∀ r, ¬ e = Ev.emit r) (h : EmitsGood evs) : EmitsGood (e :: evs) := by
  intro r hr
  rcases List.mem_cons.mp hr with h0 | h0
  · exact absurd h0.symm (he r)
  · exact h r h0

theorem emitsGood_cons_emit {r0 : Rec} {evs : List Ev}
    (hr0 : GoodRec r0) (h : EmitsGood evs) : EmitsGood (Ev.emit r0 :: evs) := by
  intro r hr
  rcases List.mem_cons.mp hr with h0 | h0
  · cases h0
    exact hr0
  · exact h r h0

/-- Emit decomposition of one processed card or listing: a raw-key
event, some non-emit events, the emitted record, then the rest. -/
theorem emitsGood_item (k : Str) (pre : List Ev) (R : Rec) (tail : List Ev)
    (hpre : ∀ r, ¬ Ev.emit r ∈ pre) (hR : GoodRec R) (htail : EmitsGood tail) :
    EmitsGood (Ev.raw k :: pre ++ Ev.emit R :: tail) := by
  intro r hr
  rcases List.mem_cons.mp hr with h0 | h0
  · simp at h0
  · rcases List.mem_append.mp h0 with h1 | h1
    · exact absurd h1 (hpre r)
    · rcases List.mem_cons.mp h1 with h2 | h2
      · cases h2
        exact hR
      · exact htail r h2

theorem empCardLoop_good (details : Bool) (region citySlug : Str) (limit : Nat) :
    ∀ cards total, EmitsGood (empCardLoop details region citySlug limit cards total).1 := by
  intro cards
  induction cards with
  | nil =>
    intro total
    simp only [empCardLoop]
    exact emitsGood_nil
  | cons card rest ih =>
    intro total
    rw [empCardLoop]
    dsimp only
    split
    · exact emitsGood_nil
    split
    · exact ih total
    rename_i nm
    split
    · exact ih total
    rename_i hlegal
    repeat
      first
      | (apply emitsGood_item
         case hpre =>
           intro r hr
           simp at hr
         case hR =>
           first
           | exact ⟨_, hlegal, _, rfl⟩
           | exact ⟨_, hlegal, empresiteDetailUpdate_head _ ⟨_, rfl⟩⟩
         case htail => exact ih _)
      | split

theorem emitsGood_of_no_emit {evs : List Ev} (h : ∀ r, ¬ Ev.emit r ∈ evs) :
    EmitsGood evs := fun r hr => absurd hr (h r)

theorem no_emit_raws {α : Type} (ls : List α) (f : α → Str) (r : Rec) :
    ¬ Ev.emit r ∈ ls.map (fun l => Ev.raw (f l)) := by
  intro h
  rcases List.mem_map.mp h with ⟨l, _, hl⟩
  simp at hl

theorem empPageLoop_good (env : EmpEnv) (details : Bool) (region citySlug : Str)
    (limit : Nat) :
    ∀ fuel page total,
      EmitsGood (empPageLoop env details region citySlug limit fuel page total).1 := by
  intro fuel
  induction fuel with
  | zero =>
    intro page total
    simp only [empPageLoop]
    exact emitsGood_nil
  | succ fuel ih =>
    intro page total
    rw [empPageLoop]
    dsimp only
    split
    · exact emitsGood_nil
    split
    · exact emitsGood_cons_nonemit (by intro r; simp) emitsGood_nil
    split
    · exact emitsGood_cons_nonemit (by intro r; simp) emitsGood_nil
    split
    · exact emitsGood_cons_nonemit (by intro r; simp)
        (empCardLoop_good details region citySlug limit _ _)
    · exact emitsGood_cons_nonemit (by intro r; simp)
        (emitsGood_append (empCardLoop_good details region citySlug limit _ _) (ih _ _))

theorem empCityLoop_good (env : EmpEnv) (details : Bool) (region : Str) (limit : Nat) :
    ∀ cities total, EmitsGood (empCityLoop env details region limit cities total).1 := by
  intro cities
  induction cities with
  | nil =>
    intro total
    simp only [empCityLoop]
    exact emitsGood_nil
  | cons city rest ih =>
    intro total
    rw [empCityLoop]
    split
    · exact emitsGood_nil
    · exact emitsGood_append (empPageLoop_good env details region city.2 limit _ _ _) (ih _)

/-- Every record collected by an empresite run is well-formed. -/
theorem empresiteRun_good (env : EmpEnv) (region : Str) (city : Option Str)
    (details : Bool) (limit : Nat) :
    EmitsGood (empresiteRun env region city details limit) := by
  unfold empresiteRun
  split
  · exact empCityLoop_good env details region limit _ _
  · apply emitsGood_cons_nonemit (by intro r; simp)
    split
    · exact emitsGood_nil
    · exact empCityLoop_good env details region limit _ _

theorem euroNameFrom_ne {o : Option Str} {n : Str} (h : euroNameFrom o = some n) :
    ¬ n = [] := by
  cases o with
  | none => simp [euroNameFrom] at h
  | some t =>
    rw [euroNameFrom] at h
    split at h
    all_goals
      split at h
      · simp at h
      · rename_i hne
        cases h
        exact hne

theorem euroName_ne {p : EuroCompanyPage} {n : Str} (h : euroName p = some n) :
    ¬ n = [] := by
  rw [euroName] at h
  split at h
  · rename_i h1
    cases h
    exact euroNameFrom_ne h1
  · exact euroNameFrom_ne h

theorem euroSlugLoop_good (env : EuroEnv) (region term : Str) (limit : Nat) :
    ∀ slugs n, EmitsGood (euroSlugLoop env region term limit slugs n).1 := by
  intro slugs
  induction slugs with
  | nil =>
    intro n
    simp only [euroSlugLoop]
    exact emitsGood_nil
  | cons slug rest ih =>
    intro n
    rw [euroSlugLoop]
    dsimp only
    split
    · exact emitsGood_nil
    split
    · exact emitsGood_cons_nonemit (by intro r; simp) (ih _)
    split
    · exact emitsGood_cons_nonemit (by intro r; simp) (ih _)
    split
    · exact emitsGood_cons_nonemit (by intro r; simp) (ih _)
    · rename_i name hname
      apply emitsGood_cons_nonemit (by intro r; simp)
      exact emitsGood_cons_emit
        ⟨name, euroName_ne hname, euroRecord_head region slug _ name⟩ (ih _)

theorem euroPageLoop_good (env : EuroEnv) (region term : Str) (limit : Nat) :
    ∀ fuel pageNum n seen,
      EmitsGood (euroPageLoop env region term limit fuel pageNum n seen).1 := by
  intro fuel
  induction fuel with
  | zero =>
    intro pageNum n seen
    simp only [euroPageLoop]
    exact emitsGood_nil
  | succ fuel ih =>
    intro pageNum n seen
    rw [euroPageLoop]
    dsimp only
    split
    · exact emitsGood_nil
    split
    · exact emitsGood_cons_nonemit (by intro r; simp) emitsGood_nil
    split
    · exact emitsGood_cons_nonemit (by intro r; simp) emitsGood_nil
    split
    · apply emitsGood_cons_nonemit (by intro r; simp)
      exact emitsGood_of_no_emit (fun r => no_emit_raws _ _ r)
    split
    · apply emitsGood_cons_nonemit (by intro r; simp)
      apply emitsGood_append
      · exact emitsGood_of_no_emit (fun r => no_emit_raws _ _ r)
      · exact euroSlugLoop_good env region term limit _ _
    · apply emitsGood_cons_nonemit (by intro r; simp)
      apply emitsGood_append
      · apply emitsGood_append
        · exact emitsGood_of_no_emit (fun r => no_emit_raws _ _ r)
        · exact euroSlugLoop_good env region term limit _ _
      · exact ih _ _ _

theorem euroTermLoop_good (env : EuroEnv) (region : Str) (limit : Nat) :
    ∀ terms n seen, EmitsGood (euroTermLoop env region limit terms n seen).1 := by
  intro terms
  induction terms with
  | nil =>
    intro n seen
    simp only [euroTermLoop]
    exact emitsGood_nil
  | cons term rest ih =>
    intro n seen
    rw [euroTermLoop]
    dsimp only
    split
    · exact emitsGood_nil
    · exact emitsGood_append (euroPageLoop_good env region term limit _ _ _ _) (ih _ _)

/-- Every record collected by a europages run is well-formed. -/
theorem europagesRun_good (env : EuroEnv) (region : Str) (limit : Nat) :
    EmitsGood (europagesRun env region limit) :=
  euroTermLoop_good env region limit _ _ _

theorem paListingLoop_good (region cat : Str) (limit : Nat) :
    ∀ ls n seen nw, EmitsGood (paListingLoop region cat limit ls n seen nw).1 := by
  intro ls
  induction ls with
  | nil =>
    intro n seen nw
    simp only [paListingLoop]
    exact emitsGood_nil
  | cons li rest ih =>
    intro n seen nw
    rw [paListingLoop]
    dsimp only
    split
    · exact emitsGood_nil
    split
    · exact ih _ _ _
    rename_i t ht
    split
    · exact ih _ _ _
    rename_i hname
    split
    · exact emitsGood_cons_nonemit (by intro r; simp) (ih _ _ _)
    · apply emitsGood_cons_nonemit (by intro r; simp)
      exact emitsGood_cons_emit
        ⟨pyStrip t, hname, paRecord_head region li (pyUpper (pyStrip t))⟩ (ih _ _ _)

theorem paPageLoop_good (env : PAEnv) (region cat : Str) (limit : Nat) :
    ∀ fuel pnum n seen, EmitsGood (paPageLoop env region cat limit fuel pnum n seen).1 := by
  intro fuel
  induction fuel with
  | zero =>
    intro pnum n seen
    simp only [paPageLoop]
    exact emitsGood_nil
  | succ fuel ih =>
    intro pnum n seen
    rw [paPageLoop]
    dsimp only
    split
    · exact emitsGood_nil
    split
    · exact emitsGood_cons_nonemit (by intro r; simp) emitsGood_nil
    split
    · exact emitsGood_cons_nonemit (by intro r; simp) emitsGood_nil
    split
    · exact emitsGood_cons_nonemit (by intro r; simp) emitsGood_nil
    split
    · exact emitsGood_cons_nonemit (by intro r; simp) (paListingLoop_good region cat limit _ _ _ _)
    split
    · exact emitsGood_cons_nonemit (by intro r; simp) (paListingLoop_good region cat limit _ _ _ _)
    · apply emitsGood_cons_nonemit (by intro r; simp)
      apply emitsGood_append
      · exact paListingLoop_good region cat limit _ _ _ _
      · exact ih _ _ _

theorem paCatLoop_good (env : PAEnv) (region : Str) (limit : Nat) :
    ∀ cats n seen, EmitsGood (paCatLoop env region limit cats n seen).1 := by
  intro cats
  induction cats with
  | nil =>
    intro n seen
    simp only [paCatLoop]
    exact emitsGood_nil
  | cons cat rest ih =>
    intro n seen
    rw [paCatLoop]
    split
    · exact emitsGood_nil
    · exact emitsGood_append (paPageLoop_good env region cat limit _ _ _ _) (ih _ _)

/-- Every record collected by a paginasamarillas run is
well-formed. -/
theorem paRun_good (env : PAEnv) (region : Str) (limit : Nat) :
    EmitsGood (paRun env region limit) := by
  unfold paRun
  apply emitsGood_cons_nonemit (by intro r; simp)
  split
  · exact emitsGood_nil
  split
  · exact emitsGood_nil
  · exact paCatLoop_good env region limit _ _ _

theorem einfRowLoop_good (region : Str) (limit : Nat) :
    ∀ rows n, EmitsGood (einfRowLoop region limit rows n).1 := by
  intro rows
  induction rows with
  | nil =>
    intro n
    simp only [einfRowLoop]
    exact emitsGood_nil
  | cons row rest ih =>
    intro n
    rw [einfRowLoop]
    dsimp only
    split
    · exact emitsGood_nil
    split
    · exact ih _
    rename_i t ht
    split
    · exact ih _
    · rename_i hname
      apply emitsGood_cons_nonemit (by intro r; simp)
      exact emitsGood_cons_emit
        ⟨pyStrip t, hname, einfRowRecord_head region row (pyStrip t)⟩ (ih _)

theorem einfLinkName_ne {link n : Str} (h : einfLinkName link = some n) : ¬ n = [] := by
  rw [einfLinkName] at h
  rcases hs : subAfter (lit "/informes-empresa/") link with _ | r0
  · rw [hs] at h
    simp at h
  · rw [hs] at h
    dsimp only at h
    by_cases hr :
        pyStrip (replaceAll (lit "-") (lit " ")
          (r0.takeWhile (fun c => ¬ c = '/'))) = []
    · rw [if_pos hr] at h
      simp at h
    · rw [if_neg hr] at h
      cases h
      exact hr

theorem einfLinkLoop_good (region : Str) (limit : Nat) :
    ∀ links n, EmitsGood (einfLinkLoop region limit links n).1 := by
  intro links
  induction links with
  | nil =>
    intro n
    simp only [einfLinkLoop]
    exact emitsGood_nil
  | cons link rest ih =>
    intro n
    rw [einfLinkLoop]
    dsimp only
    split
    · exact emitsGood_nil
    split
    · exact ih _
    · rename_i raw hraw
      apply emitsGood_cons_nonemit (by intro r; simp)
      exact emitsGood_cons_emit ⟨raw, einfLinkName_ne hraw, _, rfl⟩ (ih _)

theorem einfPageLoop_good (env : EinfEnv) (region province : Str) (limit : Nat) :
    ∀ fuel pnum n, EmitsGood (einfPageLoop env region province limit fuel pnum n).1 := by
  intro fuel
  induction fuel with
  | zero =>
    intro pnum n
    simp only [einfPageLoop]
    exact emitsGood_nil
  | succ fuel ih =>
    intro pnum n
    rw [einfPageLoop]
    dsimp only
    split
    · exact emitsGood_nil
    have hstep : ∀ pre : List Ev, (∀ r, ¬ Ev.emit r ∈ pre) →
        EmitsGood (Prod.fst
          (if (env.page pnum).rows ≠ [] then
            if ¬ env.hasNext pnum then
              (pre ++ (einfRowLoop region limit (env.page pnum).rows n).1,
               (einfRowLoop region limit (env.page pnum).rows n).2)
            else
              (pre ++ (einfRowLoop region limit (env.page pnum).rows n).1 ++
                 (einfPageLoop env region province limit fuel (pnum + 1)
                   (einfRowLoop region limit (env.page pnum).rows n).2).1,
               (einfPageLoop env region province limit fuel (pnum + 1)
                 (einfRowLoop region limit (env.page pnum).rows n).2).2)
          else if (env.page pnum).links ≠ [] then
            if ¬ env.hasNext pnum then
              (pre ++ (einfLinkLoop region limit (env.page pnum).links n).1,
               (einfLinkLoop region limit (env.page pnum).links n).2)
            else
              (pre ++ (einfLinkLoop region limit (env.page pnum).links n).1 ++
                 (einfPageLoop env region province limit fuel (pnum + 1)
                   (einfLinkLoop region limit (env.page pnum).links n).2).1,
               (einfPageLoop env region province limit fuel (pnum + 1)
                 (einfLinkLoop region limit (env.page pnum).links n).2).2)
          else (pre, n))) := by
      intro pre hpre
      split
      · split
        all_goals dsimp only
        · apply emitsGood_append (emitsGood_of_no_emit hpre)
          exact einfRowLoop_good region limit _ _
        · apply emitsGood_append
          · apply emitsGood_append (emitsGood_of_no_emit hpre)
            exact einfRowLoop_good region limit _ _
          · exact ih _ _
      · split
        · split
          all_goals dsimp only
          · apply emitsGood_append (emitsGood_of_no_emit hpre)
            exact einfLinkLoop_good region limit _ _
          · apply emitsGood_append
            · apply emitsGood_append (emitsGood_of_no_emit hpre)
              exact einfLinkLoop_good region limit _ _
            · exact ih _ _
        · exact emitsGood_of_no_emit hpre
    split
    · exact hstep [] (by intro r hr; simp at hr)
    · split
      · exact emitsGood_cons_nonemit (by intro r; simp) emitsGood_nil
      split
      · exact emitsGood_cons_nonemit (by intro r; simp) emitsGood_nil
      · exact hstep [Ev.pageReq province pnum] (by intro r hr; simp at hr)

/-- Every record collected by an einforma run is well-formed. -/
theorem einformaRun_good (env : EinfEnv) (region province : Str) (limit fuel : Nat) :
    EmitsGood (einformaRun env region province limit fuel) := by
  unfold einformaRun
  apply emitsGood_cons_nonemit (by intro r; simp)
  apply emitsGood_cons_nonemit (by intro r; simp)
  split
  · exact emitsGood_nil
  · exact einfPageLoop_good env region province limit _ _ _

theorem lbItemLoop_good (region : Str) (limit : Nat) :
    ∀ items n, EmitsGood (lbItemLoop region limit items n).1 := by
  intro items
  induction items with
  | nil =>
    intro n
    simp only [lbItemLoop]
    exact emitsGood_nil
  | cons item rest ih =>
    intro n
    rw [lbItemLoop]
    dsimp only
    split
    · exact emitsGood_nil
    split
    · exact ih _
    · rename_i hname
      apply emitsGood_cons_nonemit (by intro r; simp)
      exact emitsGood_cons_emit
        ⟨pyStrip item.name, hname, lbItemRecord_head region item (pyStrip item.name)⟩
        (ih _)

theorem lbLinkLoop_good (env : LbEnv) (region : Str) (limit : Nat) :
    ∀ links n, EmitsGood (lbLinkLoop env region limit links n).1 := by
  intro links
  induction links with
  | nil =>
    intro n
    simp only [lbLinkLoop]
    exact emitsGood_nil
  | cons link rest ih =>
    intro n
    rw [lbLinkLoop]
    dsimp only
    split
    · exact emitsGood_nil
    split
    · exact emitsGood_cons_nonemit (by intro r; simp) (ih _)
    split
    · exact emitsGood_cons_nonemit (by intro r; simp) (ih _)
    split
    · exact emitsGood_cons_nonemit (by intro r; simp) (ih _)
    rename_i t0 ht0
    split
    · exact emitsGood_cons_nonemit (by intro r; simp) (ih _)
    · rename_i hname
      apply emitsGood_cons_nonemit (by intro r; simp)
      apply emitsGood_cons_nonemit (by intro r; simp)
      exact emitsGood_cons_emit
        ⟨pyStrip t0, hname, lbDetailRecord_head region link _ (pyStrip t0)⟩ (ih _)

theorem lbPageLoop_good (env : LbEnv) (region province : Str) (limit : Nat) :
    ∀ fuel pnum n, EmitsGood (lbPageLoop env region province limit fuel pnum n).1 := by
  intro fuel
  induction fuel with
  | zero =>
    intro pnum n
    simp only [lbPageLoop]
    exact emitsGood_nil
  | succ fuel ih =>
    intro pnum n
    rw [lbPageLoop]
    dsimp only
    split
    · exact emitsGood_nil
    split
    · exact emitsGood_cons_nonemit (by intro r; simp) emitsGood_nil
    split
    · exact emitsGood_cons_nonemit (by intro r; simp) emitsGood_nil
    split
    · split
      · exact emitsGood_cons_nonemit (by intro r; simp) emitsGood_nil
      · apply emitsGood_cons_nonemit (by intro r; simp)
        apply emitsGood_append
        · exact lbLinkLoop_good env region limit _ _
        · exact ih _ _
    · split
      · exact emitsGood_cons_nonemit (by intro r; simp) emitsGood_nil
      split
      · exact emitsGood_cons_nonemit (by intro r; simp) (lbItemLoop_good region limit _ _)
      · apply emitsGood_cons_nonemit (by intro r; simp)
        apply emitsGood_append
        · exact lbItemLoop_good region limit _ _
        · exact ih _ _

/-- Every record collected by a librebor run is well-formed. -/
theorem libreborRun_good (env : LbEnv) (region province : Str) (limit fuel : Nat) :
    EmitsGood (libreborRun env region province limit fuel) := by
  unfold libreborRun
  apply emitsGood_cons_nonemit (by intro r; simp)
  split
  · exact emitsGood_nil
  · exact lbPageLoop_good env region province limit _ _ _

theorem emsName_ne {r : EmsClickResult} {n : Str} (h : emsName r = some n) :
    ¬ n = [] := by
  rw [emsName] at h
  dsimp only at h
  split at h
  · rename_i h1
    cases h
    split at h1
    · split at h1
      · simp at h1
      · rename_i hne
        cases h1
        exact hne
    · simp at h1
  · split at h
    · split at h
      · simp at h
      · rename_i hne
        cases h
        exact hne
    · simp at h

theorem emsTextLoop_good (env : EmsEnv) (region : Str) (limit : Nat) :
    ∀ texts n seen, EmitsGood (emsTextLoop env region limit texts n seen).1 := by
  intro texts
  induction texts with
  | nil =>
    intro n seen
    simp only [emsTextLoop]
    exact emitsGood_nil
  | cons text rest ih =>
    intro n seen
    rw [emsTextLoop]
    dsimp only
    split
    · exact emitsGood_nil
    split
    · exact emitsGood_cons_nonemit (by intro r; simp) emitsGood_nil
    split
    · exact emitsGood_cons_nonemit (by intro r; simp) (ih _ _)
    split
    · exact emitsGood_cons_nonemit (by intro r; simp) (ih _ _)
    split
    · exact emitsGood_cons_nonemit (by intro r; simp)
        (emitsGood_cons_nonemit (by intro r; simp) (ih _ _))
    split
    · exact emitsGood_cons_nonemit (by intro r; simp)
        (emitsGood_cons_nonemit (by intro r; simp)
          (emitsGood_cons_nonemit (by intro r; simp) (ih _ _)))
    split
    · exact emitsGood_cons_nonemit (by intro r; simp)
        (emitsGood_cons_nonemit (by intro r; simp)
          (emitsGood_cons_nonemit (by intro r; simp) (ih _ _)))
    · rename_i name hname
      apply emitsGood_cons_nonemit (by intro r; simp)
      apply emitsGood_cons_nonemit (by intro r; simp)
      apply emitsGood_cons_nonemit (by intro r; simp)
      exact emitsGood_cons_emit
        ⟨name, emsName_ne hname, emsRecord_head region _ name⟩ (ih _ _)

theorem emsTermLoop_good (env : EmsEnv) (region : Str) (limit : Nat) :
    ∀ terms n seen, EmitsGood (emsTermLoop env region limit terms n seen).1 := by
  intro terms
  induction terms with
  | nil =>
    intro n seen
    simp only [emsTermLoop]
    exact emitsGood_nil
  | cons term rest ih =>
    intro n seen
    rw [emsTermLoop]
    dsimp only
    split
    · exact emitsGood_nil
    split
    · exact emitsGood_cons_nonemit (by intro r; simp) emitsGood_nil
    split
    · exact emitsGood_cons_nonemit (by intro r; simp) (ih _ _)
    split
    · exact emitsGood_cons_nonemit (by intro r; simp)
        (emsTextLoop_good env region limit _ _ _)
    · apply emitsGood_cons_nonemit (by intro r; simp)
      apply emitsGood_append
      · exact emsTextLoop_good env region limit _ _ _
      · exact ih _ _

/-- Every record collected by an empresia run is well-formed. -/
theorem empresiaRun_good (env : EmsEnv) (region : Str) (limit : Nat) :
    EmitsGood (empresiaRun env region limit).1 := by
  unfold empresiaRun
  split
  · exact emitsGood_cons_nonemit (by intro r; simp) emitsGood_nil
  · exact emitsGood_cons_nonemit (by intro r; simp)
      (emsTermLoop_good env region limit _ _ _)

/-!
Item-limit lemmas.  Each loop returns a count equal to its input count
plus the number of emit events it produced, and, when a positive limit
is respected on entry, its events satisfy the running bound and its
output count stays at most the limit.
-/

theorem emitCount_nil : emitCount [] = 0 := rfl

theorem emitCount_cons (e : Ev) (evs : List Ev) :
    emitCount (e :: evs) = (if isEmitEv e then 1 else 0) + emitCount evs := by
  simp [emitCount, List.countP_cons, Nat.add_comm]

theorem boundedFrom_cons_raw {L t : Nat} {k : Str} {evs : List Ev} :
    BoundedFrom L t (Ev.raw k :: evs) ↔ BoundedFrom L t evs := by
  simp [BoundedFrom, isReqEv, isEmitEv]

theorem boundedFrom_cons_emit {L t : Nat} {r : Rec} {evs : List Ev} :
    BoundedFrom L t (Ev.emit r :: evs) ↔ BoundedFrom L (t + 1) evs := by
  simp [BoundedFrom, isReqEv, isEmitEv]

theorem boundedFrom_cons_nav {L t : Nat} {tag : String} {evs : List Ev} :
    BoundedFrom L t (Ev.nav tag :: evs) ↔ (t < L ∧ BoundedFrom L t evs) := by
  simp [BoundedFrom, isReqEv, isEmitEv]

theorem boundedFrom_cons_pageReq {L t : Nat} {s : Str} {p : Nat} {evs : List Ev} :
    BoundedFrom L t (Ev.pageReq s p :: evs) ↔ (t < L ∧ BoundedFrom L t evs) := by
  simp [BoundedFrom, isReqEv, isEmitEv]

theorem boundedFrom_cons_detailReq {L t : Nat} {k : Str} {evs : List Ev} :
    BoundedFrom L t (Ev.detailReq k :: evs) ↔ (t < L ∧ BoundedFrom L t evs) := by
  simp [BoundedFrom, isReqEv, isEmitEv]

theorem emitCount_raws {α : Type} (ls : List α) (f : α → Str) :
    emitCount (ls.map (fun l => Ev.raw (f l))) = 0 := by
  induction ls with
  | nil => rfl
  | cons l rest ih => simp [emitCount_cons, isEmitEv, ih]

theorem boundedFrom_raws {L t : Nat} {α : Type} (ls : List α) (f : α → Str) :
    BoundedFrom L t (ls.map (fun l => Ev.raw (f l))) := by
  induction ls with
  | nil => trivial
  | cons l rest ih => simpa [boundedFrom_cons_raw] using ih

/-- Shape of a limit lemma for one loop returning events and a
count. -/
def LimitStep (L t : Nat) (out : List Ev × Nat) : Prop :=
  out.2 = t + emitCount out.1 ∧
    (0 < L → t ≤ L → BoundedFrom L t out.1 ∧ out.2 ≤ L)

theorem limitStep_stop (L t : Nat) : LimitStep L t ([], t) := by
  constructor
  · simp [emitCount_nil]
  · intro _ ht
    exact ⟨trivial, ht⟩

theorem boundedFrom_single_detail {L t : Nat} (u : Str) (h : t < L) :
    BoundedFrom L t [Ev.detailReq u] :=
  boundedFrom_cons_detailReq.mpr ⟨h, trivial⟩

/-- Limit lemma for one processed item: a raw event, non-emitting
request events, the emission, then the rest of the loop. -/
theorem limitStep_item {L t : Nat} (k : Str) (pre : List Ev) (R : Rec)
    (out : List Ev × Nat)
    (hpre0 : emitCount pre = 0)
    (hpreB : t < L → BoundedFrom L t pre)
    (h : LimitStep L (t + 1) out) (hlim : ¬ (0 < L ∧ L ≤ t)) :
    LimitStep L t ((Ev.raw k :: pre) ++ Ev.emit R :: out.1, out.2) := by
  obtain ⟨hc, hb⟩ := h
  constructor
  · simp [emitCount_append, emitCount_cons, isEmitEv, hpre0]
    omega
  · intro hL ht
    have htL : t < L := by omega
    obtain ⟨hbb, hle⟩ := hb hL (by omega)
    refine ⟨?_, hle⟩
    rw [boundedFrom_append]
    refine ⟨boundedFrom_cons_raw.mpr (hpreB htL), ?_⟩
    have h0 : emitCount (Ev.raw k :: pre) = 0 := by
      simp [emitCount_cons, isEmitEv, hpre0]
    rw [h0]
    exact boundedFrom_cons_emit.mpr hbb

theorem empCardLoop_limit (details : Bool) (region citySlug : Str) (L : Nat) :
    ∀ cards t, LimitStep L t (empCardLoop details region citySlug L cards t) := by
  intro cards
  induction cards with
  | nil =>
    intro t
    simp only [empCardLoop]
    exact limitStep_stop L t
  | cons card rest ih =>
    intro t
    rw [empCardLoop]
    dsimp only
    split
    · exact limitStep_stop L t
    rename_i hlim
    split
    · exact ih t
    split
    · exact ih t
    · split
      · exact limitStep_item _ _ _ _ (by simp [emitCount_cons, isEmitEv, emitCount_nil])
          (fun htL => boundedFrom_single_detail _ htL) (ih (t + 1)) hlim
      · exact limitStep_item _ [] _ _ rfl (fun _ => trivial) (ih (t + 1)) hlim

theorem limitStep_cons_req {L t : Nat} {e : Ev} (he : isReqEv e = true)
    (hem : isEmitEv e = false) {out : List Ev × Nat}
    (h : LimitStep L t out) (hlim : ¬ (0 < L ∧ L ≤ t)) :
    LimitStep L t (e :: out.1, out.2) := by
  obtain ⟨hc, hb⟩ := h
  constructor
  · simp [emitCount_cons, hem, hc]
  · intro hL ht
    obtain ⟨hbb, hle⟩ := hb hL ht
    refine ⟨?_, hle⟩
    rw [show BoundedFrom L t (e :: out.1) =
        ((isReqEv e = true → t < L) ∧
          BoundedFrom L (if isEmitEv e then t + 1 else t) out.1) from rfl]
    rw [hem]
    exact ⟨fun _ => by omega, hbb⟩

theorem limitStep_cons_pageReq {L t : Nat} (s : Str) (p : Nat) {out : List Ev × Nat}
    (h : LimitStep L t out) (hlim : ¬ (0 < L ∧ L ≤ t)) :
    LimitStep L t (Ev.pageReq s p :: out.1, out.2) := by
  apply limitStep_cons_req
  case he => rfl
  case hem => rfl
  case h => exact h
  case hlim => exact hlim

theorem limitStep_cons_nav {L t : Nat} (tag : String) {out : List Ev × Nat}
    (h : LimitStep L t out) (hlim : ¬ (0 < L ∧ L ≤ t)) :
    LimitStep L t (Ev.nav tag :: out.1, out.2) := by
  apply limitStep_cons_req
  case he => rfl
  case hem => rfl
  case h => exact h
  case hlim => exact hlim

theorem limitStep_cons_detReq {L t : Nat} (k : Str) {out : List Ev × Nat}
    (h : LimitStep L t out) (hlim : ¬ (0 < L ∧ L ≤ t)) :
    LimitStep L t (Ev.detailReq k :: out.1, out.2) := by
  apply limitStep_cons_req
  case he => rfl
  case hem => rfl
  case h => exact h
  case hlim => exact hlim

theorem limitStep_pageReq1 {L t : Nat} (s : Str) (p : Nat)
    (hlim : ¬ (0 < L ∧ L ≤ t)) : LimitStep L t ([Ev.pageReq s p], t) :=
  limitStep_cons_pageReq s p (limitStep_stop L t) hlim

theorem limitStep_append {L t : Nat} {a : List Ev} {n1 : Nat} {out2 : List Ev × Nat}
    (h1 : LimitStep L t (a, n1)) (h2 : LimitStep L n1 out2) :
    LimitStep L t (a ++ out2.1, out2.2) := by
  obtain ⟨hc1, hb1⟩ := h1
  obtain ⟨hc2, hb2⟩ := h2
  constructor
  · simp only [emitCount_append]
    simp only at hc1
    omega
  · intro hL ht
    obtain ⟨hbb1, hle1⟩ := hb1 hL ht
    obtain ⟨hbb2, hle2⟩ := hb2 hL hle1
    refine ⟨?_, hle2⟩
    rw [boundedFrom_append]
    refine ⟨hbb1, ?_⟩
    have : t + emitCount a = n1 := by
      simp only at hc1
      omega
    rw [this]
    exact hbb2

theorem limitStep_raws_append {L t : Nat} {α : Type} (ls : List α) (f : α → Str)
    {out : List Ev × Nat} (h : LimitStep L t out) :
    LimitStep L t (ls.map (fun l => Ev.raw (f l)) ++ out.1, out.2) := by
  obtain ⟨hc, hb⟩ := h
  constructor
  · simp [emitCount_append, emitCount_raws, hc]
  · intro hL ht
    obtain ⟨hbb, hle⟩ := hb hL ht
    refine ⟨?_, hle⟩
    rw [boundedFrom_append]
    refine ⟨boundedFrom_raws ls f, ?_⟩
    rw [emitCount_raws, Nat.add_zero]
    exact hbb

theorem empPageLoop_limit (env : EmpEnv) (details : Bool) (region citySlug : Str)
    (L : Nat) :
    ∀ fuel page t, LimitStep L t (empPageLoop env details region citySlug L fuel page t) := by
  intro fuel
  induction fuel with
  | zero =>
    intro page t
    simp only [empPageLoop]
    exact limitStep_stop L t
  | succ fuel ih =>
    intro page t
    rw [empPageLoop]
    dsimp only
    split
    · exact limitStep_stop L t
    rename_i hlim
    split
    · exact limitStep_pageReq1 _ _ hlim
    split
    · exact limitStep_pageReq1 _ _ hlim
    split
    · exact limitStep_cons_pageReq _ _
        (empCardLoop_limit details region citySlug L _ t) hlim
    · exact limitStep_append
        (limitStep_cons_pageReq _ _
          (empCardLoop_limit details region citySlug L _ t) hlim)
        (ih _ _)

theorem empCityLoop_limit (env : EmpEnv) (details : Bool) (region : Str) (L : Nat) :
    ∀ cities t, LimitStep L t (empCityLoop env details region L cities t) := by
  intro cities
  induction cities with
  | nil =>
    intro t
    simp only [empCityLoop]
    exact limitStep_stop L t
  | cons city rest ih =>
    intro t
    rw [empCityLoop]
    split
    · exact limitStep_stop L t
    · exact limitStep_append
        ⟨(empPageLoop_limit env details region city.2 L 40 1 t).1,
         (empPageLoop_limit env details region city.2 L 40 1 t).2⟩
        (ih _)

/-- Limit discipline of a full empresite run: counting from zero, the
whole trace respects the limit. -/
theorem empresiteRun_limit (env : EmpEnv) (region : Str) (city : Option Str)
    (details : Bool) (L : Nat) (hL : 0 < L) :
    emitCount (empresiteRun env region city details L) ≤ L ∧
      BoundedFrom L 0 (empresiteRun env region city details L) := by
  unfold empresiteRun
  split
  · obtain ⟨hc, hb⟩ := empCityLoop_limit env details region L [(_, _)] 0
    obtain ⟨hbb, hle⟩ := hb hL (Nat.zero_le L)
    exact ⟨by omega, hbb⟩
  · split
    · constructor
      · simp [emitCount_cons, emitCount_nil, isEmitEv]
      · rw [boundedFrom_cons_nav]
        exact ⟨hL, trivial⟩
    · rename_i cities hcities
      obtain ⟨hc, hb⟩ := empCityLoop_limit env details region L cities 0
      obtain ⟨hbb, hle⟩ := hb hL (Nat.zero_le L)
      constructor
      · simp [emitCount_cons, isEmitEv]
        omega
      · rw [boundedFrom_cons_nav]
        exact ⟨hL, hbb⟩

theorem limitStep_cons_emit {L t : Nat} (R : Rec) {out : List Ev × Nat}
    (h : LimitStep L (t + 1) out) (hlim : ¬ (0 < L ∧ L ≤ t)) :
    LimitStep L t (Ev.emit R :: out.1, out.2) := by
  obtain ⟨hc, hb⟩ := h
  constructor
  · simp [emitCount_cons, isEmitEv]
    omega
  · intro hL ht
    obtain ⟨hbb, hle⟩ := hb hL (by omega)
    exact ⟨boundedFrom_cons_emit.mpr hbb, hle⟩

theorem limitStep_cons_raw {L t : Nat} (k : Str) {out : List Ev × Nat}
    (h : LimitStep L t out) :
    LimitStep L t (Ev.raw k :: out.1, out.2) := by
  obtain ⟨hc, hb⟩ := h
  constructor
  · simp [emitCount_cons, isEmitEv, hc]
  · intro hL ht
    obtain ⟨hbb, hle⟩ := hb hL ht
    exact ⟨boundedFrom_cons_raw.mpr hbb, hle⟩

theorem limitStep_nav1 {L t : Nat} (tag : String)
    (hlim : ¬ (0 < L ∧ L ≤ t)) : LimitStep L t ([Ev.nav tag], t) :=
  limitStep_cons_nav tag (limitStep_stop L t) hlim

theorem limitStep_raws {L t : Nat} {α : Type} (ls : List α) (f : α → Str) :
    LimitStep L t (ls.map (fun l => Ev.raw (f l)), t) :=
  ⟨by simp [emitCount_raws], fun _ ht => ⟨boundedFrom_raws ls f, ht⟩⟩

theorem euroSlugLoop_limit (env : EuroEnv) (region term : Str) (L : Nat) :
    ∀ slugs n, LimitStep L n (euroSlugLoop env region term L slugs n) := by
  intro slugs
  induction slugs with
  | nil =>
    intro n
    simp only [euroSlugLoop]
    exact limitStep_stop L n
  | cons slug rest ih =>
    intro n
    rw [euroSlugLoop]
    dsimp only
    split
    · exact limitStep_stop L n
    rename_i hlim
    split
    · exact limitStep_cons_detReq _ (ih n) hlim
    split
    · exact limitStep_cons_detReq _ (ih n) hlim
    split
    · exact limitStep_cons_detReq _ (ih n) hlim
    · exact limitStep_cons_detReq _ (limitStep_cons_emit _ (ih (n + 1)) hlim) hlim

theorem euroPageLoop_limit (env : EuroEnv) (region term : Str) (L : Nat) :
    ∀ fuel pageNum n seen,
      LimitStep L n ((euroPageLoop env region term L fuel pageNum n seen).1,
        (euroPageLoop env region term L fuel pageNum n seen).2.1) := by
  intro fuel
  induction fuel with
  | zero =>
    intro pageNum n seen
    simp only [euroPageLoop]
    exact limitStep_stop L n
  | succ fuel ih =>
    intro pageNum n seen
    rw [euroPageLoop]
    dsimp only
    split
    · exact limitStep_stop L n
    rename_i hlim
    split
    · exact limitStep_pageReq1 _ _ hlim
    split
    · exact limitStep_pageReq1 _ _ hlim
    split
    · exact limitStep_cons_pageReq _ _ (limitStep_raws _ _) hlim
    split
    · exact limitStep_append
        (limitStep_cons_pageReq _ _ (limitStep_raws _ _) hlim)
        (euroSlugLoop_limit env region term L _ _)
    · exact limitStep_append
        (limitStep_append
          (limitStep_cons_pageReq _ _ (limitStep_raws _ _) hlim)
          (euroSlugLoop_limit env region term L _ _))
        (ih _ _ _)

theorem euroTermLoop_limit (env : EuroEnv) (region : Str) (L : Nat) :
    ∀ terms n seen,
      LimitStep L n ((euroTermLoop env region L terms n seen).1,
        (euroTermLoop env region L terms n seen).2.1) := by
  intro terms
  induction terms with
  | nil =>
    intro n seen
    simp only [euroTermLoop]
    exact limitStep_stop L n
  | cons term rest ih =>
    intro n seen
    rw [euroTermLoop]
    split
    · exact limitStep_stop L n
    · exact limitStep_append
        ⟨(euroPageLoop_limit env region term L 10 1 n seen).1,
         (euroPageLoop_limit env region term L 10 1 n seen).2⟩
        (ih _ _)

/-- Limit discipline of a full europages run. -/
theorem europagesRun_limit (env : EuroEnv) (region : Str) (L : Nat) (hL : 0 < L) :
    emitCount (europagesRun env region L) ≤ L ∧
      BoundedFrom L 0 (europagesRun env region L) := by
  unfold europagesRun
  obtain ⟨hc, hb⟩ := euroTermLoop_limit env region L europagesTerms 0 []
  obtain ⟨hbb, hle⟩ := hb hL (Nat.zero_le L)
  dsimp only at hc hle
  exact ⟨by omega, hbb⟩

theorem paListingLoop_limit (region cat : Str) (L : Nat) :
    ∀ ls n seen nw,
      LimitStep L n ((paListingLoop region cat L ls n seen nw).1,
        (paListingLoop region cat L ls n seen nw).2.1) := by
  intro ls
  induction ls with
  | nil =>
    intro n seen nw
    simp only [paListingLoop]
    exact limitStep_stop L n
  | cons li rest ih =>
    intro n seen nw
    rw [paListingLoop]
    dsimp only
    split
    · exact limitStep_stop L n
    rename_i hlim
    split
    · exact ih _ _ _
    split
    · exact ih _ _ _
    split
    · exact limitStep_cons_raw _ (ih _ _ _)
    · exact limitStep_cons_raw _ (limitStep_cons_emit _ (ih _ _ _) hlim)

theorem paPageLoop_limit (env : PAEnv) (region cat : Str) (L : Nat) :
    ∀ fuel pnum n seen,
      LimitStep L n ((paPageLoop env region cat L fuel pnum n seen).1,
        (paPageLoop env region cat L fuel pnum n seen).2.1) := by
  intro fuel
  induction fuel with
  | zero =>
    intro pnum n seen
    simp only [paPageLoop]
    exact limitStep_stop L n
  | succ fuel ih =>
    intro pnum n seen
    rw [paPageLoop]
    dsimp only
    split
    · exact limitStep_stop L n
    rename_i hlim
    split
    · exact limitStep_pageReq1 _ _ hlim
    split
    · exact limitStep_pageReq1 _ _ hlim
    split
    · exact limitStep_pageReq1 _ _ hlim
    split
    · exact limitStep_cons_pageReq _ _ (paListingLoop_limit region cat L _ _ _ _) hlim
    split
    · exact limitStep_cons_pageReq _ _ (paListingLoop_limit region cat L _ _ _ _) hlim
    · exact limitStep_append
        (limitStep_cons_pageReq _ _ (paListingLoop_limit region cat L _ _ _ _) hlim)
        (ih _ _ _)

theorem paCatLoop_limit (env : PAEnv) (region : Str) (L : Nat) :
    ∀ cats n seen,
      LimitStep L n ((paCatLoop env region L cats n seen).1,
        (paCatLoop env region L cats n seen).2.1) := by
  intro cats
  induction cats with
  | nil =>
    intro n seen
    simp only [paCatLoop]
    exact limitStep_stop L n
  | cons cat rest ih =>
    intro n seen
    rw [paCatLoop]
    split
    · exact limitStep_stop L n
    · exact limitStep_append
        ⟨(paPageLoop_limit env region cat L 20 1 n seen).1,
         (paPageLoop_limit env region cat L 20 1 n seen).2⟩
        (ih _ _)

/-- Limit discipline of a full paginasamarillas run. -/
theorem paRun_limit (env : PAEnv) (region : Str) (L : Nat) (hL : 0 < L) :
    emitCount (paRun env region L) ≤ L ∧ BoundedFrom L 0 (paRun env region L) := by
  unfold paRun
  have hnil : emitCount ([] : List Ev) ≤ L ∧ BoundedFrom L 0 ([] : List Ev) :=
    ⟨by simp [emitCount_nil], trivial⟩
  have hcons : ∀ evs : List Ev,
      emitCount evs ≤ L → BoundedFrom L 0 evs →
        emitCount (Ev.nav "paginasamarillas-home" :: evs) ≤ L ∧
          BoundedFrom L 0 (Ev.nav "paginasamarillas-home" :: evs) := by
    intro evs h1 h2
    constructor
    · simp [emitCount_cons, isEmitEv]
      omega
    · rw [boundedFrom_cons_nav]
      exact ⟨hL, h2⟩
  split
  · exact hcons [] hnil.1 hnil.2
  split
  · exact hcons [] hnil.1 hnil.2
  · obtain ⟨hc, hb⟩ := paCatLoop_limit env region L paCategories 0 []
    obtain ⟨hbb, hle⟩ := hb hL (Nat.zero_le L)
    dsimp only at hc hle
    exact hcons _ (by omega) hbb

theorem einfRowLoop_limit (region : Str) (L : Nat) :
    ∀ rows n, LimitStep L n (einfRowLoop region L rows n) := by
  intro rows
  induction rows with
  | nil =>
    intro n
    simp only [einfRowLoop]
    exact limitStep_stop L n
  | cons row rest ih =>
    intro n
    rw [einfRowLoop]
    dsimp only
    split
    · exact limitStep_stop L n
    rename_i hlim
    split
    · exact ih _
    split
    · exact ih _
    · exact limitStep_cons_raw _ (limitStep_cons_emit _ (ih _) hlim)

theorem einfLinkLoop_limit (region : Str) (L : Nat) :
    ∀ links n, LimitStep L n (einfLinkLoop region L links n) := by
  intro links
  induction links with
  | nil =>
    intro n
    simp only [einfLinkLoop]
    exact limitStep_stop L n
  | cons link rest ih =>
    intro n
    rw [einfLinkLoop]
    dsimp only
    split
    · exact limitStep_stop L n
    rename_i hlim
    split
    · exact ih _
    · exact limitStep_cons_raw _ (limitStep_cons_emit _ (ih _) hlim)

theorem einfPageLoop_limit (env : EinfEnv) (region province : Str) (L : Nat) :
    ∀ fuel pnum n, LimitStep L n (einfPageLoop env region province L fuel pnum n) := by
  intro fuel
  induction fuel with
  | zero =>
    intro pnum n
    simp only [einfPageLoop]
    exact limitStep_stop L n
  | succ fuel ih =>
    intro pnum n
    rw [einfPageLoop]
    dsimp only
    split
    · exact limitStep_stop L n
    rename_i hlim
    have hstep : ∀ pre : List Ev, LimitStep L n (pre, n) →
        LimitStep L n
          (if (env.page pnum).rows ≠ [] then
            if ¬ env.hasNext pnum then
              (pre ++ (einfRowLoop region L (env.page pnum).rows n).1,
               (einfRowLoop region L (env.page pnum).rows n).2)
            else
              (pre ++ (einfRowLoop region L (env.page pnum).rows n).1 ++
                 (einfPageLoop env region province L fuel (pnum + 1)
                   (einfRowLoop region L (env.page pnum).rows n).2).1,
               (einfPageLoop env region province L fuel (pnum + 1)
                 (einfRowLoop region L (env.page pnum).rows n).2).2)
          else if (env.page pnum).links ≠ [] then
            if ¬ env.hasNext pnum then
              (pre ++ (einfLinkLoop region L (env.page pnum).links n).1,
               (einfLinkLoop region L (env.page pnum).links n).2)
            else
              (pre ++ (einfLinkLoop region L (env.page pnum).links n).1 ++
                 (einfPageLoop env region province L fuel (pnum + 1)
                   (einfLinkLoop region L (env.page pnum).links n).2).1,
               (einfPageLoop env region province L fuel (pnum + 1)
                 (einfLinkLoop region L (env.page pnum).links n).2).2)
          else (pre, n)) := by
      intro pre hp
      split
      · split
        · exact limitStep_append hp (einfRowLoop_limit region L _ _)
        · exact limitStep_append
            (limitStep_append hp (einfRowLoop_limit region L _ _)) (ih _ _)
      · split
        · split
          · exact limitStep_append hp (einfLinkLoop_limit region L _ _)
          · exact limitStep_append
              (limitStep_append hp (einfLinkLoop_limit region L _ _)) (ih _ _)
        · exact hp
    split
    · exact hstep [] (limitStep_stop L n)
    · split
      · exact limitStep_pageReq1 _ _ hlim
      split
      · exact limitStep_pageReq1 _ _ hlim
      · exact hstep [Ev.pageReq province pnum] (limitStep_pageReq1 _ _ hlim)

/-- Limit discipline of a full einforma run. -/
theorem einformaRun_limit (env : EinfEnv) (region province : Str) (L fuel : Nat)
    (hL : 0 < L) :
    emitCount (einformaRun env region province L fuel) ≤ L ∧
      BoundedFrom L 0 (einformaRun env region province L fuel) := by
  unfold einformaRun
  have hrest : ∀ evs : List Ev,
      emitCount evs ≤ L → BoundedFrom L 0 evs →
        emitCount (Ev.nav "einforma-home" :: Ev.pageReq province 1 :: evs) ≤ L ∧
          BoundedFrom L 0 (Ev.nav "einforma-home" :: Ev.pageReq province 1 :: evs) := by
    intro evs h1 h2
    constructor
    · simp [emitCount_cons, isEmitEv]
      omega
    · rw [boundedFrom_cons_nav, boundedFrom_cons_pageReq]
      exact ⟨hL, hL, h2⟩
  split
  · exact hrest [] (by simp [emitCount_nil]) trivial
  · obtain ⟨hc, hb⟩ := einfPageLoop_limit env region province L fuel 1 0
    obtain ⟨hbb, hle⟩ := hb hL (Nat.zero_le L)
    exact hrest _ (by omega) hbb

theorem lbItemLoop_limit (region : Str) (L : Nat) :
    ∀ items n, LimitStep L n (lbItemLoop region L items n) := by
  intro items
  induction items with
  | nil =>
    intro n
    simp only [lbItemLoop]
    exact limitStep_stop L n
  | cons item rest ih =>
    intro n
    rw [lbItemLoop]
    dsimp only
    split
    · exact limitStep_stop L n
    rename_i hlim
    split
    · exact ih _
    · exact limitStep_cons_raw _ (limitStep_cons_emit _ (ih _) hlim)

theorem lbLinkLoop_limit (env : LbEnv) (region : Str) (L : Nat) :
    ∀ links n, LimitStep L n (lbLinkLoop env region L links n) := by
  intro links
  induction links with
  | nil =>
    intro n
    simp only [lbLinkLoop]
    exact limitStep_stop L n
  | cons link rest ih =>
    intro n
    rw [lbLinkLoop]
    dsimp only
    split
    · exact limitStep_stop L n
    rename_i hlim
    split
    · exact limitStep_cons_detReq _ (ih _) hlim
    split
    · exact limitStep_cons_detReq _ (ih _) hlim
    split
    · exact limitStep_cons_detReq _ (ih _) hlim
    split
    · exact limitStep_cons_detReq _ (ih _) hlim
    · exact limitStep_cons_detReq _
        (limitStep_cons_raw _ (limitStep_cons_emit _ (ih _) hlim)) hlim

theorem lbPageLoop_limit (env : LbEnv) (region province : Str) (L : Nat) :
    ∀ fuel pnum n, LimitStep L n (lbPageLoop env region province L fuel pnum n) := by
  intro fuel
  induction fuel with
  | zero =>
    intro pnum n
    simp only [lbPageLoop]
    exact limitStep_stop L n
  | succ fuel ih =>
    intro pnum n
    rw [lbPageLoop]
    dsimp only
    split
    · exact limitStep_stop L n
    rename_i hlim
    split
    · exact limitStep_pageReq1 _ _ hlim
    split
    · exact limitStep_pageReq1 _ _ hlim
    split
    · split
      · exact limitStep_pageReq1 _ _ hlim
      · exact limitStep_append
          (limitStep_cons_pageReq _ _ (lbLinkLoop_limit env region L _ _) hlim)
          (ih _ _)
    · split
      · exact limitStep_pageReq1 _ _ hlim
      split
      · exact limitStep_cons_pageReq _ _ (lbItemLoop_limit region L _ _) hlim
      · exact limitStep_append
          (limitStep_cons_pageReq _ _ (lbItemLoop_limit region L _ _) hlim)
          (ih _ _)

/-- Limit discipline of a full librebor run. -/
theorem libreborRun_limit (env : LbEnv) (region province : Str) (L fuel : Nat)
    (hL : 0 < L) :
    emitCount (libreborRun env region province L fuel) ≤ L ∧
      BoundedFrom L 0 (libreborRun env region province L fuel) := by
  unfold libreborRun
  have hrest : ∀ evs : List Ev,
      emitCount evs ≤ L → BoundedFrom L 0 evs →
        emitCount (Ev.nav "librebor-home" :: evs) ≤ L ∧
          BoundedFrom L 0 (Ev.nav "librebor-home" :: evs) := by
    intro evs h1 h2
    constructor
    · simp [emitCount_cons, isEmitEv]
      omega
    · rw [boundedFrom_cons_nav]
      exact ⟨hL, h2⟩
  split
  · exact hrest [] (by simp [emitCount_nil]) trivial
  · obtain ⟨hc, hb⟩ := lbPageLoop_limit env region province L fuel 1 0
    obtain ⟨hbb, hle⟩ := hb hL (Nat.zero_le L)
    exact hrest _ (by omega) hbb

theorem emsTextLoop_limit (env : EmsEnv) (region : Str) (L : Nat) :
    ∀ texts n seen,
      LimitStep L n ((emsTextLoop env region L texts n seen).1,
        (emsTextLoop env region L texts n seen).2.1) := by
  intro texts
  induction texts with
  | nil =>
    intro n seen
    simp only [emsTextLoop]
    exact limitStep_stop L n
  | cons text rest ih =>
    intro n seen
    rw [emsTextLoop]
    dsimp only
    split
    · exact limitStep_stop L n
    rename_i hlim
    split
    · exact limitStep_nav1 _ hlim
    split
    · exact limitStep_cons_nav _ (ih _ _) hlim
    split
    · exact limitStep_cons_nav _ (ih _ _) hlim
    split
    · exact limitStep_cons_nav _ (limitStep_cons_detReq _ (ih _ _) hlim) hlim
    split
    · exact limitStep_cons_nav _
        (limitStep_cons_detReq _ (limitStep_cons_raw _ (ih _ _)) hlim) hlim
    split
    · exact limitStep_cons_nav _
        (limitStep_cons_detReq _ (limitStep_cons_raw _ (ih _ _)) hlim) hlim
    · exact limitStep_cons_nav _
        (limitStep_cons_detReq _
          (limitStep_cons_raw _ (limitStep_cons_emit _ (ih _ _) hlim)) hlim) hlim

theorem emsTermLoop_limit (env : EmsEnv) (region : Str) (L : Nat) :
    ∀ terms n seen,
      LimitStep L n ((emsTermLoop env region L terms n seen).1,
        (emsTermLoop env region L terms n seen).2.1) := by
  intro terms
  induction terms with
  | nil =>
    intro n seen
    simp only [emsTermLoop]
    exact limitStep_stop L n
  | cons term rest ih =>
    intro n seen
    rw [emsTermLoop]
    dsimp only
    split
    · exact limitStep_stop L n
    rename_i hlim
    split
    · exact limitStep_nav1 _ hlim
    split
    · exact limitStep_cons_nav _ (ih _ _) hlim
    split
    · exact limitStep_cons_nav _ (emsTextLoop_limit env region L _ _ _) hlim
    · exact limitStep_append
        (limitStep_cons_nav _ (emsTextLoop_limit env region L _ _ _) hlim)
        (ih _ _)

/-- Limit discipline of a full empresia run. -/
theorem empresiaRun_limit (env : EmsEnv) (region : Str) (L : Nat) (hL : 0 < L) :
    emitCount (empresiaRun env region L).1 ≤ L ∧
      BoundedFrom L 0 (empresiaRun env region L).1 := by
  unfold empresiaRun
  split
  · constructor
    · simp [emitCount_cons, emitCount_nil, isEmitEv]
    · rw [boundedFrom_cons_nav]
      exact ⟨hL, trivial⟩
  · obtain ⟨hc, hb⟩ := emsTermLoop_limit env region L empresiaTerms 0 []
    obtain ⟨hbb, hle⟩ := hb hL (Nat.zero_le L)
    dsimp only at hc hle
    constructor
    · simp [emitCount_cons, isEmitEv]
      omega
    · rw [boundedFrom_cons_nav]
      exact ⟨hL, hbb⟩

/-!
Pagination lemmas: which page numbers can appear in page requests.
Inner item loops issue no page requests; a page loop only requests
pages of its own scope, within its ceiling; and a page that yields
zero items stops the scope at that page.
-/

/-- Traces with no page request at all. -/
def NoPage (evs : List Ev) : Prop := ∀ s q, ¬ Ev.pageReq s q ∈ evs

theorem noPage_nil : NoPage [] := by
  intro s q h
  simp at h

theorem noPage_cons {e : Ev} {evs : List Ev} (he : ∀ s q, ¬ e = Ev.pageReq s q)
    (h : NoPage evs) : NoPage (e :: evs) := by
  intro s q hm
  rcases List.mem_cons.mp hm with h0 | h0
  · exact he s q h0.symm
  · exact h s q h0

theorem noPage_append {a b : List Ev} (ha : NoPage a) (hb : NoPage b) :
    NoPage (a ++ b) := by
  intro s q hm
  rcases List.mem_append.mp hm with h0 | h0
  · exact ha s q h0
  · exact hb s q h0

theorem noPage_raws {α : Type} (ls : List α) (f : α → Str) :
    NoPage (ls.map (fun l => Ev.raw (f l))) := by
  intro s q h
  rcases List.mem_map.mp h with ⟨l, _, hl⟩
  simp at hl

theorem noPage_empCardLoop (details : Bool) (region citySlug : Str) (L : Nat) :
    ∀ cards t, NoPage (empCardLoop details region citySlug L cards t).1 := by
  intro cards
  induction cards with
  | nil =>
    intro t
    simp only [empCardLoop]
    exact noPage_nil
  | cons card rest ih =>
    intro t
    rw [empCardLoop]
    dsimp only
    split
    · exact noPage_nil
    split
    · exact ih t
    split
    · exact ih t
    · apply noPage_append
      · apply noPage_cons (by intro s q; simp)
        split
        · exact noPage_cons (by intro s q; simp) noPage_nil
        · exact noPage_nil
      · exact noPage_cons (by intro s q; simp) (ih _)

theorem noPage_euroSlugLoop (env : EuroEnv) (region term : Str) (L : Nat) :
    ∀ slugs n, NoPage (euroSlugLoop env region term L slugs n).1 := by
  intro slugs
  induction slugs with
  | nil =>
    intro n
    simp only [euroSlugLoop]
    exact noPage_nil
  | cons slug rest ih =>
    intro n
    rw [euroSlugLoop]
    dsimp only
    split
    · exact noPage_nil
    split
    · exact noPage_cons (by intro s q; simp) (ih _)
    split
    · exact noPage_cons (by intro s q; simp) (ih _)
    split
    · exact noPage_cons (by intro s q; simp) (ih _)
    · exact noPage_cons (by intro s q; simp)
        (noPage_cons (by intro s q; simp) (ih _))

theorem noPage_paListingLoop (region cat : Str) (L : Nat) :
    ∀ ls n seen nw, NoPage (paListingLoop region cat L ls n seen nw).1 := by
  intro ls
  induction ls with
  | nil =>
    intro n seen nw
    simp only [paListingLoop]
    exact noPage_nil
  | cons li rest ih =>
    intro n seen nw
    rw [paListingLoop]
    dsimp only
    split
    · exact noPage_nil
    split
    · exact ih _ _ _
    split
    · exact ih _ _ _
    split
    · exact noPage_cons (by intro s q; simp) (ih _ _ _)
    · exact noPage_cons (by intro s q; simp)
        (noPage_cons (by intro s q; simp) (ih _ _ _))

theorem noPage_einfRowLoop (region : Str) (L : Nat) :
    ∀ rows n, NoPage (einfRowLoop region L rows n).1 := by
  intro rows
  induction rows with
  | nil =>
    intro n
    simp only [einfRowLoop]
    exact noPage_nil
  | cons row rest ih =>
    intro n
    rw [einfRowLoop]
    dsimp only
    split
    · exact noPage_nil
    split
    · exact ih _
    split
    · exact ih _
    · exact noPage_cons (by intro s q; simp)
        (noPage_cons (by intro s q; simp) (ih _))

theorem noPage_einfLinkLoop (region : Str) (L : Nat) :
    ∀ links n, NoPage (einfLinkLoop region L links n).1 := by
  intro links
  induction links with
  | nil =>
    intro n
    simp only [einfLinkLoop]
    exact noPage_nil
  | cons link rest ih =>
    intro n
    rw [einfLinkLoop]
    dsimp only
    split
    · exact noPage_nil
    split
    · exact ih _
    · exact noPage_cons (by intro s q; simp)
        (noPage_cons (by intro s q; simp) (ih _))

theorem noPage_lbItemLoop (region : Str) (L : Nat) :
    ∀ items n, NoPage (lbItemLoop region L items n).1 := by
  intro items
  induction items with
  | nil =>
    intro n
    simp only [lbItemLoop]
    exact noPage_nil
  | cons item rest ih =>
    intro n
    rw [lbItemLoop]
    dsimp only
    split
    · exact noPage_nil
    split
    · exact ih _
    · exact noPage_cons (by intro s q; simp)
        (noPage_cons (by intro s q; simp) (ih _))

theorem noPage_lbLinkLoop (env : LbEnv) (region : Str) (L : Nat) :
    ∀ links n, NoPage (lbLinkLoop env region L links n).1 := by
  intro links
  induction links with
  | nil =>
    intro n
    simp only [lbLinkLoop]
    exact noPage_nil
  | cons link rest ih =>
    intro n
    rw [lbLinkLoop]
    dsimp only
    split
    · exact noPage_nil
    split
    · exact noPage_cons (by intro s q; simp) (ih _)
    split
    · exact noPage_cons (by intro s q; simp) (ih _)
    split
    · exact noPage_cons (by intro s q; simp) (ih _)
    split
    · exact noPage_cons (by intro s q; simp) (ih _)
    · exact noPage_cons (by intro s q; simp)
        (noPage_cons (by intro s q; simp)
          (noPage_cons (by intro s q; simp) (ih _)))

theorem empPageLoop_scope_ceiling (env : EmpEnv) (details : Bool)
    (region citySlug : Str) (L : Nat) :
    ∀ fuel page t, page ≤ 40 →
      ∀ s q, Ev.pageReq s q ∈ (empPageLoop env details region citySlug L fuel page t).1 →
        s = citySlug ∧ q ≤ 40 := by
  intro fuel
  induction fuel with
  | zero =>
    intro page t hp s q hm
    simp only [empPageLoop] at hm
    simp at hm
  | succ fuel ih =>
    intro page t hp s q hm
    rw [empPageLoop] at hm
    dsimp only at hm
    split at hm
    · simp at hm
    split at hm
    · rcases List.mem_singleton.mp hm with h
      cases h
      exact ⟨rfl, hp⟩
    split at hm
    · rcases List.mem_singleton.mp hm with h
      cases h
      exact ⟨rfl, hp⟩
    split at hm
    · rcases List.mem_cons.mp hm with h | h
      · cases h
        exact ⟨rfl, hp⟩
      · exact absurd h (noPage_empCardLoop details region citySlug L _ _ s q)
    · rename_i hrec
      rcases List.mem_append.mp hm with h | h
      · rcases List.mem_cons.mp h with h0 | h0
        · cases h0
          exact ⟨rfl, hp⟩
        · exact absurd h0 (noPage_empCardLoop details region citySlug L _ _ s q)
      · exact ih (page + 1) _ (by omega) s q h

theorem empPageLoop_zero_stop (env : EmpEnv) (details : Bool)
    (region citySlug : Str) (L N : Nat)
    (hzero : env.page citySlug N = some []) :
    ∀ fuel page t, page ≤ N →
      ∀ s q, Ev.pageReq s q ∈ (empPageLoop env details region citySlug L fuel page t).1 →
        q ≤ N := by
  intro fuel
  induction fuel with
  | zero =>
    intro page t hp s q hm
    simp only [empPageLoop] at hm
    simp at hm
  | succ fuel ih =>
    intro page t hp s q hm
    rw [empPageLoop] at hm
    dsimp only at hm
    split at hm
    · simp at hm
    split at hm
    · rcases List.mem_singleton.mp hm with h
      cases h
      exact hp
    split at hm
    · rcases List.mem_singleton.mp hm with h
      cases h
      exact hp
    split at hm
    · rcases List.mem_cons.mp hm with h | h
      · cases h
        exact hp
      · exact absurd h (noPage_empCardLoop details region citySlug L _ _ s q)
    · rename_i cards heq hne hrec
      rcases List.mem_append.mp hm with h | h
      · rcases List.mem_cons.mp h with h0 | h0
        · cases h0
          exact hp
        · exact absurd h0 (noPage_empCardLoop details region citySlug L _ _ s q)
      · have hlt : page < N := by
          rcases Nat.lt_or_ge page N with h1 | h1
          · exact h1
          · have : page = N := by omega
            subst this
            rw [hzero] at heq
            cases heq
            simp at hne
        exact ih (page + 1) _ (by omega) s q h

theorem euroPageLoop_scope_ceiling (env : EuroEnv) (region term : Str) (L : Nat) :
    ∀ fuel pageNum n seen, pageNum ≤ 10 →
      ∀ s q, Ev.pageReq s q ∈ (euroPageLoop env region term L fuel pageNum n seen).1 →
        s = term ∧ q ≤ 10 := by
  intro fuel
  induction fuel with
  | zero =>
    intro pageNum n seen hp s q hm
    simp only [euroPageLoop] at hm
    simp at hm
  | succ fuel ih =>
    intro pageNum n seen hp s q hm
    rw [euroPageLoop] at hm
    dsimp only at hm
    split at hm
    · simp at hm
    split at hm
    · rcases List.mem_singleton.mp hm with h
      cases h
      exact ⟨rfl, hp⟩
    split at hm
    · rcases List.mem_singleton.mp hm with h
      cases h
      exact ⟨rfl, hp⟩
    split at hm
    · rcases List.mem_cons.mp hm with h | h
      · cases h
        exact ⟨rfl, hp⟩
      · exact absurd h (noPage_raws _ _ s q)
    split at hm
    · rcases List.mem_append.mp hm with h | h
      · rcases List.mem_cons.mp h with h0 | h0
        · cases h0
          exact ⟨rfl, hp⟩
        · exact absurd h0 (noPage_raws _ _ s q)
      · exact absurd h (noPage_euroSlugLoop env region term L _ _ s q)
    · rename_i hrec
      rcases List.mem_append.mp hm with h | h
      · rcases List.mem_append.mp h with h1 | h1
        · rcases List.mem_cons.mp h1 with h0 | h0
          · cases h0
            exact ⟨rfl, hp⟩
          · exact absurd h0 (noPage_raws _ _ s q)
        · exact absurd h1 (noPage_euroSlugLoop env region term L _ _ s q)
      · exact ih (pageNum + 1) _ _ (by omega) s q h

theorem euroPageLoop_zero_stop (env : EuroEnv) (region term : Str) (L N : Nat)
    (hzero : (env.list term N).rawLinks = []) :
    ∀ fuel pageNum n seen, pageNum ≤ N →
      ∀ s q, Ev.pageReq s q ∈ (euroPageLoop env region term L fuel pageNum n seen).1 →
        q ≤ N := by
  intro fuel
  induction fuel with
  | zero =>
    intro pageNum n seen hp s q hm
    simp only [euroPageLoop] at hm
    simp at hm
  | succ fuel ih =>
    intro pageNum n seen hp s q hm
    rw [euroPageLoop] at hm
    dsimp only at hm
    split at hm
    · simp at hm
    split at hm
    · rcases List.mem_singleton.mp hm with h
      cases h
      exact hp
    split at hm
    · rcases List.mem_singleton.mp hm with h
      cases h
      exact hp
    split at hm
    · rcases List.mem_cons.mp hm with h | h
      · cases h
        exact hp
      · exact absurd h (noPage_raws _ _ s q)
    · have hlt : pageNum < N ∨ pageNum = N := by omega
      have hcol : ¬ (euroCollect seen (env.list term pageNum).rawLinks).2 = [] := by
        rename_i hc
        exact hc
      have hne : ¬ pageNum = N := by
        intro heqN
        rw [heqN, hzero] at hcol
        simp [euroCollect] at hcol
      split at hm
      · rcases List.mem_append.mp hm with h | h
        · rcases List.mem_cons.mp h with h0 | h0
          · cases h0
            exact hp
          · exact absurd h0 (noPage_raws _ _ s q)
        · exact absurd h (noPage_euroSlugLoop env region term L _ _ s q)
      · rcases List.mem_append.mp hm with h | h
        · rcases List.mem_append.mp h with h1 | h1
          · rcases List.mem_cons.mp h1 with h0 | h0
            · cases h0
              exact hp
            · exact absurd h0 (noPage_raws _ _ s q)
          · exact absurd h1 (noPage_euroSlugLoop env region term L _ _ s q)
        · exact ih (pageNum + 1) _ _ (by omega) s q h

theorem paPageLoop_scope_ceiling (env : PAEnv) (region cat : Str) (L : Nat) :
    ∀ fuel pnum n seen, pnum ≤ 20 →
      ∀ s q, Ev.pageReq s q ∈ (paPageLoop env region cat L fuel pnum n seen).1 →
        s = cat ∧ q ≤ 20 := by
  intro fuel
  induction fuel with
  | zero =>
    intro pnum n seen hp s q hm
    simp only [paPageLoop] at hm
    simp at hm
  | succ fuel ih =>
    intro pnum n seen hp s q hm
    rw [paPageLoop] at hm
    dsimp only at hm
    split at hm
    · simp at hm
    split at hm
    · rcases List.mem_singleton.mp hm with h
      cases h
      exact ⟨rfl, hp⟩
    split at hm
    · rcases List.mem_singleton.mp hm with h
      cases h
      exact ⟨rfl, hp⟩
    split at hm
    · rcases List.mem_singleton.mp hm with h
      cases h
      exact ⟨rfl, hp⟩
    split at hm
    · rcases List.mem_cons.mp hm with h | h
      · cases h
        exact ⟨rfl, hp⟩
      · exact absurd h (noPage_paListingLoop region cat L _ _ _ _ s q)
    split at hm
    · rcases List.mem_cons.mp hm with h | h
      · cases h
        exact ⟨rfl, hp⟩
      · exact absurd h (noPage_paListingLoop region cat L _ _ _ _ s q)
    · rcases List.mem_append.mp hm with h | h
      · rcases List.mem_cons.mp h with h0 | h0
        · cases h0
          exact ⟨rfl, hp⟩
        · exact absurd h0 (noPage_paListingLoop region cat L _ _ _ _ s q)
      · exact ih (pnum + 1) _ _ (by omega) s q h

theorem paPageLoop_zero_stop (env : PAEnv) (region cat : Str) (L N : Nat)
    (hzero : (env.page cat N).listings = []) :
    ∀ fuel pnum n seen, pnum ≤ N →
      ∀ s q, Ev.pageReq s q ∈ (paPageLoop env region cat L fuel pnum n seen).1 →
        q ≤ N := by
  intro fuel
  induction fuel with
  | zero =>
    intro pnum n seen hp s q hm
    simp only [paPageLoop] at hm
    simp at hm
  | succ fuel ih =>
    intro pnum n seen hp s q hm
    rw [paPageLoop] at hm
    dsimp only at hm
    split at hm
    · simp at hm
    split at hm
    · rcases List.mem_singleton.mp hm with h
      cases h
      exact hp
    split at hm
    · rcases List.mem_singleton.mp hm with h
      cases h
      exact hp
    split at hm
    · rcases List.mem_singleton.mp hm with h
      cases h
      exact hp
    · have hls : ¬ (env.page cat pnum).listings = [] := by
        rename_i hc
        exact hc
      have hne : ¬ pnum = N := by
        intro heqN
        rw [heqN, hzero] at hls
        simp at hls
      split at hm
      · rcases List.mem_cons.mp hm with h | h
        · cases h
          exact hp
        · exact absurd h (noPage_paListingLoop region cat L _ _ _ _ s q)
      split at hm
      · rcases List.mem_cons.mp hm with h | h
        · cases h
          exact hp
        · exact absurd h (noPage_paListingLoop region cat L _ _ _ _ s q)
      · rcases List.mem_append.mp hm with h | h
        · rcases List.mem_cons.mp h with h0 | h0
          · cases h0
            exact hp
          · exact absurd h0 (noPage_paListingLoop region cat L _ _ _ _ s q)
        · exact ih (pnum + 1) _ _ (by omega) s q h

/-- Zero extracted items on an einforma page: no rows and no links. -/
def einfZeroItems (pg : EinfPage) : Prop := pg.rows = [] ∧ pg.links = []

theorem einfPageLoop_zero_stop (env : EinfEnv) (region province : Str) (L N : Nat)
    (hzero : einfZeroItems (env.page N)) :
    ∀ fuel pnum n, pnum ≤ N →
      ∀ s q, Ev.pageReq s q ∈ (einfPageLoop env region province L fuel pnum n).1 →
        q ≤ N := by
  intro fuel
  induction fuel with
  | zero =>
    intro pnum n hp s q hm
    simp only [einfPageLoop] at hm
    simp at hm
  | succ fuel ih =>
    intro pnum n hp s q hm
    rw [einfPageLoop] at hm
    dsimp only at hm
    split at hm
    · simp at hm
    have hrowlt : ¬ (env.page pnum).rows = [] → pnum < N := by
      intro hrows
      rcases Nat.lt_or_ge pnum N with h1 | h1
      · exact h1
      · have hpn : pnum = N := by omega
        rw [hpn] at hrows
        exact absurd hzero.1 hrows
    have hlinklt : ¬ (env.page pnum).links = [] → pnum < N := by
      intro hlinks
      rcases Nat.lt_or_ge pnum N with h1 | h1
      · exact h1
      · have hpn : pnum = N := by omega
        rw [hpn] at hlinks
        exact absurd hzero.2 hlinks
    split at hm
    · split at hm
      · rename_i hrows
        split at hm
        · rw [List.nil_append] at hm
          exact absurd hm (noPage_einfRowLoop region L _ _ s q)
        · rcases List.mem_append.mp hm with h | h
          · rw [List.nil_append] at h
            exact absurd h (noPage_einfRowLoop region L _ _ s q)
          · exact ih (pnum + 1) _ (by have := hrowlt hrows; omega) s q h
      · split at hm
        · rename_i hlinks
          split at hm
          · rw [List.nil_append] at hm
            exact absurd hm (noPage_einfLinkLoop region L _ _ s q)
          · rcases List.mem_append.mp hm with h | h
            · rw [List.nil_append] at h
              exact absurd h (noPage_einfLinkLoop region L _ _ s q)
            · exact ih (pnum + 1) _ (by have := hlinklt hlinks; omega) s q h
        · simp at hm
    · split at hm
      · rcases List.mem_singleton.mp hm with h
        cases h
        exact hp
      split at hm
      · rcases List.mem_singleton.mp hm with h
        cases h
        exact hp
      · split at hm
        · rename_i hrows
          split at hm
          · rcases List.mem_append.mp hm with h | h
            · rcases List.mem_singleton.mp h with h0
              cases h0
              exact hp
            · exact absurd h (noPage_einfRowLoop region L _ _ s q)
          · rcases List.mem_append.mp hm with h | h
            · rcases List.mem_append.mp h with h1 | h1
              · rcases List.mem_singleton.mp h1 with h0
                cases h0
                exact hp
              · exact absurd h1 (noPage_einfRowLoop region L _ _ s q)
            · exact ih (pnum + 1) _ (by have := hrowlt hrows; omega) s q h
        · split at hm
          · rename_i hlinks
            split at hm
            · rcases List.mem_append.mp hm with h | h
              · rcases List.mem_singleton.mp h with h0
                cases h0
                exact hp
              · exact absurd h (noPage_einfLinkLoop region L _ _ s q)
            · rcases List.mem_append.mp hm with h | h
              · rcases List.mem_append.mp h with h1 | h1
                · rcases List.mem_singleton.mp h1 with h0
                  cases h0
                  exact hp
                · exact absurd h1 (noPage_einfLinkLoop region L _ _ s q)
              · exact ih (pnum + 1) _ (by have := hlinklt hlinks; omega) s q h
          · rcases List.mem_singleton.mp hm with h
            cases h
            exact hp

/-- Zero extracted items on a librebor page: an empty JSON result
list, or no fallback links when the JSON does not parse. -/
def lbZeroItems (pg : LbPage) : Prop :=
  match pg.json with
  | some js => js.1 = []
  | none => pg.links = []

theorem lbPageLoop_zero_stop (env : LbEnv) (region province : Str) (L N : Nat)
    (hzero : lbZeroItems (env.page N)) :
    ∀ fuel pnum n, pnum ≤ N →
      ∀ s q, Ev.pageReq s q ∈ (lbPageLoop env region province L fuel pnum n).1 →
        q ≤ N := by
  intro fuel
  induction fuel with
  | zero =>
    intro pnum n hp s q hm
    simp only [lbPageLoop] at hm
    simp at hm
  | succ fuel ih =>
    intro pnum n hp s q hm
    rw [lbPageLoop] at hm
    dsimp only at hm
    split at hm
    · simp at hm
    split at hm
    · rcases List.mem_singleton.mp hm with h
      cases h
      exact hp
    split at hm
    · rcases List.mem_singleton.mp hm with h
      cases h
      exact hp
    split at hm
    · rename_i hjson
      split at hm
      · rcases List.mem_singleton.mp hm with h
        cases h
        exact hp
      · rename_i hlinks
        have hlt : pnum < N := by
          rcases Nat.lt_or_ge pnum N with h1 | h1
          · exact h1
          · have hpn : pnum = N := by omega
            rw [hpn] at hjson hlinks
            have := hzero
            unfold lbZeroItems at this
            rw [hjson] at this
            exact absurd this hlinks
        rcases List.mem_append.mp hm with h | h
        · rcases List.mem_cons.mp h with h0 | h0
          · cases h0
            exact hp
          · exact absurd h0 (noPage_lbLinkLoop env region L _ _ s q)
        · exact ih (pnum + 1) _ (by omega) s q h
    · rename_i js hjson
      split at hm
      · rcases List.mem_singleton.mp hm with h
        cases h
        exact hp
      · rename_i hres
        have hlt : pnum < N := by
          rcases Nat.lt_or_ge pnum N with h1 | h1
          · exact h1
          · have hpn : pnum = N := by omega
            rw [hpn] at hjson
            have := hzero
            unfold lbZeroItems at this
            rw [hjson] at this
            exact absurd this hres
        split at hm
        · rcases List.mem_cons.mp hm with h | h
          · cases h
            exact hp
          · exact absurd h (noPage_lbItemLoop region L _ _ s q)
        · rcases List.mem_append.mp hm with h | h
          · rcases List.mem_cons.mp h with h0 | h0
            · cases h0
              exact hp
            · exact absurd h0 (noPage_lbItemLoop region L _ _ s q)
          · exact ih (pnum + 1) _ (by omega) s q h

/-- Every page request of an empresite run targets a page number at
most 40. -/
theorem empresiteRun_ceiling (env : EmpEnv) (region : Str) (city : Option Str)
    (details : Bool) (L : Nat) :
    ∀ s q, Ev.pageReq s q ∈ empresiteRun env region city details L → q ≤ 40 := by
  have hloop : ∀ cities t s q,
      Ev.pageReq s q ∈ (empCityLoop env details region L cities t).1 → q ≤ 40 := by
    intro cities
    induction cities with
    | nil =>
      intro t s q hm
      simp only [empCityLoop] at hm
      simp at hm
    | cons city0 rest ih =>
      intro t s q hm
      rw [empCityLoop] at hm
      split at hm
      · simp at hm
      · rcases List.mem_append.mp hm with h | h
        · exact (empPageLoop_scope_ceiling env details region city0.2 L 40 1 t
            (by omega) s q h).2
        · exact ih _ s q h
  intro s q hm
  unfold empresiteRun at hm
  split at hm
  · exact hloop _ _ s q hm
  · rcases List.mem_cons.mp hm with h | h
    · simp at h
    · split at h
      · simp at h
      · exact hloop _ _ s q h

/-- Zero cards on page N of a city stop that city at page N for an
empresite run. -/
theorem empresiteRun_zero_stop (env : EmpEnv) (region : Str) (city : Option Str)
    (details : Bool) (L N : Nat) (scope : Str)
    (hzero : env.page scope N = some []) (hN : 1 ≤ N) :
    ∀ q, Ev.pageReq scope q ∈ empresiteRun env region city details L → q ≤ N := by
  have hloop : ∀ cities t q,
      Ev.pageReq scope q ∈ (empCityLoop env details region L cities t).1 → q ≤ N := by
    intro cities
    induction cities with
    | nil =>
      intro t q hm
      simp only [empCityLoop] at hm
      simp at hm
    | cons city0 rest ih =>
      intro t q hm
      rw [empCityLoop] at hm
      split at hm
      · simp at hm
      · rcases List.mem_append.mp hm with h | h
        · have hsc := (empPageLoop_scope_ceiling env details region city0.2 L 40 1 t
            (by omega) scope q h).1
          rw [hsc] at h
          rw [hsc] at hzero
          exact empPageLoop_zero_stop env details region city0.2 L N hzero 40 1 t hN _ q h
        · exact ih _ q h
  intro q hm
  unfold empresiteRun at hm
  split at hm
  · exact hloop _ _ q hm
  · rcases List.mem_cons.mp hm with h | h
    · simp at h
    · split at h
      · simp at h
      · exact hloop _ _ q h

/-- Every page request of a europages run targets a page number at
most 10. -/
theorem europagesRun_ceiling (env : EuroEnv) (region : Str) (L : Nat) :
    ∀ s q, Ev.pageReq s q ∈ europagesRun env region L → q ≤ 10 := by
  have hloop : ∀ terms n seen s q,
      Ev.pageReq s q ∈ (euroTermLoop env region L terms n seen).1 → q ≤ 10 := by
    intro terms
    induction terms with
    | nil =>
      intro n seen s q hm
      simp only [euroTermLoop] at hm
      simp at hm
    | cons term rest ih =>
      intro n seen s q hm
      rw [euroTermLoop] at hm
      split at hm
      · simp at hm
      · rcases List.mem_append.mp hm with h | h
        · exact (euroPageLoop_scope_ceiling env region term L 10 1 n seen
            (by omega) s q h).2
        · exact ih _ _ s q h
  intro s q hm
  exact hloop _ _ _ s q hm

/-- Zero extracted company links on page N of a term stop that term at
page N for a europages run. -/
theorem europagesRun_zero_stop (env : EuroEnv) (region : Str) (L N : Nat)
    (scope : Str) (hzero : (env.list scope N).rawLinks = []) (hN : 1 ≤ N) :
    ∀ q, Ev.pageReq scope q ∈ europagesRun env region L → q ≤ N := by
  have hloop : ∀ terms n seen q,
      Ev.pageReq scope q ∈ (euroTermLoop env region L terms n seen).1 → q ≤ N := by
    intro terms
    induction terms with
    | nil =>
      intro n seen q hm
      simp only [euroTermLoop] at hm
      simp at hm
    | cons term rest ih =>
      intro n seen q hm
      rw [euroTermLoop] at hm
      split at hm
      · simp at hm
      · rcases List.mem_append.mp hm with h | h
        · have hsc := (euroPageLoop_scope_ceiling env region term L 10 1 n seen
            (by omega) scope q h).1
          rw [hsc] at h
          rw [hsc] at hzero
          exact euroPageLoop_zero_stop env region term L N hzero 10 1 n seen hN _ q h
        · exact ih _ _ q h
  intro q hm
  exact hloop _ _ _ q hm

/-- Every page request of a paginasamarillas run targets a page number
at most 20. -/
theorem paRun_ceiling (env : PAEnv) (region : Str) (L : Nat) :
    ∀ s q, Ev.pageReq s q ∈ paRun env region L → q ≤ 20 := by
  have hloop : ∀ cats n seen s q,
      Ev.pageReq s q ∈ (paCatLoop env region L cats n seen).1 → q ≤ 20 := by
    intro cats
    induction cats with
    | nil =>
      intro n seen s q hm
      simp only [paCatLoop] at hm
      simp at hm
    | cons cat rest ih =>
      intro n seen s q hm
      rw [paCatLoop] at hm
      split at hm
      · simp at hm
      · rcases List.mem_append.mp hm with h | h
        · exact (paPageLoop_scope_ceiling env region cat L 20 1 n seen
            (by omega) s q h).2
        · exact ih _ _ s q h
  intro s q hm
  unfold paRun at hm
  rcases List.mem_cons.mp hm with h | h
  · simp at h
  · split at h
    · simp at h
    split at h
    · simp at h
    · exact hloop _ _ _ s q h

/-- Zero listings on page N of a category stop that category at page N
for a paginasamarillas run. -/
theorem paRun_zero_stop (env : PAEnv) (region : Str) (L N : Nat) (scope : Str)
    (hzero : (env.page scope N).listings = []) (hN : 1 ≤ N) :
    ∀ q, Ev.pageReq scope q ∈ paRun env region L → q ≤ N := by
  have hloop : ∀ cats n seen q,
      Ev.pageReq scope q ∈ (paCatLoop env region L cats n seen).1 → q ≤ N := by
    intro cats
    induction cats with
    | nil =>
      intro n seen q hm
      simp only [paCatLoop] at hm
      simp at hm
    | cons cat rest ih =>
      intro n seen q hm
      rw [paCatLoop] at hm
      split at hm
      · simp at hm
      · rcases List.mem_append.mp hm with h | h
        · have hsc := (paPageLoop_scope_ceiling env region cat L 20 1 n seen
            (by omega) scope q h).1
          rw [hsc] at h
          rw [hsc] at hzero
          exact paPageLoop_zero_stop env region cat L N hzero 20 1 n seen hN _ q h
        · exact ih _ _ q h
  intro q hm
  unfold paRun at hm
  rcases List.mem_cons.mp hm with h | h
  · simp at h
  · split at h
    · simp at h
    split at h
    · simp at h
    · exact hloop _ _ _ q h

/-- Zero rows and links on page N stop an einforma run at page N. -/
theorem einformaRun_zero_stop (env : EinfEnv) (region province : Str)
    (L fuel N : Nat) (hzero : einfZeroItems (env.page N)) (hN : 1 ≤ N) :
    ∀ s q, Ev.pageReq s q ∈ einformaRun env region province L fuel → q ≤ N := by
  intro s q hm
  unfold einformaRun at hm
  rcases List.mem_cons.mp hm with h | h
  · simp at h
  rcases List.mem_cons.mp h with h0 | h0
  · cases h0
    exact hN
  · split at h0
    · simp at h0
    · exact einfPageLoop_zero_stop env region province L N hzero fuel 1 0 hN s q h0

/-- Zero results on page N stop a librebor run at page N. -/
theorem libreborRun_zero_stop (env : LbEnv) (region province : Str)
    (L fuel N : Nat) (hzero : lbZeroItems (env.page N)) (hN : 1 ≤ N) :
    ∀ s q, Ev.pageReq s q ∈ libreborRun env region province L fuel → q ≤ N := by
  intro s q hm
  unfold libreborRun at hm
  rcases List.mem_cons.mp hm with h | h
  · simp at h
  · split at h
    · simp at h
    · exact lbPageLoop_zero_stop env region province L N hzero fuel 1 0 hN s q h

/-!
Dedup lemmas.  For paginasamarillas the seen set and the emitted
legal names track one another exactly; for europages the seen set
bounds emitted source URLs by one per slug.
-/

theorem emitKeyCount_cons_emit (k : Str) (r : Rec) (evs : List Ev) :
    emitKeyCount k (Ev.emit r :: evs) =
      (if recKey r = some k then 1 else 0) + emitKeyCount k evs := by
  simp [emitKeyCount, List.countP_cons, Nat.add_comm]

theorem emitKeyCount_cons_raw (k k0 : Str) (evs : List Ev) :
    emitKeyCount k (Ev.raw k0 :: evs) = emitKeyCount k evs := by
  simp [emitKeyCount, List.countP_cons]

theorem emitKeyCount_cons_nav (k : Str) (tag : String) (evs : List Ev) :
    emitKeyCount k (Ev.nav tag :: evs) = emitKeyCount k evs := by
  simp [emitKeyCount, List.countP_cons]

theorem emitKeyCount_cons_pageReq (k s : Str) (p : Nat) (evs : List Ev) :
    emitKeyCount k (Ev.pageReq s p :: evs) = emitKeyCount k evs := by
  simp [emitKeyCount, List.countP_cons]

theorem emitKeyCount_cons_detailReq (k u : Str) (evs : List Ev) :
    emitKeyCount k (Ev.detailReq u :: evs) = emitKeyCount k evs := by
  simp [emitKeyCount, List.countP_cons]

theorem emitKeyCount_append (k : Str) (a b : List Ev) :
    emitKeyCount k (a ++ b) = emitKeyCount k a + emitKeyCount k b := by
  simp [emitKeyCount, List.countP_append]

theorem rawCount_cons_raw (k k0 : Str) (evs : List Ev) :
    rawCount k (Ev.raw k0 :: evs) =
      (if k0 = k then 1 else 0) + rawCount k evs := by
  simp [rawCount, List.countP_cons, Nat.add_comm]

theorem rawCount_cons_emit (k : Str) (r : Rec) (evs : List Ev) :
    rawCount k (Ev.emit r :: evs) = rawCount k evs := by
  simp [rawCount, List.countP_cons]

theorem rawCount_cons_nav (k : Str) (tag : String) (evs : List Ev) :
    rawCount k (Ev.nav tag :: evs) = rawCount k evs := by
  simp [rawCount, List.countP_cons]

theorem rawCount_cons_pageReq (k s : Str) (p : Nat) (evs : List Ev) :
    rawCount k (Ev.pageReq s p :: evs) = rawCount k evs := by
  simp [rawCount, List.countP_cons]

theorem rawCount_cons_detailReq (k u : Str) (evs : List Ev) :
    rawCount k (Ev.detailReq u :: evs) = rawCount k evs := by
  simp [rawCount, List.countP_cons]

theorem rawCount_append (k : Str) (a b : List Ev) :
    rawCount k (a ++ b) = rawCount k a + rawCount k b := by
  simp [rawCount, List.countP_append]

theorem contains_true {s : List Str} {k : Str} (h : s.contains k = true) :
    k ∈ s := by
  simpa using h

theorem contains_false {s : List Str} {k : Str} (h : s.contains k = false) :
    ¬ k ∈ s := by
  simpa using h

/-- Seen-set inclusion. -/
def SeenSub (s1 s2 : List Str) : Prop := ∀ k, k ∈ s1 → k ∈ s2

theorem seenSub_refl (s : List Str) : SeenSub s s := fun _ h => h

theorem seenSub_trans {s1 s2 s3 : List Str} (h1 : SeenSub s1 s2)
    (h2 : SeenSub s2 s3) : SeenSub s1 s3 := fun k h => h2 k (h1 k h)

theorem seenSub_cons (k0 : Str) (s : List Str) : SeenSub s (k0 :: s) :=
  fun k h => List.mem_cons_of_mem k0 h

/-- Exact dedup segment: scanning a trace segment that turns seen set
`s1` into `s2`, every key gains exactly one emitted record when it
enters the seen set and none otherwise, and every raw item key ends up
in the seen set. -/
def KeySeg (s1 s2 : List Str) (evs : List Ev) : Prop :=
  SeenSub s1 s2 ∧
    (∀ k, emitKeyCount k evs = (if k ∈ s2 ∧ ¬ k ∈ s1 then 1 else 0)) ∧
    (∀ k, 0 < rawCount k evs → k ∈ s2)

theorem keySeg_refl (s : List Str) : KeySeg s s [] := by
  refine ⟨seenSub_refl s, ?_, ?_⟩
  · intro k
    simp [emitKeyCount]
  · intro k h
    simp [rawCount] at h

theorem keySeg_comp {s1 s2 s3 : List Str} {a b : List Ev}
    (ha : KeySeg s1 s2 a) (hb : KeySeg s2 s3 b) : KeySeg s1 s3 (a ++ b) := by
  obtain ⟨hm1, hc1, hr1⟩ := ha
  obtain ⟨hm2, hc2, hr2⟩ := hb
  refine ⟨seenSub_trans hm1 hm2, ?_, ?_⟩
  · intro k
    rw [emitKeyCount_append, hc1 k, hc2 k]
    by_cases h1 : k ∈ s1 <;> by_cases h2 : k ∈ s2 <;> by_cases h3 : k ∈ s3 <;>
      simp_all <;> first
      | rfl
      | exact absurd (hm1 k h1) h2
      | exact absurd (hm2 k h2) h3
  · intro k h
    rw [rawCount_append] at h
    rcases Nat.lt_or_ge 0 (rawCount k a) with h0 | h0
    · exact hm2 k (hr1 k h0)
    · exact hr2 k (by omega)

/-- One deduplicated item: its raw key was unseen, gets added, and
exactly the one record carrying it is emitted. -/
theorem keySeg_item {s1 s2 : List Str} {evs : List Ev} (key : Str) (R : Rec)
    (hkey : ¬ key ∈ s1) (hrec : recKey R = some key)
    (htail : KeySeg (key :: s1) s2 evs) :
    KeySeg s1 s2 (Ev.raw key :: Ev.emit R :: evs) := by
  obtain ⟨hm, hc, hr⟩ := htail
  have hkey2 : key ∈ s2 := hm key (List.mem_cons_self key s1)
  refine ⟨seenSub_trans (seenSub_cons key s1) hm, ?_, ?_⟩
  · intro k
    rw [emitKeyCount_cons_raw, emitKeyCount_cons_emit, hc k]
    by_cases hk : key = k
    · subst hk
      simp [hrec, hkey, hkey2]
    · rw [if_neg (by simp [hrec, hk])]
      have hne : ¬ k = key := fun hh => hk hh.symm
      by_cases h2 : k ∈ s2 <;> by_cases h1 : k ∈ s1 <;>
        simp_all [List.mem_cons]
  · intro k h
    rw [rawCount_cons_raw, rawCount_cons_emit] at h
    by_cases hk : key = k
    · subst hk
      exact hkey2
    · rw [if_neg hk] at h
      exact hr k (by omega)

/-- A raw item whose key was already seen adds nothing. -/
theorem keySeg_raw_seen {s1 s2 : List Str} {evs : List Ev} (key : Str)
    (hkey : key ∈ s1) (htail : KeySeg s1 s2 evs) :
    KeySeg s1 s2 (Ev.raw key :: evs) := by
  obtain ⟨hm, hc, hr⟩ := htail
  refine ⟨hm, ?_, ?_⟩
  · intro k
    rw [emitKeyCount_cons_raw]
    exact hc k
  · intro k h
    rw [rawCount_cons_raw] at h
    by_cases hk : key = k
    · subst hk
      exact hm key hkey
    · rw [if_neg hk] at h
      exact hr k (by omega)

theorem keySeg_cons_nav {s1 s2 : List Str} {evs : List Ev} (tag : String)
    (h : KeySeg s1 s2 evs) : KeySeg s1 s2 (Ev.nav tag :: evs) := by
  obtain ⟨hm, hc, hr⟩ := h
  refine ⟨hm, ?_, ?_⟩
  · intro k
    rw [emitKeyCount_cons_nav]
    exact hc k
  · intro k hh
    rw [rawCount_cons_nav] at hh
    exact hr k hh

theorem keySeg_cons_pageReq {s1 s2 : List Str} {evs : List Ev} (s : Str) (p : Nat)
    (h : KeySeg s1 s2 evs) : KeySeg s1 s2 (Ev.pageReq s p :: evs) := by
  obtain ⟨hm, hc, hr⟩ := h
  refine ⟨hm, ?_, ?_⟩
  · intro k
    rw [emitKeyCount_cons_pageReq]
    exact hc k
  · intro k hh
    rw [rawCount_cons_pageReq] at hh
    exact hr k hh

theorem paRecord_key (region : Str) (li : PAListing) (key : Str) :
    recKey (paRecord region li key) = some key := by
  obtain ⟨t, ht⟩ := paRecord_head region li key
  unfold recKey
  rw [ht]
  exact lookup_head _ _ _

theorem paListingLoop_dedup (region cat : Str) (L : Nat) :
    ∀ ls n seen nw,
      KeySeg seen (paListingLoop region cat L ls n seen nw).2.2.1
        (paListingLoop region cat L ls n seen nw).1 := by
  intro ls
  induction ls with
  | nil =>
    intro n seen nw
    simp only [paListingLoop]
    exact keySeg_refl seen
  | cons li rest ih =>
    intro n seen nw
    rw [paListingLoop]
    dsimp only
    split
    · exact keySeg_refl seen
    split
    · exact ih _ _ _
    rename_i t ht
    split
    · exact ih _ _ _
    split
    · rename_i hseen
      exact keySeg_raw_seen _ (contains_true hseen) (ih _ _ _)
    · rename_i hseen
      have hkey : ¬ pyUpper (pyStrip t) ∈ seen := by
        have : seen.contains (pyUpper (pyStrip t)) = false := by
          simpa using hseen
        exact contains_false this
      exact keySeg_item _ _ hkey (paRecord_key region li _) (ih _ _ _)

theorem paPageLoop_dedup (env : PAEnv) (region cat : Str) (L : Nat) :
    ∀ fuel pnum n seen,
      KeySeg seen (paPageLoop env region cat L fuel pnum n seen).2.2
        (paPageLoop env region cat L fuel pnum n seen).1 := by
  intro fuel
  induction fuel with
  | zero =>
    intro pnum n seen
    simp only [paPageLoop]
    exact keySeg_refl seen
  | succ fuel ih =>
    intro pnum n seen
    rw [paPageLoop]
    dsimp only
    split
    · exact keySeg_refl seen
    split
    · exact keySeg_cons_pageReq _ _ (keySeg_refl seen)
    split
    · exact keySeg_cons_pageReq _ _ (keySeg_refl seen)
    split
    · exact keySeg_cons_pageReq _ _ (keySeg_refl seen)
    split
    · exact keySeg_cons_pageReq _ _ (paListingLoop_dedup region cat L _ _ _ _)
    split
    · exact keySeg_cons_pageReq _ _ (paListingLoop_dedup region cat L _ _ _ _)
    · apply keySeg_cons_pageReq
      exact keySeg_comp (paListingLoop_dedup region cat L _ _ _ _) (ih _ _ _)

theorem paCatLoop_dedup (env : PAEnv) (region : Str) (L : Nat) :
    ∀ cats n seen,
      KeySeg seen (paCatLoop env region L cats n seen).2.2
        (paCatLoop env region L cats n seen).1 := by
  intro cats
  induction cats with
  | nil =>
    intro n seen
    simp only [paCatLoop]
    exact keySeg_refl seen
  | cons cat rest ih =>
    intro n seen
    rw [paCatLoop]
    split
    · exact keySeg_refl seen
    · exact keySeg_comp (paPageLoop_dedup env region cat L 20 1 n seen) (ih _ _)

/-- Dedup invariant of a full paginasamarillas run: each upper-cased
name is emitted at most once, and exactly once when some raw item
carried it. -/
theorem paRun_dedup (env : PAEnv) (region : Str) (L : Nat) (k : Str) :
    emitKeyCount k (paRun env region L) ≤ 1 ∧
      (0 < rawCount k (paRun env region L) → emitKeyCount k (paRun env region L) = 1) := by
  unfold paRun
  have hbase : ∀ evs : List Ev,
      (∀ k0, emitKeyCount k0 evs =
        (if k0 ∈ (paCatLoop env region L paCategories 0 []).2.2 ∧ ¬ k0 ∈ ([] : List Str)
         then 1 else 0)) →
      (∀ k0, 0 < rawCount k0 evs → k0 ∈ (paCatLoop env region L paCategories 0 []).2.2) →
      emitKeyCount k evs ≤ 1 ∧ (0 < rawCount k evs → emitKeyCount k evs = 1) := by
    intro evs hc hr
    constructor
    · rw [hc k]
      split <;> omega
    · intro h
      rw [hc k]
      rw [if_pos ⟨hr k h, by simp⟩]
  rcases paCatLoop_dedup env region L paCategories 0 [] with ⟨_, hc, hr⟩
  split
  · constructor
    · simp [emitKeyCount_cons_nav, emitKeyCount]
    · intro h
      rw [rawCount_cons_nav] at h
      simp [rawCount] at h
  split
  · constructor
    · simp [emitKeyCount_cons_nav, emitKeyCount]
    · intro h
      rw [rawCount_cons_nav] at h
      simp [rawCount] at h
  · refine hbase _ ?_ ?_
    · intro k0
      rw [emitKeyCount_cons_nav]
      exact hc k0
    · intro k0 h
      rw [rawCount_cons_nav] at h
      exact hr k0 h

theorem emitUrlCount_cons_emit (u : Str) (r : Rec) (evs : List Ev) :
    emitUrlCount u (Ev.emit r :: evs) =
      (if recUrl r = some u then 1 else 0) + emitUrlCount u evs := by
  simp [emitUrlCount, List.countP_cons, Nat.add_comm]

theorem emitUrlCount_cons_raw (u k0 : Str) (evs : List Ev) :
    emitUrlCount u (Ev.raw k0 :: evs) = emitUrlCount u evs := by
  simp [emitUrlCount, List.countP_cons]

theorem emitUrlCount_cons_nav (u : Str) (tag : String) (evs : List Ev) :
    emitUrlCount u (Ev.nav tag :: evs) = emitUrlCount u evs := by
  simp [emitUrlCount, List.countP_cons]

theorem emitUrlCount_cons_pageReq (u s : Str) (p : Nat) (evs : List Ev) :
    emitUrlCount u (Ev.pageReq s p :: evs) = emitUrlCount u evs := by
  simp [emitUrlCount, List.countP_cons]

theorem emitUrlCount_cons_detailReq (u k0 : Str) (evs : List Ev) :
    emitUrlCount u (Ev.detailReq k0 :: evs) = emitUrlCount u evs := by
  simp [emitUrlCount, List.countP_cons]

theorem emitUrlCount_append (u : Str) (a b : List Ev) :
    emitUrlCount u (a ++ b) = emitUrlCount u a + emitUrlCount u b := by
  simp [emitUrlCount, List.countP_append]

theorem emitUrlCount_raws {α : Type} (u : Str) (ls : List α) (f : α → Str) :
    emitUrlCount u (ls.map (fun l => Ev.raw (f l))) = 0 := by
  induction ls with
  | nil => rfl
  | cons l rest ih => simp [emitUrlCount_cons_raw, ih]

theorem lookup_dictSet_pres {k0 : String} {v : Option Str} {r : Rec} (k : String)
    (w : Str) (hk : ¬ k = k0) (h : r.lookup k0 = v) :
    (dictSet r k w).lookup k0 = v := by
  rw [lookup_dictSet_ne r k w k0 hk]
  exact h

set_option maxRecDepth 8000 in
/-- The source URL stored by a europages record is the company base
URL of its slug. -/
theorem euroRecord_url (region slug : Str) (p : EuroCompanyPage) (name : Str) :
    recUrl (euroRecord region slug p name) = some (europagesBASE ++ slug) := by
  unfold euroRecord recUrl
  dsimp only
  repeat
    first
    | (apply lookup_dictSet_pres
       case hk => decide)
    | split
    | simp [List.lookup]

/-- Slug collection facts (`scrape.py` lines 308-313): the new slugs
are fresh, pairwise distinct, and all land in the updated seen set. -/
theorem euroCollect_spec :
    ∀ links seen,
      SeenSub seen (euroCollect seen links).1 ∧
      (∀ k, k ∈ (euroCollect seen links).2 →
        k ∈ (euroCollect seen links).1 ∧ ¬ k ∈ seen) ∧
      (euroCollect seen links).2.Nodup := by
  intro links
  induction links with
  | nil =>
    intro seen
    refine ⟨seenSub_refl seen, ?_, ?_⟩
    · intro k hk
      simp [euroCollect] at hk
    · simp [euroCollect]
  | cons link rest ih =>
    intro seen
    rw [euroCollect]
    dsimp only
    split
    · exact ih seen
    · rename_i hfresh
      obtain ⟨hm, hmem, hnd⟩ := ih (cutProducts link :: seen)
      have hnotseen : ¬ cutProducts link ∈ seen := by
        apply contains_false
        simpa using hfresh
      refine ⟨?_, ?_, ?_⟩
      · exact seenSub_trans (seenSub_cons _ seen) hm
      · intro k hk
        rcases List.mem_cons.mp hk with h0 | h0
        · subst h0
          exact ⟨hm _ (List.mem_cons_self _ _), hnotseen⟩
        · obtain ⟨h1, h2⟩ := hmem k h0
          exact ⟨h1, fun hc => h2 (List.mem_cons_of_mem _ hc)⟩
      · refine List.nodup_cons.mpr ⟨?_, hnd⟩
        intro hc
        exact (hmem _ hc).2 (List.mem_cons_self _ _)

theorem euroSlugLoop_url (env : EuroEnv) (region term : Str) (L : Nat) :
    ∀ slugs n, slugs.Nodup →
      ∀ k, emitUrlCount (europagesBASE ++ k) (euroSlugLoop env region term L slugs n).1 ≤
        (if k ∈ slugs then 1 else 0) := by
  intro slugs
  induction slugs with
  | nil =>
    intro n _ k
    simp only [euroSlugLoop]
    simp [emitUrlCount]
  | cons slug rest ih =>
    intro n hnd k
    obtain ⟨hns, hnd2⟩ := List.nodup_cons.mp hnd
    have hmono : (if k ∈ rest then 1 else 0) ≤ (if k ∈ slug :: rest then (1 : Nat) else 0) := by
      by_cases h : k ∈ rest
      · simp [h, List.mem_cons_of_mem]
      · simp [h]
    rw [euroSlugLoop]
    dsimp only
    split
    · simp [emitUrlCount]
    split
    · rw [emitUrlCount_cons_detailReq]
      exact le_trans (ih _ hnd2 k) hmono
    split
    · rw [emitUrlCount_cons_detailReq]
      exact le_trans (ih _ hnd2 k) hmono
    split
    · rw [emitUrlCount_cons_detailReq]
      exact le_trans (ih _ hnd2 k) hmono
    · rw [emitUrlCount_cons_detailReq, emitUrlCount_cons_emit]
      by_cases hk : k = slug
      · subst hk
        rw [if_pos (euroRecord_url region k _ _)]
        have : emitUrlCount (europagesBASE ++ k) (euroSlugLoop env region term L rest (n + 1)).1 = 0 := by
          have := ih (n + 1) hnd2 k
          rw [if_neg hns] at this
          omega
        simp [this, List.mem_cons_self]
      · rw [if_neg ?hne]
        case hne =>
          intro hc
          rw [euroRecord_url] at hc
          exact hk (List.append_cancel_left (Option.some.inj hc)).symm
        have := ih (n + 1) hnd2 k
        calc 0 + emitUrlCount (europagesBASE ++ k) (euroSlugLoop env region term L rest (n + 1)).1
            ≤ (if k ∈ rest then 1 else 0) := by omega
          _ ≤ _ := hmono

/-- At-most-once dedup segment for URL-keyed europages emissions. -/
def UrlSeg (s1 s2 : List Str) (evs : List Ev) : Prop :=
  SeenSub s1 s2 ∧
    ∀ k, emitUrlCount (europagesBASE ++ k) evs ≤
      (if k ∈ s2 ∧ ¬ k ∈ s1 then 1 else 0)

theorem urlSeg_refl (s : List Str) (evs : List Ev)
    (h : ∀ k, emitUrlCount (europagesBASE ++ k) evs = 0) : UrlSeg s s evs := by
  refine ⟨seenSub_refl s, ?_⟩
  intro k
  rw [h k]
  omega

theorem urlSeg_comp {s1 s2 s3 : List Str} {a b : List Ev}
    (ha : UrlSeg s1 s2 a) (hb : UrlSeg s2 s3 b) : UrlSeg s1 s3 (a ++ b) := by
  obtain ⟨hm1, hc1⟩ := ha
  obtain ⟨hm2, hc2⟩ := hb
  refine ⟨seenSub_trans hm1 hm2, ?_⟩
  intro k
  rw [emitUrlCount_append]
  have h1 := hc1 k
  have h2 := hc2 k
  by_cases hs1 : k ∈ s1 <;> by_cases hs2 : k ∈ s2 <;> by_cases hs3 : k ∈ s3 <;>
    simp_all <;> first
    | omega
    | exact absurd (hm1 k hs1) hs2
    | exact absurd (hm2 k hs2) hs3

theorem euroPageLoop_dedup (env : EuroEnv) (region term : Str) (L : Nat) :
    ∀ fuel pageNum n seen,
      UrlSeg seen (euroPageLoop env region term L fuel pageNum n seen).2.2
        (euroPageLoop env region term L fuel pageNum n seen).1 := by
  intro fuel
  induction fuel with
  | zero =>
    intro pageNum n seen
    simp only [euroPageLoop]
    exact urlSeg_refl seen [] (by intro k; simp [emitUrlCount])
  | succ fuel ih =>
    intro pageNum n seen
    rw [euroPageLoop]
    dsimp only
    have hcol := euroCollect_spec (env.list term pageNum).rawLinks seen
    split
    · exact urlSeg_refl seen [] (by intro k; simp [emitUrlCount])
    split
    · exact urlSeg_refl seen _ (by
        intro k
        simp [emitUrlCount_cons_pageReq, emitUrlCount])
    split
    · exact urlSeg_refl seen _ (by
        intro k
        simp [emitUrlCount_cons_pageReq, emitUrlCount])
    split
    · refine ⟨hcol.1, ?_⟩
      intro k
      rw [emitUrlCount_cons_pageReq, emitUrlCount_raws]
      omega
    have hseg1 : UrlSeg seen (euroCollect seen (env.list term pageNum).rawLinks).1
        (Ev.pageReq term pageNum ::
          (env.list term pageNum).rawLinks.map (fun l => Ev.raw (cutProducts l)) ++
          (euroSlugLoop env region term L
            (euroCollect seen (env.list term pageNum).rawLinks).2 n).1) := by
      refine ⟨hcol.1, ?_⟩
      intro k
      rw [emitUrlCount_append, emitUrlCount_cons_pageReq, emitUrlCount_raws]
      have hsl := euroSlugLoop_url env region term L _ n hcol.2.2 k
      by_cases hk : k ∈ (euroCollect seen (env.list term pageNum).rawLinks).2
      · obtain ⟨h1, h2⟩ := hcol.2.1 k hk
        rw [if_pos hk] at hsl
        rw [if_pos ⟨h1, h2⟩]
        omega
      · rw [if_neg hk] at hsl
        have : emitUrlCount (europagesBASE ++ k)
            (euroSlugLoop env region term L
              (euroCollect seen (env.list term pageNum).rawLinks).2 n).1 = 0 := by omega
        rw [this]
        omega
    split
    · exact hseg1
    · exact urlSeg_comp hseg1 (ih _ _ _)

theorem euroTermLoop_dedup (env : EuroEnv) (region : Str) (L : Nat) :
    ∀ terms n seen,
      UrlSeg seen (euroTermLoop env region L terms n seen).2.2
        (euroTermLoop env region L terms n seen).1 := by
  intro terms
  induction terms with
  | nil =>
    intro n seen
    simp only [euroTermLoop]
    exact urlSeg_refl seen [] (by intro k; simp [emitUrlCount])
  | cons term rest ih =>
    intro n seen
    rw [euroTermLoop]
    split
    · exact urlSeg_refl seen [] (by intro k; simp [emitUrlCount])
    · exact urlSeg_comp (euroPageLoop_dedup env region term L 10 1 n seen) (ih _ _)

/-- Dedup invariant of a full europages run: each company slug yields
at most one emitted record. -/
theorem europagesRun_dedup (env : EuroEnv) (region : Str) (L : Nat) (k : Str) :
    emitUrlCount (europagesBASE ++ k) (europagesRun env region L) ≤ 1 := by
  unfold europagesRun
  obtain ⟨_, hc⟩ := euroTermLoop_dedup env region L europagesTerms 0 []
  have := hc k
  split at this <;> omega

/-!
Challenge Waiter and Rate-Limit Retrier lemmas.
-/

theorem challengeLoop_clear_second (contents : Nat → Str) (timeout : Nat)
    (h1 : hasChallenge (contents 1) = true) (h2 : hasChallenge (contents 2) = false) :
    ∀ fuel, 2 ≤ fuel → 6 ≤ timeout →
      challengeLoop contents timeout fuel 0 0 = (true, 2) := by
  intro fuel hfuel ht
  have h1a : hasChallenge (contents (0 + 1)) = true := h1
  have h2a : hasChallenge (contents (0 + 1 + 1)) = false := h2
  rcases fuel with _ | _ | f
  · omega
  · omega
  · rw [challengeLoop]
    rw [if_pos (show (0 : Nat) < timeout by omega)]
    rw [h1a, if_pos rfl]
    rw [challengeLoop]
    rw [if_pos (show 0 + 5 < timeout by omega)]
    rw [h2a]
    simp

theorem challengeLoop_allchal (contents : Nat → Str) (timeout : Nat)
    (hall : ∀ j, hasChallenge (contents j) = true) :
    ∀ fuel elapsed tick,
      (challengeLoop contents timeout fuel elapsed tick).1 = false ∧
        (challengeLoop contents timeout fuel elapsed tick).2 ≤
          tick + (timeout - elapsed + 4) / 5 := by
  intro fuel
  induction fuel with
  | zero =>
    intro elapsed tick
    simp [challengeLoop]
  | succ fuel ih =>
    intro elapsed tick
    rw [challengeLoop]
    split
    · rw [hall (tick + 1), if_pos rfl]
      rename_i helapsed
      obtain ⟨ih1, ih2⟩ := ih (elapsed + 5) (tick + 1)
      refine ⟨ih1, ?_⟩
      omega
    · simp

/-- Behaviour of `wait_for_challenge` when the initial content is
already clear: immediate success, zero poll ticks. -/
theorem waitForChallenge_clear (contents : Nat → Str) (timeout : Nat)
    (h0 : hasChallenge (contents 0) = false) :
    waitForChallenge contents timeout = (true, 0) := by
  unfold waitForChallenge
  rw [h0]
  simp

/-- Behaviour on a challenged-challenged-clear sequence: success after
exactly two poll ticks. -/
theorem waitForChallenge_two_ticks (contents : Nat → Str) (timeout : Nat)
    (h0 : hasChallenge (contents 0) = true)
    (h1 : hasChallenge (contents 1) = true)
    (h2 : hasChallenge (contents 2) = false) (ht : 6 ≤ timeout) :
    waitForChallenge contents timeout = (true, 2) := by
  unfold waitForChallenge
  rw [h0]
  simp only [if_true]
  exact challengeLoop_clear_second contents timeout h1 h2 timeout (by omega) ht

/-- Behaviour when the content never clears: failure, with total
polling time within one 5 second interval of the timeout. -/
theorem waitForChallenge_timeout (contents : Nat → Str) (timeout : Nat)
    (hall : ∀ j, hasChallenge (contents j) = true) :
    (waitForChallenge contents timeout).1 = false ∧
      5 * (waitForChallenge contents timeout).2 ≤ timeout + 5 := by
  unfold waitForChallenge
  rw [hall 0]
  simp only [if_true]
  obtain ⟨hfalse, hticks⟩ := challengeLoop_allchal contents timeout hall timeout 0 0
  exact ⟨hfalse, by omega⟩

theorem cffiGo_inv (status : Nat → Nat) (maxR : Nat) :
    ∀ fuel attempt waits, 1 ≤ fuel → attempt + fuel = maxR →
      (cffiGo status maxR fuel attempt waits).attempts =
          (cffiGo status maxR fuel attempt waits).returned + 1 ∧
        attempt ≤ (cffiGo status maxR fuel attempt waits).returned ∧
        (cffiGo status maxR fuel attempt waits).returned + 1 ≤ maxR ∧
        (cffiGo status maxR fuel attempt waits).waits =
          waits ++ (List.range' attempt
            ((cffiGo status maxR fuel attempt waits).returned - attempt)).map
              (fun i => 30 * 2 ^ i) ∧
        (∀ i, attempt ≤ i → i < (cffiGo status maxR fuel attempt waits).returned →
          status i = 429) := by
  intro fuel
  induction fuel with
  | zero =>
    intro attempt waits h0
    omega
  | succ fuel ih =>
    intro attempt waits _ hsum
    rw [cffiGo]
    split
    · rename_i hcond
      have hfuel : 1 ≤ fuel := by omega
      obtain ⟨ih1, ih2, ih3, ih4, ih5⟩ :=
        ih (attempt + 1) (waits ++ [30 * 2 ^ attempt]) hfuel (by omega)
      refine ⟨ih1, by omega, ih3, ?_, ?_⟩
      · rw [ih4, List.append_assoc]
        congr 1
        have hk : (cffiGo status maxR fuel (attempt + 1)
            (waits ++ [30 * 2 ^ attempt])).returned - attempt =
            ((cffiGo status maxR fuel (attempt + 1)
              (waits ++ [30 * 2 ^ attempt])).returned - (attempt + 1)) + 1 := by
          omega
        rw [hk, List.range'_succ]
        simp
      · intro i hi1 hi2
        rcases Nat.eq_or_lt_of_le hi1 with h | h
        · rw [← h]
          exact hcond.1
        · exact ih5 i h hi2
    · dsimp only
      refine ⟨rfl, Nat.le_refl _, by omega, ?_, ?_⟩
      · simp
      · intro i hi1 hi2
        omega

/-- Full behaviour of `_cffi_fetch`: one more attempt than backoff
sleeps, at most `maxRetries` attempts, the returned response is the
last attempted one, every sleep is `30 * 2 ^ i` for the consecutive
attempt indices, and every slept-over attempt was rate-limited. -/
theorem cffiFetch_inv (status : Nat → Nat) (maxR : Nat) (h : 1 ≤ maxR) :
    (cffiFetch status maxR).attempts = (cffiFetch status maxR).returned + 1 ∧
      (cffiFetch status maxR).attempts ≤ maxR ∧
      (cffiFetch status maxR).waits =
        (List.range (cffiFetch status maxR).returned).map (fun i => 30 * 2 ^ i) ∧
      (∀ i, i < (cffiFetch status maxR).returned → status i = 429) := by
  unfold cffiFetch
  obtain ⟨h1, h2, h3, h4, h5⟩ := cffiGo_inv status maxR maxR 0 [] h (by omega)
  refine ⟨h1, by omega, ?_, ?_⟩
  · rw [h4]
    simp [List.range_eq_range']
  · intro i hi
    exact h5 i (Nat.zero_le i) hi

/-!
Output sink (`main`, `scrape.py` lines 920-923) and the claim
theorems.  Each record handed back by a scraper is serialized after
dropping its empty-valued fields.
-/

/-- Records written to the output sink for a trace: the emitted
records, each with its empty-valued fields removed. -/
def scraperOutput (evs : List Ev) : List Rec :=
  outputRecords (emittedRecords evs)

theorem goodRec_output {r : Rec} (h : GoodRec r) :
    ∃ v, (cleanRec r).lookup "legal_name" = some v ∧ ¬ v = [] ∧ pyUpper v = v := by
  obtain ⟨n, hn, t, rfl⟩ := h
  have hv : ¬ pyUpper n = [] := pyUpper_ne_nil hn
  refine ⟨pyUpper n, ?_, hv, pyUpper_idem n⟩
  rw [cleanRec_head "legal_name" hv]
  exact lookup_head _ _ _

theorem output_good {evs : List Ev} (hg : EmitsGood evs) :
    ∀ r, r ∈ scraperOutput evs →
      ∃ v, r.lookup "legal_name" = some v ∧ ¬ v = [] ∧ pyUpper v = v := by
  intro r hr
  simp only [scraperOutput, outputRecords] at hr
  obtain ⟨c, hc, rfl⟩ := List.mem_map.mp hr
  exact goodRec_output (hg c (mem_emittedRecords.mp hc))

theorem output_no_empty (companies : List Rec) :
    ∀ r, r ∈ outputRecords companies → ∀ kv, kv ∈ r → ¬ kv.2 = [] := by
  intro r hr kv hkv
  simp only [outputRecords] at hr
  obtain ⟨c, hc, rfl⟩ := List.mem_map.mp hr
  simp only [cleanRec, List.mem_filter] at hkv
  simpa using hkv.2

theorem limit_trace {L : Nat} {evs : List Ev}
    (h1 : emitCount evs ≤ L) (h2 : BoundedFrom L 0 evs) :
    emitCount evs ≤ L ∧
      ∀ pre e post, evs = pre ++ e :: post → isReqEv e = true →
        emitCount pre < L := by
  refine ⟨h1, ?_⟩
  intro pre e post hs hr
  have h := boundedFrom_split h2 pre e post hs hr
  omega

set_option maxRecDepth 8000 in
/-- A europages company page whose tel href normalizes to fewer than 9
characters contributes no `phone` field to its record (`scrape.py`
lines 376-380). -/
theorem euroRecord_phone_short (region slug : Str) (p : EuroCompanyPage)
    (name href : Str) (hh : p.telHref = some href)
    (hlen : (telPhoneNorm href).length < 9) :
    (euroRecord region slug p name).lookup "phone" = none := by
  unfold euroRecord
  dsimp only
  rw [hh]
  dsimp only
  rw [if_neg (by omega)]
  repeat
    first
    | (apply lookup_dictSet_pres
       case hk => decide)
    | split
    | simp [List.lookup]

theorem cffiGo_succ (status : Nat → Nat) (maxR fuel attempt : Nat)
    (waits : List Nat) :
    cffiGo status maxR (fuel + 1) attempt waits =
      if status attempt = 429 ∧ attempt < maxR - 1 then
        cffiGo status maxR fuel (attempt + 1) (waits ++ [30 * 2 ^ attempt])
      else ⟨attempt + 1, attempt, waits⟩ := rfl

/-!
Concrete environments used to instantiate the claim theorems on
closed inputs.
-/

/-- Empresite world with one card named `Acme Sl` on page 1. -/
def envAcme : EmpEnv :=
  { cityList := none
    page := fun _ p => if p = 1 then
        some [{ nameMeta := some (lit "Acme Sl"), linkHref := none,
                addrText := none, descText := none, detail := none }]
      else none }

/-- The single output record of an `envAcme` empresite run over the
city slug `barcelona`. -/
def recAcme : Rec :=
  [("legal_name", lit "ACME SL"), ("city", lit "Barcelona"),
   ("province", lit "Barcelona"), ("region", lit "Barcelona"),
   ("source_portal", lit "empresite")]

/-- Empresite world whose page 1 carries two cards with the same
name. -/
def envAcmeTwice : EmpEnv :=
  { cityList := none
    page := fun _ p => if p = 1 then
        some [{ nameMeta := some (lit "Acme"), linkHref := none,
                addrText := none, descText := none, detail := none },
              { nameMeta := some (lit "Acme"), linkHref := none,
                addrText := none, descText := none, detail := none }]
      else none }

/-- Paginasamarillas world whose `empresas` page 1 lists the same name
twice. -/
def envPATwice : PAEnv :=
  { homeNavOk := true
    homeChalOk := true
    page := fun c p => if c = lit "empresas" ∧ p = 1 then
        { navOk := true, chalOk := true,
          listings := [{ nameText := some (lit "Acme"), telCand := none,
                         addrText := none, addrCity := none, webHref := none },
                       { nameText := some (lit "Acme"), telCand := none,
                         addrText := none, addrCity := none, webHref := none }] }
      else { navOk := true, chalOk := true, listings := [] }
    hasNext := fun _ _ => false }

/-- Einforma world that always shows one result row and keeps
signalling a next page. -/
def envEinfLoop : EinfEnv :=
  { chalOk1 := true
    page := fun _ =>
      { navOk := true, chalOk := true, links := [],
        rows := [{ nameText := some (lit "A"), href := none, cifM := none }] }
    hasNext := fun _ => true }

/-- Empresite world whose page 1 carries zero cards. -/
def envNoCards : EmpEnv :=
  { cityList := none
    page := fun _ p => if p = 1 then some [] else none }

/-- Content sequence challenged on reads 0 and 1, clear from read 2
on. -/
def chalTwice : Nat → Str :=
  fun j => if j < 2 then lit "just a moment" else lit "todo bien"

/-- Response sequence with three rate-limit statuses, then
success. -/
def status429 : Nat → Nat := fun i => if i < 3 then 429 else 200

/-- C1: every record any of the six portal scrapers hands to the
output sink carries a `legal_name` field whose value is a non-empty
string equal to its own upper-casing. -/
theorem C1_output_legal_name_upper :
    (∀ env region city details limit r,
        r ∈ scraperOutput (empresiteRun env region city details limit) →
        ∃ v, r.lookup "legal_name" = some v ∧ ¬ v = [] ∧ pyUpper v = v) ∧
    (∀ env region limit r,
        r ∈ scraperOutput (europagesRun env region limit) →
        ∃ v, r.lookup "legal_name" = some v ∧ ¬ v = [] ∧ pyUpper v = v) ∧
    (∀ env region limit r,
        r ∈ scraperOutput (paRun env region limit) →
        ∃ v, r.lookup "legal_name" = some v ∧ ¬ v = [] ∧ pyUpper v = v) ∧
    (∀ env region province limit fuel r,
        r ∈ scraperOutput (einformaRun env region province limit fuel) →
        ∃ v, r.lookup "legal_name" = some v ∧ ¬ v = [] ∧ pyUpper v = v) ∧
    (∀ env region province limit fuel r,
        r ∈ scraperOutput (libreborRun env region province limit fuel) →
        ∃ v, r.lookup "legal_name" = some v ∧ ¬ v = [] ∧ pyUpper v = v) ∧
    (∀ env region limit r,
        r ∈ outputRecords (empresiaCompanies env region limit) →
        ∃ v, r.lookup "legal_name" = some v ∧ ¬ v = [] ∧ pyUpper v = v) := by
  refine ⟨?_, ?_, ?_, ?_, ?_, ?_⟩
  · intro env region city details limit
    exact output_good (empresiteRun_good env region city details limit)
  · intro env region limit
    exact output_good (europagesRun_good env region limit)
  · intro env region limit
    exact output_good (paRun_good env region limit)
  · intro env region province limit fuel
    exact output_good (einformaRun_good env region province limit fuel)
  · intro env region province limit fuel
    exact output_good (libreborRun_good env region province limit fuel)
  · intro env region limit r hr
    unfold empresiaCompanies at hr
    dsimp only at hr
    split at hr
    · simp [outputRecords] at hr
    · exact output_good (empresiaRun_good env region limit) r hr

/-- C1 witness: the record of a one-card empresite run. -/
theorem C1_output_legal_name_upper_witness :
    ∃ v, recAcme.lookup "legal_name" = some v ∧ ¬ v = [] ∧ pyUpper v = v :=
  C1_output_legal_name_upper.1 envAcme (lit "BARCELONA")
    (some (lit "barcelona")) false 0 recAcme (by decide)

/-- C2: for every record any of the six scrapers hands to the output
sink and every field of that record, the value is non-empty: the
output filter of `main` removes every empty-valued key before the
record is serialized. -/
theorem C2_output_no_empty_fields :
    (∀ env region city details limit r,
        r ∈ scraperOutput (empresiteRun env region city details limit) →
        ∀ kv, kv ∈ r → ¬ kv.2 = []) ∧
    (∀ env region limit r,
        r ∈ scraperOutput (europagesRun env region limit) →
        ∀ kv, kv ∈ r → ¬ kv.2 = []) ∧
    (∀ env region limit r,
        r ∈ scraperOutput (paRun env region limit) →
        ∀ kv, kv ∈ r → ¬ kv.2 = []) ∧
    (∀ env region province limit fuel r,
        r ∈ scraperOutput (einformaRun env region province limit fuel) →
        ∀ kv, kv ∈ r → ¬ kv.2 = []) ∧
    (∀ env region province limit fuel r,
        r ∈ scraperOutput (libreborRun env region province limit fuel) →
        ∀ kv, kv ∈ r → ¬ kv.2 = []) ∧
    (∀ env region limit r,
        r ∈ outputRecords (empresiaCompanies env region limit) →
        ∀ kv, kv ∈ r → ¬ kv.2 = []) := by
  refine ⟨?_, ?_, ?_, ?_, ?_, ?_⟩
  · intro env region city details limit
    exact output_no_empty _
  · intro env region limit
    exact output_no_empty _
  · intro env region limit
    exact output_no_empty _
  · intro env region province limit fuel
    exact output_no_empty _
  · intro env region province limit fuel
    exact output_no_empty _
  · intro env region limit
    exact output_no_empty _

/-- C2 witness: a field of the record of a one-card empresite run. -/
theorem C2_output_no_empty_fields_witness :
    ¬ (("city", lit "Barcelona") : String × Str).2 = [] :=
  C2_output_no_empty_fields.1 envAcme (lit "BARCELONA")
    (some (lit "barcelona")) false 0 recAcme (by decide)
    ("city", lit "Barcelona") (by decide)

/-- C3: for every portal scraper and every limit L ≥ 1, at most L
records are emitted, and every page, detail or navigation request in
the trace happens while fewer than L records have been emitted — the
limit is re-checked before every request. -/
theorem C3_item_limit :
    (∀ env region city details L, 0 < L →
        emitCount (empresiteRun env region city details L) ≤ L ∧
        ∀ pre e post,
          empresiteRun env region city details L = pre ++ e :: post →
          isReqEv e = true → emitCount pre < L) ∧
    (∀ env region L, 0 < L →
        emitCount (europagesRun env region L) ≤ L ∧
        ∀ pre e post, europagesRun env region L = pre ++ e :: post →
          isReqEv e = true → emitCount pre < L) ∧
    (∀ env region L, 0 < L →
        emitCount (paRun env region L) ≤ L ∧
        ∀ pre e post, paRun env region L = pre ++ e :: post →
          isReqEv e = true → emitCount pre < L) ∧
    (∀ env region province L fuel, 0 < L →
        emitCount (einformaRun env region province L fuel) ≤ L ∧
        ∀ pre e post,
          einformaRun env region province L fuel = pre ++ e :: post →
          isReqEv e = true → emitCount pre < L) ∧
    (∀ env region province L fuel, 0 < L →
        emitCount (libreborRun env region province L fuel) ≤ L ∧
        ∀ pre e post,
          libreborRun env region province L fuel = pre ++ e :: post →
          isReqEv e = true → emitCount pre < L) ∧
    (∀ env region L, 0 < L →
        emitCount (empresiaRun env region L).1 ≤ L ∧
        ∀ pre e post, (empresiaRun env region L).1 = pre ++ e :: post →
          isReqEv e = true → emitCount pre < L) := by
  refine ⟨?_, ?_, ?_, ?_, ?_, ?_⟩
  · intro env region city details L hL
    obtain ⟨h1, h2⟩ := empresiteRun_limit env region city details L hL
    exact limit_trace h1 h2
  · intro env region L hL
    obtain ⟨h1, h2⟩ := europagesRun_limit env region L hL
    exact limit_trace h1 h2
  · intro env region L hL
    obtain ⟨h1, h2⟩ := paRun_limit env region L hL
    exact limit_trace h1 h2
  · intro env region province L fuel hL
    obtain ⟨h1, h2⟩ := einformaRun_limit env region province L fuel hL
    exact limit_trace h1 h2
  · intro env region province L fuel hL
    obtain ⟨h1, h2⟩ := libreborRun_limit env region province L fuel hL
    exact limit_trace h1 h2
  · intro env region L hL
    obtain ⟨h1, h2⟩ := empresiaRun_limit env region L hL
    exact limit_trace h1 h2

/-- C3 witness: a one-card empresite run under limit 1. -/
theorem C3_item_limit_witness :
    emitCount (empresiteRun envAcme (lit "BARCELONA")
      (some (lit "barcelona")) false 1) ≤ 1 :=
  (C3_item_limit.1 envAcme (lit "BARCELONA") (some (lit "barcelona"))
    false 1 (by decide)).1

/-- C4 (amended): the scrapers that keep a seen set deduplicate —
paginasamarillas emits at most one record per upper-cased-name key and
exactly one whenever at least one raw item with that key was
extracted; europages emits at most one record per company slug URL.
Empresite keeps no seen set and deduplicates nothing (see the
counterexample). -/
theorem C4_dedup_amended :
    (∀ env region L k,
        emitKeyCount k (paRun env region L) ≤ 1 ∧
        (0 < rawCount k (paRun env region L) →
          emitKeyCount k (paRun env region L) = 1)) ∧
    (∀ env region L k,
        emitUrlCount (europagesBASE ++ k) (europagesRun env region L) ≤ 1) :=
  ⟨fun env region L k => paRun_dedup env region L k,
   fun env region L k => europagesRun_dedup env region L k⟩

/-- C4 witness: two equal-name paginasamarillas listings yield exactly
one emitted record. -/
theorem C4_dedup_amended_witness :
    emitKeyCount (lit "ACME") (paRun envPATwice (lit "BARCELONA") 0) = 1 :=
  (C4_dedup_amended.1 envPATwice (lit "BARCELONA") 0 (lit "ACME")).2 (by decide)

/-- C4 counterexample: an empresite run that extracts two raw items
with the same canonical key `ACME` emits two records — empresite never
deduplicates, refuting the claim for that portal. -/
theorem C4_dedup_counterexample :
    rawCount (lit "ACME") (empresiteRun envAcmeTwice (lit "BARCELONA")
      (some (lit "b")) false 0) = 2 ∧
    emitKeyCount (lit "ACME") (empresiteRun envAcmeTwice (lit "BARCELONA")
      (some (lit "b")) false 0) = 2 := by
  exact ⟨by decide, by decide⟩

/-- C5 (amended): empresite, europages and paginasamarillas bound the
pagination of every scope by the per-portal ceilings 40, 10 and 20
pages; einforma has no such ceiling (see the counterexample). -/
theorem C5_page_ceiling_amended :
    (∀ env region city details L s q,
        Ev.pageReq s q ∈ empresiteRun env region city details L → q ≤ 40) ∧
    (∀ env region L s q,
        Ev.pageReq s q ∈ europagesRun env region L → q ≤ 10) ∧
    (∀ env region L s q, Ev.pageReq s q ∈ paRun env region L → q ≤ 20) :=
  ⟨fun env region city details L =>
      empresiteRun_ceiling env region city details L,
   fun env region L => europagesRun_ceiling env region L,
   fun env region L => paRun_ceiling env region L⟩

/-- C5 witness: the first page request of a one-card empresite run is
within the ceiling. -/
theorem C5_page_ceiling_amended_witness :
    Ev.pageReq (lit "barcelona") 1 ∈
      empresiteRun envAcme (lit "BARCELONA") (some (lit "barcelona"))
        false 0 ∧ 1 ≤ 40 :=
  ⟨by decide,
   C5_page_ceiling_amended.1 envAcme (lit "BARCELONA")
     (some (lit "barcelona")) false 0 (lit "barcelona") 1 (by decide)⟩

/-- C5 counterexample: with a source that keeps signalling a next page
and a nonempty result list, an einforma run requests page 41 — beyond
every per-portal ceiling in the claimed 10 to 40 range — so einforma's
pagination has no page-count safety ceiling. -/
theorem C5_page_ceiling_counterexample :
    Ev.pageReq (lit "barcelona") 41 ∈
      einformaRun envEinfLoop (lit "BARCELONA") (lit "barcelona") 0 45 := by
  decide

/-- C6: for each portal scraper that paginates (empresite, europages,
paginasamarillas, einforma, librebor) and every scope, a page N that
yields zero extracted items stops that scope's pagination at or before
page N — no later page of the scope is requested.  (Empresia issues no
page sequence at all, so the property holds for it vacuously.) -/
theorem C6_zero_item_stop :
    (∀ env region city details L N scope,
        env.page scope N = some [] → 1 ≤ N →
        ∀ q, Ev.pageReq scope q ∈ empresiteRun env region city details L →
          q ≤ N) ∧
    (∀ env region L N scope, (env.list scope N).rawLinks = [] → 1 ≤ N →
        ∀ q, Ev.pageReq scope q ∈ europagesRun env region L → q ≤ N) ∧
    (∀ env region L N scope, (env.page scope N).listings = [] → 1 ≤ N →
        ∀ q, Ev.pageReq scope q ∈ paRun env region L → q ≤ N) ∧
    (∀ env region province L fuel N, einfZeroItems (env.page N) → 1 ≤ N →
        ∀ s q, Ev.pageReq s q ∈ einformaRun env region province L fuel →
          q ≤ N) ∧
    (∀ env region province L fuel N, lbZeroItems (env.page N) → 1 ≤ N →
        ∀ s q, Ev.pageReq s q ∈ libreborRun env region province L fuel →
          q ≤ N) :=
  ⟨fun env region city details L N scope hz hN =>
      empresiteRun_zero_stop env region city details L N scope hz hN,
   fun env region L N scope hz hN =>
      europagesRun_zero_stop env region L N scope hz hN,
   fun env region L N scope hz hN => paRun_zero_stop env region L N scope hz hN,
   fun env region province L fuel N hz hN =>
      einformaRun_zero_stop env region province L fuel N hz hN,
   fun env region province L fuel N hz hN =>
      libreborRun_zero_stop env region province L fuel N hz hN⟩

/-- C6 witness: an empresite run whose page 1 is empty requests no
page after 1. -/
theorem C6_zero_item_stop_witness :
    Ev.pageReq (lit "b") 1 ∈
      empresiteRun envNoCards (lit "BARCELONA") (some (lit "b")) false 0 ∧
    1 ≤ 1 :=
  ⟨by decide,
   C6_zero_item_stop.1 envNoCards (lit "BARCELONA") (some (lit "b")) false 0
     1 (lit "b") (by decide) (by decide) 1 (by decide)⟩

/-- C7: the challenge waiter returns success immediately, with zero
poll ticks, when the initial content is clear; on the sequence
[challenged, challenged, clear] (with at least 6 seconds of timeout
left) it returns success after exactly 2 poll ticks of 5 seconds; and
on content that never clears it returns failure with total polling
time exceeding the timeout by at most one 5 second poll interval. -/
theorem C7_wait_for_challenge :
    (∀ contents timeout, hasChallenge (contents 0) = false →
        waitForChallenge contents timeout = (true, 0)) ∧
    (∀ contents timeout, hasChallenge (contents 0) = true →
        hasChallenge (contents 1) = true →
        hasChallenge (contents 2) = false → 6 ≤ timeout →
        waitForChallenge contents timeout = (true, 2)) ∧
    (∀ contents timeout, (∀ j, hasChallenge (contents j) = true) →
        (waitForChallenge contents timeout).1 = false ∧
          5 * (waitForChallenge contents timeout).2 ≤ timeout + 5) :=
  ⟨waitForChallenge_clear, waitForChallenge_two_ticks, waitForChallenge_timeout⟩

/-- C7 witness: a challenged-challenged-clear content sequence under a
30 second timeout clears after exactly two ticks. -/
theorem C7_wait_for_challenge_witness :
    waitForChallenge chalTwice 30 = (true, 2) :=
  C7_wait_for_challenge.2.1 chalTwice 30 (by decide) (by decide) (by decide)
    (by decide)

/-- C8: the rate-limit retrier makes one more attempt than it sleeps,
never more than the cap, sleeps `30 * 2 ^ attempt` seconds after each
rate-limited attempt it retries, and only retries rate-limited
attempts; with a 3-attempt cap and three consecutive rate-limit
responses it makes exactly 3 attempts (never a 4th), sleeps 30 s then
60 s, and returns the third — still rate-limited — response as-is. -/
theorem C8_rate_limit_retrier :
    (∀ status maxR, 1 ≤ maxR →
        (cffiFetch status maxR).attempts = (cffiFetch status maxR).returned + 1 ∧
        (cffiFetch status maxR).attempts ≤ maxR ∧
        (cffiFetch status maxR).waits =
          (List.range (cffiFetch status maxR).returned).map
            (fun i => 30 * 2 ^ i) ∧
        (∀ i, i < (cffiFetch status maxR).returned → status i = 429)) ∧
    (∀ status : Nat → Nat, status 0 = 429 → status 1 = 429 →
        status 2 = 429 →
        cffiFetch status 3 = { attempts := 3, returned := 2, waits := [30, 60] } ∧
          status (cffiFetch status 3).returned = 429) := by
  refine ⟨cffiFetch_inv, ?_⟩
  intro status h0 h1 h2
  have he : cffiFetch status 3 =
      { attempts := 3, returned := 2, waits := [30, 60] } := by
    show cffiGo status 3 (2 + 1) 0 [] = _
    rw [cffiGo_succ, if_pos (And.intro h0 (by omega))]
    show cffiGo status 3 (1 + 1) 1 ([] ++ [30 * 2 ^ 0]) = _
    rw [cffiGo_succ, if_pos (And.intro h1 (by omega))]
    show cffiGo status 3 (0 + 1) 2 (([] ++ [30 * 2 ^ 0]) ++ [30 * 2 ^ 1]) = _
    rw [cffiGo_succ, if_neg (fun hc => absurd hc.2 (by omega))]
    norm_num
  refine ⟨he, ?_⟩
  rw [he]
  exact h2

/-- C8 witness: the three-429s-then-success sequence under cap 3. -/
theorem C8_rate_limit_retrier_witness :
    cffiFetch status429 3 = { attempts := 3, returned := 2, waits := [30, 60] } :=
  (C8_rate_limit_retrier.2 status429 (by decide) (by decide) (by decide)).1

/-- C9 (amended): phone normalization keeps digits and plus signs and
drops every other character, so "tel:+34 93 123 45 67" yields
"+34931234567"; and whenever the normalized candidate is shorter than
9 characters — the gate counts characters of the normalized string, a
leading '+' included, not digits — no phone field is emitted: the
empresite gate returns none and a europages record carries no phone
key.  (A candidate with 8 digits and a '+' passes the gate; see the
counterexample.) -/
theorem C9_phone_normalization_amended :
    telPhoneNorm (lit "tel:+34 93 123 45 67") = lit "+34931234567" ∧
    (∀ cand, (phoneSub cand).length < 9 → empresitePhoneField cand = none) ∧
    (∀ region slug p name href, p.telHref = some href →
        (telPhoneNorm href).length < 9 →
        (euroRecord region slug p name).lookup "phone" = none) := by
  refine ⟨by decide, ?_, ?_⟩
  · intro cand h
    show (if 9 ≤ (phoneSub cand).length then some (phoneSub cand) else none) =
      none
    rw [if_neg (by omega)]
  · intro region slug p name href hh hlen
    exact euroRecord_phone_short region slug p name href hh hlen

/-- C9 witness: a 7-character normalization is rejected. -/
theorem C9_phone_normalization_amended_witness :
    empresitePhoneField (lit "931 23 45") = none :=
  (C9_phone_normalization_amended.2.1 (lit "931 23 45") (by decide))

/-- C9 counterexample: the candidate "+1 2 3 4 5 6 7 8" normalizes to
"+12345678" — the '+' is kept, so normalization is not digits-only —
and that string has only 8 digits yet 9 characters, so the length gate
accepts it and the empresite detail update emits it as the record's
phone field, refuting both halves of the claim as stated. -/
theorem C9_phone_normalization_counterexample :
    empresitePhoneField (lit "+1 2 3 4 5 6 7 8") = some (lit "+12345678") ∧
    ((lit "+12345678").filter (fun c => c.isDigit)).length = 8 ∧
    (empresiteDetailUpdate
        (empresiteRecBase (lit "B") (lit "b") (lit "X") [] [] [])
        { cnae := none, phoneCand := some (lit "+1 2 3 4 5 6 7 8"),
          emailHref := none, webHref := none }).lookup "phone" =
      some (lit "+12345678") := by
  exact ⟨by decide, by decide, by decide⟩

/-- C10: the delay bounds are not configurable for `human_delay`
callers.  Python evaluates `human_delay`'s default arguments once, at
`def` time, freezing the module-initial bounds (4, 7); after `main`
rebinds the globals from `--delay-min 1 --delay-max 2`, empresite's
direct reads of the globals see (1, 2) but a `human_delay()` call with
no arguments still draws from the frozen defaults, so the claimed
"every delay call ... for every portal scraper" fails for the five
portals that only call `human_delay()`. -/
theorem C10_delay_bounds_not_configured :
    empresiteSleepBounds (mainSetDelays 1 2 delayGlobalsInit) = (1, 2) ∧
    humanDelayBounds (mainSetDelays 1 2 delayGlobalsInit) = humanDelayDefaults ∧
    humanDelayDefaults = (4, 7) ∧
    ¬ humanDelayBounds (mainSetDelays 1 2 delayGlobalsInit) =
        empresiteSleepBounds (mainSetDelays 1 2 delayGlobalsInit) := by
  exact ⟨by decide, rfl, by decide, by decide⟩
